import Mathlib

/-!
Verification of the DNA pattern-matching engine (DFA + Aho-Corasick).

This file shallowly embeds the two algorithmic components of the repository:

* `src/dfa_engine.py` — `DFAStateMachine`: a single-pattern KMP-style DFA
  (failure function, transition table, scanning loop);
* `src/aho_corasick.py` — `AhoCorasick`: a multi-pattern trie with failure
  links and a scanning loop.

Python strings are embedded as `List Char`, the mutable node graph of the
Aho-Corasick trie as an arena (`List ACNode`) addressed by integer index
(index 0 is the root), and each Python `while` loop as a fuel-bounded
recursion whose fuel provably suffices on every reachable input.
All definitions are executable, so concrete runs evaluate by `decide`.
-/

namespace DnaDfa

/-- The 5-symbol DNA alphabet `{'A', 'T', 'C', 'G', 'N'}` of both engines
(`self.alphabet` in `dfa_engine.py` and `aho_corasick.py`). -/
def alphabet : List Char := ['A', 'T', 'C', 'G', 'N']

/-- Python `str.upper()` restricted to a list of characters. -/
def upperStr (s : List Char) : List Char := s.map Char.toUpper

/-! ### Single-pattern DFA (`src/dfa_engine.py`) -/

/-- The shared shape of the two textually identical Python `while` loops

    while j > 0 and pattern[j] != c:
        j = failure_func[j - 1]

(one inline in `_build_failure_function`, one in `_get_failure_state`).
The loop is modeled with a fuel argument; fuel `j` suffices because every
stored failure value satisfies `failure_func[k] ≤ k`, so `j` strictly
decreases (proved below).  The `getD` default characters are never read on
reachable inputs (all indices stay below `pattern.length`, where Python
would otherwise raise `IndexError`). -/
def shrinkLoop (p : List Char) (fail : List Nat) (c : Char) : Nat → Nat → Nat
  | _, 0 => 0
  | 0, j + 1 => j + 1
  | fuel + 1, j + 1 =>
      if p.getD (j + 1) 'A' = c then j + 1
      else shrinkLoop p fail c fuel (fail.getD j 0)

/-- One iteration of the `for i in range(1, len(pattern))` loop of
`_build_failure_function`: shrink `j` through the failure links, then
extend it by one if `pattern[i] == pattern[j]`.  `acc` is the prefix of
`failure_func` already computed (entries `0 .. i-1`). -/
def failStep (p : List Char) (acc : List Nat) (j : Nat) (c : Char) : Nat :=
  let j1 := shrinkLoop p acc c j j
  if p.getD j1 'A' = c then j1 + 1 else j1

/-- The `for` loop of `_build_failure_function`; `rem` counts the remaining
indices `i = acc.length, …, m - 1`, and `j` is the running candidate carried
across iterations exactly as in the Python code. -/
def buildFailAux (p : List Char) : Nat → Nat → List Nat → List Nat
  | 0, _, acc => acc
  | rem + 1, j, acc =>
      let c := p.getD acc.length 'A'
      let j2 := failStep p acc j c
      buildFailAux p rem j2 (acc ++ [j2])

/-- `DFAStateMachine._build_failure_function`: the KMP failure function.
For the empty pattern the Python loop body never runs and the array is
`[0] * 0 = []`; otherwise entry 0 stays `0` and entries `1 .. m-1` are
filled in order. -/
def buildFailureFunction (p : List Char) : List Nat :=
  if p.length = 0 then [] else buildFailAux p (p.length - 1) 0 [0]

/-- The data of a built `DFAStateMachine`: the uppercased pattern and its
failure function.  The transition table is a pure function of these two
fields, so it is embedded as the function `DFAStateMachine.transitions`
rather than re-materialized as a dictionary. -/
structure DFAStateMachine where
  pattern : List Char
  failure_func : List Nat
deriving DecidableEq, Repr

/-- Construction of the automaton data (`self.pattern = pattern.upper()`
followed by `_build_failure_function`).  The Python constructor fails on
the empty pattern (see `DFAStateMachine.build`); `mkDFA` is the value it
produces on every non-empty pattern. -/
def mkDFA (pattern : List Char) : DFAStateMachine :=
  { pattern := upperStr pattern
    failure_func := buildFailureFunction (upperStr pattern) }

/-- `DFAStateMachine.__init__` as a fallible constructor.  On the empty
pattern, `_build_transitions` evaluates `pattern[-1]` in its final-state
loop and Python raises `IndexError` (there is no dedicated
`EmptyPatternError` in the source); this is modeled by `none`.  On every
non-empty pattern construction succeeds. -/
def DFAStateMachine.build (pattern : List Char) : Option DFAStateMachine :=
  match (upperStr pattern).getLast? with
  | none => none
  | some _ => some (mkDFA pattern)

/-- `DFAStateMachine._get_failure_state state char`: slide the pattern via
the failure function after a mismatch at `state`. -/
def DFAStateMachine.getFailureState (d : DFAStateMachine) (state : Nat) (c : Char) : Nat :=
  let j0 := if state > 0 then d.failure_func.getD (state - 1) 0 else 0
  let j1 := shrinkLoop d.pattern d.failure_func c j0 j0
  if d.pattern.getD j1 'A' = c ∨ c = 'N' then j1 + 1 else 0

/-- The transition table built by `DFAStateMachine._build_transitions`, as a
function of `(state, char)`.  States `0 .. m-1` advance on `'N'` or on the
expected pattern character and otherwise fold through the failure function;
the final accepting row `m` maps `'N'` and `pattern[-1]` to `m` and
otherwise calls `_get_failure_state (m - 1) char`.  The Python dict has
keys `0 .. m`; the scanner never consults states beyond `m`, and the
function extends row `m` to them. -/
def DFAStateMachine.transitions (d : DFAStateMachine) (state : Nat) (c : Char) : Nat :=
  let p := d.pattern
  if state < p.length then
    if c = 'N' ∨ c = p.getD state 'A' then state + 1
    else d.getFailureState state c
  else
    if c = 'N' ∨ c = p.getD (p.length - 1) 'A' then p.length
    else d.getFailureState (p.length - 1) c

/-- The match record produced by `DFAStateMachine.match` (a Python dict with
keys `position`, `sequence`, `length`, `score`).  `position` is the Python
int `i - len(pattern) + 1`, hence an `Int`; `score` is the float `1.0`,
embedded exactly as the rational `1`. -/
structure SMatch where
  position : Int
  sequence : List Char
  length : Nat
  score : Rat
deriving DecidableEq, Repr

/-- The scanning loop of `DFAStateMachine.match`.  `δ` is the transition
table (passed as a parameter so that the unreachability of the accepting
row can be stated), `fail` the failure function, `m` the pattern length,
`tu` the full uppercased text (needed for the `sequence` slice), `i` the
current index and `state` the current state.  An out-of-alphabet character
resets the state to 0 and emits nothing; reaching state `m` records a match
and resets the state to `failure_func[m - 1]`.  The slice
`text_upper[i - m + 1 : i + 1]` is `(tu.drop (i + 1 - m)).take m`; a match
is only ever recorded when `i + 1 ≥ m` (proved below), where the two agree. -/
def matchAux (δ : Nat → Char → Nat) (fail : List Nat) (m : Nat) (tu : List Char) :
    Nat → Nat → List Char → List SMatch
  | _, _, [] => []
  | i, state, c :: rest =>
      if c ∈ alphabet then
        if δ state c = m then
          { position := (i : Int) - (m : Int) + 1
            sequence := (tu.drop (i + 1 - m)).take m
            length := m
            score := 1 } :: matchAux δ fail m tu (i + 1) (fail.getD (δ state c - 1) 0) rest
        else matchAux δ fail m tu (i + 1) (δ state c) rest
      else matchAux δ fail m tu (i + 1) 0 rest

/-- `DFAStateMachine.match` (named `matchAll` because `match` is a Lean
keyword): uppercase the text, then run the scanning loop from index 0 and
state 0. -/
def DFAStateMachine.matchAll (d : DFAStateMachine) (text : List Char) : List SMatch :=
  let tu := upperStr text
  matchAux d.transitions d.failure_func d.pattern.length tu 0 0 tu

/-! ### Spec-side reference definitions

These definitions follow the words of the specification (naive all-overlaps
substring search, longest proper border), to be compared with the embedded
code. -/

/-- Naive all-overlaps substring search: the 0-based start positions `i`
with `t[i : i + |p|] = p`, in ascending order. -/
def naivePositions (p t : List Char) : List Nat :=
  (List.range t.length).filter (fun i => (t.drop i).take p.length == p)

/-- Spec definition of the failure value at position `i`: the length of the
longest proper prefix of `pattern[0..i]` (i.e. of `p.take (i+1)`) that is
also a suffix of it.  A prefix of `p.take (i+1)` of length `j ≤ i` is
`p.take j`, so this is the greatest `j ≤ i` with `p.take j <:+ p.take (i+1)`. -/
def borderSpec (p : List Char) (i : Nat) : Nat :=
  Nat.findGreatest (fun j => p.take j <:+ p.take (i + 1)) i

/-- The greatest `k ≤ bound` such that the length-`k` prefix of `p` is a
suffix of `u` (`k = 0` always qualifies).  With `bound = |p| - 1` this is
the invariant value of the scanner state; with `bound = |p|` it detects a
full occurrence at the end of `u`. -/
def prefSuffixLen (p u : List Char) (bound : Nat) : Nat :=
  Nat.findGreatest (fun k => p.take k <:+ u) bound

/-! ### Canonical inputs -/

/-- A string over the canonical-case 4-letter alphabet (no wildcard `'N'`). -/
def canonNoN (s : List Char) : Prop :=
  ∀ c ∈ s, c = 'A' ∨ c = 'C' ∨ c = 'G' ∨ c = 'T'

/-- A string over the canonical-case 5-symbol alphabet (wildcard allowed). -/
def canonDNA (s : List Char) : Prop := ∀ c ∈ s, c ∈ alphabet

theorem mem_alphabet_iff {c : Char} :
    c ∈ alphabet ↔ c = 'A' ∨ c = 'T' ∨ c = 'C' ∨ c = 'G' ∨ c = 'N' := by
  simp [alphabet]

theorem toUpper_eq_self_of_mem_alphabet {c : Char} (h : c ∈ alphabet) :
    c.toUpper = c := by
  rcases mem_alphabet_iff.1 h with rfl | rfl | rfl | rfl | rfl <;> decide

theorem canonNoN.mem_alphabet {s : List Char} (h : canonNoN s) {c : Char}
    (hc : c ∈ s) : c ∈ alphabet := by
  rcases h c hc with rfl | rfl | rfl | rfl <;> decide

theorem canonNoN.canonDNA {s : List Char} (h : canonNoN s) : canonDNA s :=
  fun _ hc => h.mem_alphabet hc

theorem upperStr_eq_self {s : List Char} (h : canonDNA s) : upperStr s = s := by
  induction s with
  | nil => rfl
  | cons c cs ih =>
      have hc : c ∈ alphabet := h c (by simp)
      have hcs : canonDNA cs := fun x hx => h x (by simp [hx])
      simp only [upperStr, List.map_cons] at ih ⊢
      rw [toUpper_eq_self_of_mem_alphabet hc, ih hcs]

/-! ### Prefix/suffix combinatorics -/

/-- Among prefixes of `p` that are suffixes of a common list `v`, the shorter
is a suffix of the longer. -/
theorem suffix_take_of_le {p v : List Char} {j k : Nat}
    (hj : p.take j <:+ v) (hk : p.take k <:+ v) (hjk : j ≤ k) :
    p.take j <:+ p.take k := by
  rcases List.suffix_or_suffix_of_suffix hj hk with h | h
  · exact h
  · have h1 : (p.take k).length ≤ (p.take j).length := h.length_le
    have h2 : (p.take j).length ≤ (p.take k).length := by
      simp only [List.length_take]
      omega
    have heq : p.take k = p.take j := h.eq_of_length (le_antisymm h1 h2)
    rw [heq]

theorem take_snoc {p : List Char} {k : Nat} (hk : k < p.length) :
    p.take (k + 1) = p.take k ++ [p.getD k 'A'] := by
  rw [List.take_succ]
  congr 1
  rw [List.getElem?_eq_getElem hk]
  simp [List.getD_eq_getElem?_getD, List.getElem?_eq_getElem hk]

theorem snoc_suffix_snoc {u v : List Char} {a b : Char} :
    u ++ [a] <:+ v ++ [b] ↔ u <:+ v ∧ a = b := by
  constructor
  · rintro ⟨w, hw⟩
    rw [← List.append_assoc] at hw
    have := List.append_inj' hw (by simp)
    refine ⟨⟨w, this.1⟩, ?_⟩
    have h2 := this.2
    simpa using h2
  · rintro ⟨⟨w, hw⟩, rfl⟩
    exact ⟨w, by rw [← List.append_assoc, hw]⟩

/-- Extending the scanned list by one character: the length-`k` prefix of `p`
is a suffix of `u ++ [c]` iff the length-`(k-1)` prefix is a suffix of `u`
and the next pattern character is `c`. -/
theorem take_suffix_snoc_iff {p u : List Char} {c : Char} {k : Nat}
    (hk1 : 1 ≤ k) (hk2 : k ≤ p.length) :
    p.take k <:+ u ++ [c] ↔ p.take (k - 1) <:+ u ∧ p.getD (k - 1) 'A' = c := by
  obtain ⟨kk, rfl⟩ : ∃ kk, k = kk + 1 := ⟨k - 1, by omega⟩
  have hkk : kk < p.length := by omega
  rw [take_snoc hkk, snoc_suffix_snoc]
  simp

/-! ### `Nat.findGreatest` helpers -/

theorem findGreatest_eq_of {P : Nat → Prop} [DecidablePred P] {n k : Nat}
    (hk : k ≤ n) (hP : P k) (hmax : ∀ x, x ≤ n → P x → x ≤ k) :
    Nat.findGreatest P n = k :=
  le_antisymm (hmax _ (Nat.findGreatest_le n) (Nat.findGreatest_spec hk hP))
    (Nat.le_findGreatest hk hP)

theorem findGreatest_ext {P Q : Nat → Prop} [DecidablePred P] [DecidablePred Q]
    (h : ∀ k, P k ↔ Q k) (n : Nat) :
    Nat.findGreatest P n = Nat.findGreatest Q n := by
  induction n with
  | zero => rfl
  | succ n ih =>
      rw [Nat.findGreatest_succ, Nat.findGreatest_succ, ih]
      by_cases hq : Q (n + 1)
      · rw [if_pos ((h _).2 hq), if_pos hq]
      · rw [if_neg (fun hp => hq ((h _).1 hp)), if_neg hq]

theorem prefSuffix_le {p u : List Char} {b : Nat} : prefSuffixLen p u b ≤ b :=
  Nat.findGreatest_le b

theorem take_zero_suffix (p u : List Char) : p.take 0 <:+ u := by
  rw [List.take_zero]
  exact List.nil_suffix

theorem prefSuffix_spec {p u : List Char} {b : Nat} :
    p.take (prefSuffixLen p u b) <:+ u := by
  unfold prefSuffixLen
  exact Nat.findGreatest_spec (P := fun k => p.take k <:+ u) (Nat.zero_le b)
    (take_zero_suffix p u)

theorem le_prefSuffix {p u : List Char} {b k : Nat} (hk : k ≤ b)
    (h : p.take k <:+ u) : k ≤ prefSuffixLen p u b :=
  Nat.le_findGreatest hk h

theorem borderSpec_le {p : List Char} {i : Nat} : borderSpec p i ≤ i :=
  Nat.findGreatest_le i

theorem borderSpec_suffix {p : List Char} {i : Nat} :
    p.take (borderSpec p i) <:+ p.take (i + 1) := by
  unfold borderSpec
  exact Nat.findGreatest_spec (P := fun j => p.take j <:+ p.take (i + 1))
    (Nat.zero_le i) (take_zero_suffix p _)

theorem le_borderSpec {p : List Char} {i j : Nat} (hj : j ≤ i)
    (h : p.take j <:+ p.take (i + 1)) : j ≤ borderSpec p i :=
  Nat.le_findGreatest hj h

/-! ### Correctness of the failure-link while loop -/

/-- Main property of `shrinkLoop`: started at `j` (with the failure entries
below `j` correct), it lands on the longest border length `r` of `p.take j`
(including `j` itself) whose next pattern character is `c`, or on `0` if
there is none. -/
theorem shrinkLoop_spec (p : List Char) (F : List Nat) (c : Char) :
    ∀ fuel j, j ≤ fuel → j < p.length →
    (∀ k, k < j → F.getD k 0 = borderSpec p k) →
    shrinkLoop p F c fuel j ≤ j ∧
    p.take (shrinkLoop p F c fuel j) <:+ p.take j ∧
    (shrinkLoop p F c fuel j = 0 ∨ p.getD (shrinkLoop p F c fuel j) 'A' = c) ∧
    (∀ x, x ≤ j → p.take x <:+ p.take j → p.getD x 'A' = c →
      x ≤ shrinkLoop p F c fuel j) := by
  intro fuel
  induction fuel with
  | zero =>
      intro j hj _ _
      obtain rfl : j = 0 := Nat.le_zero.mp hj
      refine ⟨le_refl _, List.suffix_refl _, Or.inl rfl, fun x hx _ _ => hx⟩
  | succ fuel ih =>
      intro j hj hjm hF
      match j with
      | 0 =>
          refine ⟨le_refl _, List.suffix_refl _, Or.inl rfl, fun x hx _ _ => hx⟩
      | jj + 1 =>
          by_cases hc : p.getD (jj + 1) 'A' = c
          · simp only [shrinkLoop, if_pos hc]
            exact ⟨le_refl _, List.suffix_refl _, Or.inr hc, fun x hx _ _ => hx⟩
          · simp only [shrinkLoop, if_neg hc]
            have hb : F.getD jj 0 = borderSpec p jj := hF jj (Nat.lt_succ_self jj)
            have hble : F.getD jj 0 ≤ jj := hb ▸ borderSpec_le
            have hbsuf : p.take (F.getD jj 0) <:+ p.take (jj + 1) :=
              hb ▸ borderSpec_suffix
            obtain ⟨h1, h2, h3, h4⟩ := ih (F.getD jj 0) (by omega) (by omega)
              (fun k hk => hF k (by omega))
            refine ⟨by omega, h2.trans hbsuf, h3, ?_⟩
            intro x hx hsuf hchar
            have hxjj : x ≤ jj := by
              rcases Nat.lt_or_ge x (jj + 1) with h | h
              · omega
              · exact absurd hchar (by
                  have : x = jj + 1 := by omega
                  rw [this]; exact hc)
            have hxb : x ≤ F.getD jj 0 := hb ▸ le_borderSpec hxjj hsuf
            exact h4 x hxb (suffix_take_of_le hsuf hbsuf hxb) hchar

/-- One iteration of the failure-function build computes the next border
value: given `j = failure[i-1]` and correct entries below `i`, `failStep`
returns the longest proper border length of `pattern[0..i]`. -/
theorem failStep_spec (p : List Char) (acc : List Nat) {i : Nat}
    (h1 : 1 ≤ i) (h2 : i < p.length)
    (hF : ∀ k, k < i → acc.getD k 0 = borderSpec p k) :
    failStep p acc (borderSpec p (i - 1)) (p.getD i 'A') = borderSpec p i := by
  have hi1 : i - 1 + 1 = i := by omega
  have hsle : borderSpec p (i - 1) ≤ i - 1 := borderSpec_le
  have hssuf : p.take (borderSpec p (i - 1)) <:+ p.take i := by
    have h := borderSpec_suffix (p := p) (i := i - 1)
    rwa [hi1] at h
  obtain ⟨r1, r2, r3, r4⟩ := shrinkLoop_spec p acc (p.getD i 'A')
    (borderSpec p (i - 1)) (borderSpec p (i - 1)) (le_refl _) (by omega)
    (fun k hk => hF k (by omega))
  set s := borderSpec p (i - 1) with hs
  set c := p.getD i 'A' with hcdef
  set r := shrinkLoop p acc c s s with hr
  have hsnoc : p.take (i + 1) = p.take i ++ [c] := take_snoc h2
  unfold failStep
  rw [← hr]
  by_cases hrc : p.getD r 'A' = c
  · rw [if_pos hrc]
    symm
    unfold borderSpec
    apply findGreatest_eq_of
    · omega
    · rw [hsnoc]
      refine (take_suffix_snoc_iff (by omega) (by omega)).mpr ?_
      simp only [Nat.add_sub_cancel]
      exact ⟨r2.trans hssuf, hrc⟩
    · intro x hx hxs
      match x with
      | 0 => omega
      | x + 1 =>
          rw [hsnoc] at hxs
          obtain ⟨hx1, hx2⟩ := (take_suffix_snoc_iff (by omega) (by omega)).mp hxs
          simp only [Nat.add_sub_cancel] at hx1 hx2
          have hxle : x ≤ s := hs ▸ le_borderSpec (by omega) (by rwa [hi1])
          have := r4 x hxle (suffix_take_of_le hx1 hssuf hxle) hx2
          omega
  · rw [if_neg hrc]
    have hr0 : r = 0 := by
      rcases r3 with h | h
      · exact h
      · exact absurd h hrc
    rw [hr0]
    symm
    unfold borderSpec
    apply findGreatest_eq_of
    · omega
    · exact take_zero_suffix p _
    · intro x hx hxs
      match x with
      | 0 => omega
      | x + 1 =>
          rw [hsnoc] at hxs
          obtain ⟨hx1, hx2⟩ := (take_suffix_snoc_iff (by omega) (by omega)).mp hxs
          simp only [Nat.add_sub_cancel] at hx1 hx2
          have hxle : x ≤ s := hs ▸ le_borderSpec (by omega) (by rwa [hi1])
          have hxr := r4 x hxle (suffix_take_of_le hx1 hssuf hxle) hx2
          rw [hr0] at hxr
          obtain rfl : x = 0 := Nat.le_zero.mp hxr
          rw [hr0] at hrc
          exact absurd hx2 hrc

theorem buildFailAux_spec (p : List Char) :
    ∀ rem j acc, 1 ≤ acc.length → acc.length + rem = p.length →
    (∀ k, k < acc.length → acc.getD k 0 = borderSpec p k) →
    j = borderSpec p (acc.length - 1) →
    (buildFailAux p rem j acc).length = p.length ∧
    ∀ k, k < p.length → (buildFailAux p rem j acc).getD k 0 = borderSpec p k := by
  intro rem
  induction rem with
  | zero =>
      intro j acc _ hlen hacc _
      simp only [buildFailAux]
      exact ⟨by omega, fun k hk => hacc k (by omega)⟩
  | succ rem ih =>
      intro j acc h1 hlen hacc hj
      simp only [buildFailAux]
      have hstep : failStep p acc j (p.getD acc.length 'A') =
          borderSpec p acc.length := by
        rw [hj]
        exact failStep_spec p acc h1 (by omega) hacc
      rw [hstep]
      have hlen2 : (acc ++ [borderSpec p acc.length]).length = acc.length + 1 := by
        simp
      refine ih _ _ (by omega) (by omega) ?_ (by rw [hlen2]; simp)
      intro k hk
      rw [hlen2] at hk
      rcases Nat.lt_or_ge k acc.length with h | h
      · rw [List.getD_append _ _ _ _ h]
        exact hacc k h
      · obtain rfl : k = acc.length := by omega
        rw [List.getD_eq_getElem?_getD]
        simp

/-- Correctness of `_build_failure_function`: entry `i` is the longest
proper border length of `pattern[0..i]`. -/
theorem buildFailureFunction_spec (p : List Char) (hp : p ≠ []) :
    (buildFailureFunction p).length = p.length ∧
    ∀ k, k < p.length → (buildFailureFunction p).getD k 0 = borderSpec p k := by
  have hm : 1 ≤ p.length := List.length_pos.mpr hp
  unfold buildFailureFunction
  rw [if_neg (by omega)]
  refine buildFailAux_spec p (p.length - 1) 0 [0] (by simp) (by simp; omega) ?_ ?_
  · intro k hk
    simp at hk
    subst hk
    simp [borderSpec]
  · simp [borderSpec]

/-- The automaton data for an already-canonical pattern;
`mkDFA p = dfaOf (upperStr p)`. -/
def dfaOf (p : List Char) : DFAStateMachine :=
  { pattern := p, failure_func := buildFailureFunction p }

theorem mkDFA_eq (p : List Char) : mkDFA p = dfaOf (upperStr p) := rfl

/-! ### Correctness of the transition table -/

theorem prefSuffix_nil {p : List Char} (hp : p ≠ []) (b : Nat) :
    prefSuffixLen p [] b = 0 := by
  unfold prefSuffixLen
  apply findGreatest_eq_of (Nat.zero_le b) (take_zero_suffix p [])
  intro x _ hx
  rw [List.suffix_nil, List.take_eq_nil_iff] at hx
  rcases hx with h | h
  · exact h.le
  · exact absurd h hp

theorem prefSuffix_full_iff {p v : List Char} (_hp : p ≠ []) :
    prefSuffixLen p v p.length = p.length ↔ p <:+ v := by
  constructor
  · intro h
    have hs := prefSuffix_spec (p := p) (u := v) (b := p.length)
    rwa [h, List.take_length] at hs
  · intro h
    have h1 : p.length ≤ prefSuffixLen p v p.length :=
      le_prefSuffix (le_refl _) (by rwa [List.take_length])
    have h2 : prefSuffixLen p v p.length ≤ p.length := prefSuffix_le
    omega

theorem prefSuffix_drop_bound {p v : List Char} (hp : p ≠ [])
    (h : prefSuffixLen p v p.length ≠ p.length) :
    prefSuffixLen p v (p.length - 1) = prefSuffixLen p v p.length := by
  have hm : 1 ≤ p.length := List.length_pos.mpr hp
  have hPm : ¬ (p.take p.length <:+ v) := by
    rw [List.take_length]
    intro hsuf
    exact h ((prefSuffix_full_iff hp).mpr hsuf)
  have hsplit : p.length = (p.length - 1) + 1 := by omega
  unfold prefSuffixLen
  conv_rhs => rw [hsplit]
  rw [Nat.findGreatest_succ, if_neg (by rw [← hsplit]; exact hPm)]

/-- After a full match ends the scanned text, capping the bound at `m - 1`
gives exactly the longest proper border of the pattern. -/
theorem prefSuffix_reset {p v : List Char} (hp : p ≠ []) (h : p <:+ v) :
    prefSuffixLen p v (p.length - 1) = borderSpec p (p.length - 1) := by
  have hm : 1 ≤ p.length := List.length_pos.mpr hp
  have hsplit : p.length - 1 + 1 = p.length := by omega
  unfold prefSuffixLen borderSpec
  apply findGreatest_ext
  intro k
  rw [hsplit]
  constructor
  · intro hk
    rcases Nat.lt_or_ge k p.length with hlt | hge
    · have hpm : p.take p.length <:+ v := by rwa [List.take_length]
      exact suffix_take_of_le hk hpm hlt.le
    · rw [List.take_of_length_le hge]
      rw [List.take_of_length_le hge] at hk
      rw [List.take_length]
  · intro hk
    have hpm : p.take p.length <:+ v := by rwa [List.take_length]
    exact hk.trans hpm

/-- Transition correctness: from the scanner-invariant state for a scanned
list `u`, reading a non-wildcard character `c` moves to the longest
prefix-suffix length of `u ++ [c]` (value `m` signalling a full match). -/
theorem transitions_eq (p : List Char) (hp : p ≠ []) (u : List Char) (c : Char)
    (hc : c ≠ 'N') :
    (dfaOf p).transitions (prefSuffixLen p u (p.length - 1)) c =
      prefSuffixLen p (u ++ [c]) p.length := by
  have hm : 1 ≤ p.length := List.length_pos.mpr hp
  have Fspec := buildFailureFunction_spec p hp
  set m := p.length with hmdef
  set F := buildFailureFunction p with hFdef
  set s := prefSuffixLen p u (m - 1) with hs
  have hsle : s ≤ m - 1 := prefSuffix_le
  have hssuf : p.take s <:+ u := prefSuffix_spec
  have hslt : s < m := by omega
  clear_value s
  simp only [DFAStateMachine.transitions, dfaOf]
  rw [if_pos hslt]
  by_cases hadv : c = p.getD s 'A'
  · rw [if_pos (Or.inr hadv)]
    symm
    unfold prefSuffixLen
    apply findGreatest_eq_of (by omega)
    · refine (take_suffix_snoc_iff (by omega) (by omega)).mpr ?_
      simp only [Nat.add_sub_cancel]
      exact ⟨hssuf, hadv.symm⟩
    · intro x hx hxs
      match x with
      | 0 => omega
      | x + 1 =>
          obtain ⟨hx1, hx2⟩ := (take_suffix_snoc_iff (by omega) (by omega)).mp hxs
          simp only [Nat.add_sub_cancel] at hx1 hx2
          have hxs2 := le_prefSuffix (b := m - 1) (show x ≤ m - 1 by omega) hx1
          omega
  · have hcond : ¬ (c = 'N' ∨ c = p.getD s 'A') := by
      rintro (h | h)
      · exact hc h
      · exact hadv h
    rw [if_neg hcond]
    simp only [DFAStateMachine.getFailureState, dfaOf]
    rcases s with _ | s'
    · rw [if_neg (lt_irrefl 0)]
      have hloop : shrinkLoop p F c 0 0 = 0 := rfl
      rw [hloop]
      by_cases h0 : p.getD 0 'A' = c
      · rw [if_pos (Or.inl h0)]
        symm
        unfold prefSuffixLen
        apply findGreatest_eq_of (by omega)
        · refine (take_suffix_snoc_iff (by omega) (by omega)).mpr ?_
          simp only [Nat.sub_self]
          exact ⟨take_zero_suffix p u, h0⟩
        · intro x hx hxs
          match x with
          | 0 => omega
          | x + 1 =>
              obtain ⟨hx1, hx2⟩ :=
                (take_suffix_snoc_iff (by omega) (by omega)).mp hxs
              simp only [Nat.add_sub_cancel] at hx1 hx2
              have := le_prefSuffix (b := m - 1) (by omega) hx1
              omega
      · rw [if_neg (by rintro (h | h); exacts [h0 h, hc h])]
        symm
        unfold prefSuffixLen
        apply findGreatest_eq_of (Nat.zero_le m) (take_zero_suffix p _)
        intro x hx hxs
        match x with
        | 0 => omega
        | x + 1 =>
            obtain ⟨hx1, hx2⟩ :=
              (take_suffix_snoc_iff (by omega) (by omega)).mp hxs
            simp only [Nat.add_sub_cancel] at hx1 hx2
            have hxle := le_prefSuffix (b := m - 1) (by omega) hx1
            have : x = 0 := by omega
            subst this
            exact absurd hx2 h0
    · rw [if_pos (Nat.succ_pos s')]
      simp only [Nat.add_sub_cancel]
      have hs'm : s' < m := by omega
      have hj0 : F.getD s' 0 = borderSpec p s' := Fspec.2 s' (by omega)
      have hj0le : F.getD s' 0 ≤ s' := by rw [hj0]; exact borderSpec_le
      have hj0suf : p.take (F.getD s' 0) <:+ p.take (s' + 1) := by
        rw [hj0]; exact borderSpec_suffix
      obtain ⟨r1, r2, r3, r4⟩ := shrinkLoop_spec p F c (F.getD s' 0)
        (F.getD s' 0) (le_refl _) (by omega) (fun k hk => Fspec.2 k (by omega))
      set r := shrinkLoop p F c (F.getD s' 0) (F.getD s' 0) with hr
      have hrsuf_u : p.take r <:+ u := ((r2.trans hj0suf).trans hssuf)
      have hmax : ∀ x, x ≤ m - 1 → p.take x <:+ u → p.getD x 'A' = c → x ≤ r := by
        intro x hxb hxu hxc
        have hxs1 : x ≤ s' + 1 := by
          have h9 := le_prefSuffix (b := m - 1) hxb hxu
          omega
        have hxne : x ≠ s' + 1 := by
          intro hcontra
          subst hcontra
          exact hadv hxc.symm
        have hxs' : x ≤ s' := by omega
        have hxsuf : p.take x <:+ p.take (s' + 1) :=
          suffix_take_of_le hxu hssuf hxs1
        have hxj0 : x ≤ F.getD s' 0 := by
          rw [hj0]; exact le_borderSpec hxs' hxsuf
        exact r4 x hxj0 (suffix_take_of_le hxsuf hj0suf hxj0) hxc
      by_cases hrc : p.getD r 'A' = c
      · rw [if_pos (Or.inl hrc)]
        symm
        unfold prefSuffixLen
        apply findGreatest_eq_of (by omega)
        · refine (take_suffix_snoc_iff (by omega) (by omega)).mpr ?_
          simp only [Nat.add_sub_cancel]
          exact ⟨hrsuf_u, hrc⟩
        · intro x hx hxs
          match x with
          | 0 => omega
          | x + 1 =>
              obtain ⟨hx1, hx2⟩ :=
                (take_suffix_snoc_iff (by omega) (by omega)).mp hxs
              simp only [Nat.add_sub_cancel] at hx1 hx2
              have : x ≤ r := hmax x (by omega) hx1 hx2
              omega
      · rw [if_neg (by rintro (h | h); exacts [hrc h, hc h])]
        have hr0 : r = 0 := by
          rcases r3 with h | h
          · exact h
          · exact absurd h hrc
        symm
        unfold prefSuffixLen
        apply findGreatest_eq_of (Nat.zero_le m) (take_zero_suffix p _)
        intro x hx hxs
        match x with
        | 0 => omega
        | x + 1 =>
            obtain ⟨hx1, hx2⟩ :=
              (take_suffix_snoc_iff (by omega) (by omega)).mp hxs
            simp only [Nat.add_sub_cancel] at hx1 hx2
            have hxle : x ≤ r := hmax x (by omega) hx1 hx2
            rw [hr0] at hxle
            obtain rfl : x = 0 := Nat.le_zero.mp hxle
            rw [hr0] at hrc
            exact absurd hx2 hrc

/-! ### Characterization of the scanner output -/

theorem take_append_one (u : List Char) (c : Char) (rest : List Char) :
    (u ++ c :: rest).take (u.length + 1) = u ++ [c] := by
  rw [List.take_append_eq_append_take, List.take_of_length_le (by omega)]
  have h1 : u.length + 1 - u.length = 1 := by omega
  rw [h1]
  rfl

/-- The reference output of the scan: one match for every index `e` at which
the pattern ends as a suffix of the processed text, in index order. -/
def goldenAux (p tu : List Char) : Nat → List Char → List SMatch
  | _, [] => []
  | i, _ :: rest =>
      (if p <:+ tu.take (i + 1) then
        [{ position := (i : Int) - (p.length : Int) + 1
           sequence := (tu.drop (i + 1 - p.length)).take p.length
           length := p.length
           score := 1 }]
      else []) ++ goldenAux p tu (i + 1) rest

theorem matchAux_eq_golden (p tu : List Char) (hp : p ≠ []) :
    ∀ rest u, tu = u ++ rest → canonNoN rest →
    matchAux (dfaOf p).transitions (buildFailureFunction p) p.length tu u.length
      (prefSuffixLen p u (p.length - 1)) rest = goldenAux p tu u.length rest := by
  have hm : 1 ≤ p.length := List.length_pos.mpr hp
  have Fspec := buildFailureFunction_spec p hp
  intro rest
  induction rest with
  | nil => intro u _ _; rfl
  | cons c rest ih =>
      intro u htu hcanon
      have hcA : c ∈ alphabet := hcanon.mem_alphabet (List.mem_cons_self c rest)
      have hcN : c ≠ 'N' := by
        rcases hcanon c (List.mem_cons_self c rest) with rfl | rfl | rfl | rfl <;> decide
      have hrest : canonNoN rest := fun x hx => hcanon x (List.mem_cons_of_mem c hx)
      have hδ := transitions_eq p hp u c hcN
      have htake : tu.take (u.length + 1) = u ++ [c] := by
        rw [htu]; exact take_append_one u c rest
      have htu2 : tu = (u ++ [c]) ++ rest := by rw [htu]; simp
      simp only [matchAux, goldenAux]
      rw [if_pos hcA, hδ]
      by_cases hfull : prefSuffixLen p (u ++ [c]) p.length = p.length
      · have hsuffull : p <:+ u ++ [c] := (prefSuffix_full_iff hp).mp hfull
        rw [if_pos hfull, if_pos (show p <:+ tu.take (u.length + 1) by
          rw [htake]; exact hsuffull)]
        have hreset : (buildFailureFunction p).getD
            (prefSuffixLen p (u ++ [c]) p.length - 1) 0 =
            prefSuffixLen p (u ++ [c]) (p.length - 1) := by
          rw [hfull, Fspec.2 (p.length - 1) (by omega), prefSuffix_reset hp hsuffull]
        rw [hreset]
        have hlen : (u ++ [c]).length = u.length + 1 := by simp
        have := ih (u ++ [c]) htu2 hrest
        rw [hlen] at this
        rw [this]
        simp
      · have hnsuf : ¬ p <:+ u ++ [c] := fun h =>
          hfull ((prefSuffix_full_iff hp).mpr h)
        rw [if_neg hfull, if_neg (show ¬ p <:+ tu.take (u.length + 1) by
          rw [htake]; exact hnsuf)]
        have hstate : prefSuffixLen p (u ++ [c]) p.length =
            prefSuffixLen p (u ++ [c]) (p.length - 1) :=
          (prefSuffix_drop_bound hp hfull).symm
        rw [hstate]
        have hlen : (u ++ [c]).length = u.length + 1 := by simp
        have := ih (u ++ [c]) htu2 hrest
        rw [hlen] at this
        rw [this]
        simp

/-- `DFAStateMachine.match` on canonical wildcard-free inputs is exactly the
reference scan output. -/
theorem matchAll_eq_golden (p t : List Char) (hp : p ≠ [])
    (hpc : canonNoN p) (htc : canonNoN t) :
    (mkDFA p).matchAll t = goldenAux p t 0 t := by
  have hup : upperStr p = p := upperStr_eq_self hpc.canonDNA
  have hut : upperStr t = t := upperStr_eq_self htc.canonDNA
  unfold DFAStateMachine.matchAll
  rw [mkDFA_eq, hup, hut]
  have h0 : prefSuffixLen p [] (p.length - 1) = 0 := prefSuffix_nil hp _
  have := matchAux_eq_golden p t hp t [] rfl htc
  simp only [List.length_nil] at this
  rw [h0] at this
  exact this

theorem goldenAux_pos_mem (p tu : List Char) :
    ∀ rest i (q : Int), q ∈ (goldenAux p tu i rest).map SMatch.position ↔
      ∃ k, k < rest.length ∧ p <:+ tu.take (i + k + 1) ∧
        q = (i + k : Int) - (p.length : Int) + 1 := by
  intro rest
  induction rest with
  | nil =>
      intro i q
      simp [goldenAux]
  | cons c rest ih =>
      intro i q
      simp only [goldenAux, List.map_append, List.mem_append, ih (i + 1) q]
      constructor
      · rintro (h | ⟨k, hk1, hk2, hk3⟩)
        · by_cases hc : p <:+ tu.take (i + 1)
          · rw [if_pos hc] at h
            simp at h
            exact ⟨0, by simp, by simpa using hc, by simpa using h⟩
          · rw [if_neg hc] at h
            simp at h
        · refine ⟨k + 1, by simp; omega, ?_, ?_⟩
          · have : i + (k + 1) + 1 = i + 1 + k + 1 := by omega
            rw [this]; exact hk2
          · rw [hk3]; push_cast; ring
      · rintro ⟨k, hk1, hk2, hk3⟩
        match k with
        | 0 =>
            left
            simp only [Nat.add_zero] at hk2 hk3
            rw [if_pos hk2]
            simpa using hk3
        | k + 1 =>
            right
            refine ⟨k, by simp at hk1; omega, ?_, ?_⟩
            · have : i + 1 + k + 1 = i + (k + 1) + 1 := by omega
              rw [this]; exact hk2
            · rw [hk3]; push_cast; ring

theorem goldenAux_pos_sorted (p tu : List Char) :
    ∀ rest i, List.Sorted (· < ·) ((goldenAux p tu i rest).map SMatch.position) := by
  intro rest
  induction rest with
  | nil => intro i; simp [goldenAux]
  | cons c rest ih =>
      intro i
      simp only [goldenAux, List.map_append]
      by_cases hc : p <:+ tu.take (i + 1)
      · rw [if_pos hc]
        simp only [List.map_cons, List.map_nil, List.singleton_append]
        rw [List.sorted_cons]
        refine ⟨?_, ih (i + 1)⟩
        intro b hb
        obtain ⟨k, _, _, rfl⟩ := (goldenAux_pos_mem p tu rest (i + 1) b).mp hb
        push_cast
        omega
      · rw [if_neg hc]
        simpa using ih (i + 1)

/-! ### Naive search vs. suffix occurrences -/

theorem naivePositions_mem (p t : List Char) (j : Nat) :
    j ∈ naivePositions p t ↔ j < t.length ∧ (t.drop j).take p.length = p := by
  simp [naivePositions, List.mem_filter]

/-- A naive occurrence at start `j` is the same as the pattern ending as a
suffix of the first `j + |p|` characters. -/
theorem occAt_iff (p t : List Char) (hp : p ≠ []) (j : Nat) :
    (t.drop j).take p.length = p ↔
      j + p.length ≤ t.length ∧ p <:+ t.take (j + p.length) := by
  have hm : 1 ≤ p.length := List.length_pos.mpr hp
  constructor
  · intro h
    have hlen : ((t.drop j).take p.length).length = p.length := by rw [h]
    rw [List.length_take, List.length_drop] at hlen
    have hle : j + p.length ≤ t.length := by omega
    refine ⟨hle, ?_⟩
    have hsplit : t.take (j + p.length) = t.take j ++ (t.drop j).take p.length :=
      List.take_add t j p.length
    rw [hsplit, h]
    exact ⟨t.take j, rfl⟩
  · rintro ⟨hle, hsuf⟩
    have hlen2 : (t.take (j + p.length)).length = j + p.length := by
      rw [List.length_take]; omega
    rw [List.suffix_iff_eq_drop, hlen2] at hsuf
    have : j + p.length - p.length = j := by omega
    rw [this] at hsuf
    rw [List.drop_take] at hsuf
    have : j + p.length - j = p.length := by omega
    rw [this] at hsuf
    exact hsuf.symm

theorem naivePositions_sorted (p t : List Char) :
    List.Sorted (· < ·) (naivePositions p t) :=
  List.Pairwise.filter _ (List.pairwise_lt_range t.length)

instance (s : List Char) : Decidable (canonNoN s) := by
  unfold canonNoN
  infer_instance

instance (s : List Char) : Decidable (canonDNA s) := by
  unfold canonDNA
  infer_instance

/-- Two strictly sorted integer lists with the same members are equal. -/
theorem sorted_lt_eq_of_mem_iff : ∀ {l₁ l₂ : List Int},
    List.Sorted (· < ·) l₁ → List.Sorted (· < ·) l₂ →
    (∀ q, q ∈ l₁ ↔ q ∈ l₂) → l₁ = l₂ := by
  intro l₁
  induction l₁ with
  | nil =>
      intro l₂ _ _ h
      cases l₂ with
      | nil => rfl
      | cons b l =>
          have := (h b).mpr (List.mem_cons_self b l)
          simp at this
  | cons a l₁ ih =>
      intro l₂ h₁ h₂ hmem
      cases l₂ with
      | nil =>
          have := (hmem a).mp (List.mem_cons_self a l₁)
          simp at this
      | cons b l₂ =>
          have hab : a = b := by
            have ha : a ∈ b :: l₂ := (hmem a).mp (List.mem_cons_self a l₁)
            have hb : b ∈ a :: l₁ := (hmem b).mpr (List.mem_cons_self b l₂)
            rcases List.mem_cons.mp ha with h | h
            · exact h
            · rcases List.mem_cons.mp hb with h' | h'
              · exact h'.symm
              · have h1 := (List.sorted_cons.mp h₂).1 a h
                have h2 := (List.sorted_cons.mp h₁).1 b h'
                omega
          subst hab
          congr 1
          apply ih (List.sorted_cons.mp h₁).2 (List.sorted_cons.mp h₂).2
          intro q
          constructor
          · intro hq
            have hq2 : q ∈ a :: l₂ := (hmem q).mp (List.mem_cons_of_mem a hq)
            rcases List.mem_cons.mp hq2 with rfl | h
            · exact absurd ((List.sorted_cons.mp h₁).1 _ hq) (lt_irrefl _)
            · exact h
          · intro hq
            have hq2 : q ∈ a :: l₁ := (hmem q).mpr (List.mem_cons_of_mem a hq)
            rcases List.mem_cons.mp hq2 with rfl | h
            · exact absurd ((List.sorted_cons.mp h₂).1 _ hq) (lt_irrefl _)
            · exact h

/-- C1 (amended: the text must also be wildcard-free and canonical — a text
character `'N'` matches any pattern character, so on texts containing `'N'`
the automaton finds strictly more positions than a naive literal search;
see `C1_counterexample`).  For every non-empty pattern and text over
`{A,C,G,T}`, the single-pattern automaton returns exactly the positions of
the naive all-overlaps substring search, in ascending order; in particular
pattern "ATA" on text "ATATA" yields positions [0, 2]. -/
theorem C1_dfa_match_eq_naive_of_canonical :
    (∀ p t : List Char, p ≠ [] → canonNoN p → canonNoN t →
      ((mkDFA p).matchAll t).map SMatch.position =
        (naivePositions p t).map (Nat.cast : Nat → Int)) ∧
    ((mkDFA ['A', 'T', 'A']).matchAll ['A', 'T', 'A', 'T', 'A']).map
      SMatch.position = [0, 2] := by
  constructor
  · intro p t hp hpc htc
    have hm : 1 ≤ p.length := List.length_pos.mpr hp
    rw [matchAll_eq_golden p t hp hpc htc]
    have hsorted2 : List.Sorted (· < ·)
        ((naivePositions p t).map (Nat.cast : Nat → Int)) :=
      List.Pairwise.map _ (fun a b h => by exact_mod_cast h)
        (naivePositions_sorted p t)
    apply sorted_lt_eq_of_mem_iff (goldenAux_pos_sorted p t t 0) hsorted2
    intro q
    rw [goldenAux_pos_mem]
    constructor
    · rintro ⟨k, hk1, hk2, hk3⟩
      simp only [Nat.zero_add] at hk2 hk3
      have hmle : p.length ≤ k + 1 := by
        have h := hk2.length_le
        rw [List.length_take] at h
        omega
      refine List.mem_map.mpr ⟨k + 1 - p.length, ?_, ?_⟩
      · rw [naivePositions_mem]
        refine ⟨by omega, ?_⟩
        rw [occAt_iff p t hp]
        have heq : k + 1 - p.length + p.length = k + 1 := by omega
        rw [heq]
        exact ⟨by omega, hk2⟩
      · omega
    · intro hq
      obtain ⟨j, hj, rfl⟩ := List.mem_map.mp hq
      rw [naivePositions_mem] at hj
      obtain ⟨hjlen, hocc⟩ := hj
      obtain ⟨hle, hsuf⟩ := (occAt_iff p t hp j).mp hocc
      refine ⟨j + p.length - 1, by omega, ?_, by push_cast; omega⟩
      have heq : 0 + (j + p.length - 1) + 1 = j + p.length := by omega
      rw [heq]
      exact hsuf
  · decide

/-- C1 counterexample to the claim as stated: for pattern "A" and the valid
Symbol-sequence text "N", the automaton reports position 0 (text-side `'N'`
is a wildcard) while the naive substring search finds nothing. -/
theorem C1_counterexample :
    ((mkDFA ['A']).matchAll ['N']).map SMatch.position = [0] ∧
      naivePositions ['A'] ['N'] = [] := by
  decide

theorem C1_witness :
    (['A', 'T', 'A'] : List Char) ≠ [] ∧
    ((mkDFA ['A', 'T', 'A']).matchAll ['A', 'T', 'A', 'T', 'A']).map
      SMatch.position =
      (naivePositions ['A', 'T', 'A'] ['A', 'T', 'A', 'T', 'A']).map
        (Nat.cast : Nat → Int) :=
  ⟨by decide, C1_dfa_match_eq_naive_of_canonical.1 ['A', 'T', 'A']
    ['A', 'T', 'A', 'T', 'A'] (by decide) (by decide) (by decide)⟩

/-! ### C9: the failure array -/

theorem upperStr_ne_nil {p : List Char} (hp : p ≠ []) : upperStr p ≠ [] := by
  unfold upperStr
  simpa using hp

theorem upperStr_length (p : List Char) : (upperStr p).length = p.length := by
  simp [upperStr]

/-- C9: for every non-empty pattern, the failure array built at construction
has the pattern's length, starts with 0, and entry `i` is the length of the
longest proper prefix of `pattern[0..i]` that is also a suffix of it (hence
at most `i`). -/
theorem C9_failure_function_is_border :
    ∀ p : List Char, p ≠ [] →
    (mkDFA p).failure_func.length = (mkDFA p).pattern.length ∧
    (mkDFA p).failure_func.getD 0 0 = 0 ∧
    ∀ i, i < (mkDFA p).pattern.length →
      (mkDFA p).failure_func.getD i 0 = borderSpec (mkDFA p).pattern i ∧
      (mkDFA p).failure_func.getD i 0 ≤ i := by
  intro p hp
  have hpu : upperStr p ≠ [] := upperStr_ne_nil hp
  have hm : 1 ≤ (upperStr p).length := List.length_pos.mpr hpu
  obtain ⟨h1, h2⟩ := buildFailureFunction_spec (upperStr p) hpu
  refine ⟨h1, ?_, ?_⟩
  · rw [show (mkDFA p).failure_func = buildFailureFunction (upperStr p) from rfl,
      h2 0 (by omega)]
    rfl
  · intro i hi
    have hi2 : i < (upperStr p).length := hi
    refine ⟨h2 i hi2, ?_⟩
    rw [show (mkDFA p).failure_func = buildFailureFunction (upperStr p) from rfl,
      h2 i hi2]
    exact borderSpec_le

theorem C9_witness :
    (['A', 'T', 'A'] : List Char) ≠ [] ∧
    (mkDFA ['A', 'T', 'A']).failure_func.length =
      (mkDFA ['A', 'T', 'A']).pattern.length ∧
    (mkDFA ['A', 'T', 'A']).failure_func.getD 0 0 = 0 ∧
    ∀ i, i < (mkDFA ['A', 'T', 'A']).pattern.length →
      (mkDFA ['A', 'T', 'A']).failure_func.getD i 0 =
        borderSpec (mkDFA ['A', 'T', 'A']).pattern i ∧
      (mkDFA ['A', 'T', 'A']).failure_func.getD i 0 ≤ i :=
  ⟨by decide, C9_failure_function_is_border ['A', 'T', 'A'] (by decide)⟩

/-! ### C10: the accepting row is never consulted -/

theorem shrinkLoop_le (p : List Char) (F : List Nat) (c : Char)
    (hF : ∀ k, F.getD k 0 ≤ k) :
    ∀ fuel j, shrinkLoop p F c fuel j ≤ j := by
  intro fuel
  induction fuel with
  | zero =>
      intro j
      match j with
      | 0 => exact le_refl _
      | j + 1 => exact le_refl _
  | succ fuel ih =>
      intro j
      match j with
      | 0 => exact le_refl _
      | j + 1 =>
          simp only [shrinkLoop]
          by_cases hc : p.getD (j + 1) 'A' = c
          · rw [if_pos hc]
          · rw [if_neg hc]
            have h1 := ih (F.getD j 0)
            have h2 := hF j
            omega

theorem mkDFA_fail_le (p : List Char) (hp : p ≠ []) :
    ∀ k, (mkDFA p).failure_func.getD k 0 ≤ k := by
  intro k
  obtain ⟨h1, _, h3⟩ := C9_failure_function_is_border p hp
  rcases Nat.lt_or_ge k (mkDFA p).pattern.length with h | h
  · exact (h3 k h).2
  · rw [List.getD_eq_default _ _ (by omega)]
    exact Nat.zero_le k

theorem transitions_le (p : List Char) (hp : p ≠ []) (s : Nat) (c : Char)
    (hs : s < (mkDFA p).pattern.length) :
    (mkDFA p).transitions s c ≤ (mkDFA p).pattern.length := by
  have hm : 1 ≤ (mkDFA p).pattern.length := by
    rw [show (mkDFA p).pattern = upperStr p from rfl]
    exact List.length_pos.mpr (upperStr_ne_nil hp)
  have hFle := mkDFA_fail_le p hp
  simp only [DFAStateMachine.transitions]
  rw [if_pos hs]
  by_cases hc : c = 'N' ∨ c = (mkDFA p).pattern.getD s 'A'
  · rw [if_pos hc]; omega
  · rw [if_neg hc]
    simp only [DFAStateMachine.getFailureState]
    set j0 := if s > 0 then (mkDFA p).failure_func.getD (s - 1) 0 else 0 with hj0
    have hloople := shrinkLoop_le (mkDFA p).pattern (mkDFA p).failure_func c
      hFle j0 j0
    have hj0le : j0 + 1 ≤ (mkDFA p).pattern.length := by
      rcases Nat.eq_zero_or_pos s with rfl | hspos
      · rw [hj0]; simp; omega
      · rw [hj0, if_pos hspos]
        have := hFle (s - 1)
        omega
    by_cases hfin : (mkDFA p).pattern.getD
        (shrinkLoop (mkDFA p).pattern (mkDFA p).failure_func c j0 j0) 'A' = c
        ∨ c = 'N'
    · rw [if_pos hfin]; omega
    · rw [if_neg hfin]; omega

/-- The core invariant behind C10: two transition tables that agree on all
states below `m` drive the scan identically from any state below `m`. -/
theorem matchAux_agree (p : List Char) (hp : p ≠ []) (tu : List Char)
    (δ2 : Nat → Char → Nat)
    (hδ : ∀ s c, s < (mkDFA p).pattern.length →
      δ2 s c = (mkDFA p).transitions s c) :
    ∀ rest i s, s < (mkDFA p).pattern.length →
    matchAux δ2 (mkDFA p).failure_func (mkDFA p).pattern.length tu i s rest =
    matchAux (mkDFA p).transitions (mkDFA p).failure_func
      (mkDFA p).pattern.length tu i s rest := by
  have hm : 1 ≤ (mkDFA p).pattern.length := by
    rw [show (mkDFA p).pattern = upperStr p from rfl]
    exact List.length_pos.mpr (upperStr_ne_nil hp)
  intro rest
  induction rest with
  | nil => intro i s _; rfl
  | cons c rest ih =>
      intro i s hs
      simp only [matchAux]
      by_cases hca : c ∈ alphabet
      · rw [if_pos hca, if_pos hca, hδ s c hs]
        by_cases hfull : (mkDFA p).transitions s c = (mkDFA p).pattern.length
        · rw [if_pos hfull, if_pos hfull]
          have hreset : (mkDFA p).failure_func.getD
              ((mkDFA p).transitions s c - 1) 0 < (mkDFA p).pattern.length := by
            have := mkDFA_fail_le p hp ((mkDFA p).transitions s c - 1)
            omega
          rw [ih (i + 1) _ hreset]
        · rw [if_neg hfull, if_neg hfull]
          have hlt : (mkDFA p).transitions s c < (mkDFA p).pattern.length := by
            have := transitions_le p hp s c hs
            omega
          rw [ih (i + 1) _ hlt]
      · rw [if_neg hca, if_neg hca, ih (i + 1) 0 (by omega)]

/-- C10: on every scan the state at the start of each step is strictly below
the accepting state `m` (the state after a recorded match is reset to
`failure_func[m-1] ≤ m - 1`), so the transition row of the accepting state
is never consulted: any table `δ2` agreeing with the built one on states
below `m` produces the identical match list. -/
theorem C10_accepting_row_never_consulted :
    ∀ (p t : List Char), p ≠ [] →
    ((mkDFA p).failure_func.getD ((mkDFA p).pattern.length - 1) 0 ≤
      (mkDFA p).pattern.length - 1) ∧
    ∀ δ2 : Nat → Char → Nat,
      (∀ s c, s < (mkDFA p).pattern.length →
        δ2 s c = (mkDFA p).transitions s c) →
      matchAux δ2 (mkDFA p).failure_func (mkDFA p).pattern.length
        (upperStr t) 0 0 (upperStr t) = (mkDFA p).matchAll t := by
  intro p t hp
  have hm : 1 ≤ (mkDFA p).pattern.length := by
    rw [show (mkDFA p).pattern = upperStr p from rfl]
    exact List.length_pos.mpr (upperStr_ne_nil hp)
  refine ⟨mkDFA_fail_le p hp _, ?_⟩
  intro δ2 hδ
  rw [DFAStateMachine.matchAll]
  exact matchAux_agree p hp (upperStr t) δ2 hδ (upperStr t) 0 0 (by omega)

theorem C10_witness :
    (['A', 'T', 'A'] : List Char) ≠ [] ∧
    ((mkDFA ['A', 'T', 'A']).failure_func.getD
      ((mkDFA ['A', 'T', 'A']).pattern.length - 1) 0 ≤
      (mkDFA ['A', 'T', 'A']).pattern.length - 1) ∧
    matchAux (fun s c => if s < (mkDFA ['A', 'T', 'A']).pattern.length
        then (mkDFA ['A', 'T', 'A']).transitions s c else 99)
      (mkDFA ['A', 'T', 'A']).failure_func
      (mkDFA ['A', 'T', 'A']).pattern.length
      (upperStr ['A', 'T', 'A', 'T', 'A']) 0 0
      (upperStr ['A', 'T', 'A', 'T', 'A']) =
      (mkDFA ['A', 'T', 'A']).matchAll ['A', 'T', 'A', 'T', 'A'] := by
  have h := C10_accepting_row_never_consulted ['A', 'T', 'A']
    ['A', 'T', 'A', 'T', 'A'] (by decide)
  refine ⟨by decide, h.1, ?_⟩
  exact h.2 _ (fun s c hs => by rw [if_pos hs])

/-! ### C7: the accepting row's fold anchor -/

/-- Modelled from the claim's words: "start from `j = anchor`, repeatedly
replace `j` by `failure[j-1]` while `j > 0` and `pattern[j]` differs from
`c`, then go to `j+1` if `pattern[j]` equals `c` (or `c` is `N`) and to `0`
otherwise."  The claim anchors this at `failure[m-1]`
(see `claimFinalRow`); the code anchors it at `failure[m-2]`. -/
def foldFromAnchor (d : DFAStateMachine) (anchor : Nat) (c : Char) : Nat :=
  let j1 := shrinkLoop d.pattern d.failure_func c anchor anchor
  if d.pattern.getD j1 'A' = c ∨ c = 'N' then j1 + 1 else 0

/-- The final-row transition exactly as the claim states it: the folding
rule anchored at `failure[m-1]`. -/
def claimFinalRow (d : DFAStateMachine) (c : Char) : Nat :=
  foldFromAnchor d (d.failure_func.getD (d.pattern.length - 1) 0) c

/-- C7 counterexample: for pattern "AC" and symbol `'C'`, the built table
maps the accepting state 2 to 2 (the code short-circuits on
`char == pattern[-1]`), while the claim's folding rule anchored at
`failure[m-1] = 0` yields 0. -/
theorem C7_counterexample :
    (mkDFA ['A', 'C']).transitions 2 'C' = 2 ∧
    claimFinalRow (mkDFA ['A', 'C']) 'C' = 0 := by
  decide

/-- C7 (amended): the transition out of the accepting state `m` equals `m`
when `c` is `'N'` or the last pattern character, and otherwise equals the
folding rule anchored at `failure[m-2]` (at `0` when `m = 1`) — i.e. at
`_get_failure_state (m-1) c` — not the rule anchored at `failure[m-1]`
stated by the claim. -/
theorem C7_final_row_fold_anchor :
    ∀ (p : List Char) (c : Char), p ≠ [] →
    ((c = 'N' ∨ c = (mkDFA p).pattern.getD ((mkDFA p).pattern.length - 1) 'A') →
      (mkDFA p).transitions (mkDFA p).pattern.length c =
        (mkDFA p).pattern.length) ∧
    (c ≠ 'N' → c ≠ (mkDFA p).pattern.getD ((mkDFA p).pattern.length - 1) 'A' →
      (mkDFA p).transitions (mkDFA p).pattern.length c =
        foldFromAnchor (mkDFA p)
          (if (mkDFA p).pattern.length = 1 then 0
           else (mkDFA p).failure_func.getD ((mkDFA p).pattern.length - 2) 0)
          c) := by
  intro p c hp
  have hm : 1 ≤ (mkDFA p).pattern.length := by
    rw [show (mkDFA p).pattern = upperStr p from rfl]
    exact List.length_pos.mpr (upperStr_ne_nil hp)
  constructor
  · intro hc
    simp only [DFAStateMachine.transitions]
    rw [if_neg (lt_irrefl _), if_pos hc]
  · intro hc1 hc2
    simp only [DFAStateMachine.transitions]
    rw [if_neg (lt_irrefl _), if_neg (by rintro (h | h); exacts [hc1 h, hc2 h])]
    simp only [DFAStateMachine.getFailureState, foldFromAnchor]
    rcases Nat.lt_or_ge (mkDFA p).pattern.length 2 with h2 | h2
    · have h1 : (mkDFA p).pattern.length = 1 := by omega
      rw [h1]
      simp
    · have h1 : ¬ (mkDFA p).pattern.length = 1 := by omega
      rw [if_neg h1]
      have hgt : (mkDFA p).pattern.length - 1 > 0 := by omega
      rw [if_pos hgt]
      have : (mkDFA p).pattern.length - 1 - 1 = (mkDFA p).pattern.length - 2 := by
        omega
      rw [this]

theorem C7_witness :
    (['A', 'C'] : List Char) ≠ [] ∧
    (mkDFA ['A', 'C']).transitions 2 'T' =
      foldFromAnchor (mkDFA ['A', 'C'])
        (if (mkDFA ['A', 'C']).pattern.length = 1 then 0
         else (mkDFA ['A', 'C']).failure_func.getD
           ((mkDFA ['A', 'C']).pattern.length - 2) 0) 'T' :=
  ⟨by decide, (C7_final_row_fold_anchor ['A', 'C'] 'T' (by decide)).2
    (by decide) (by decide)⟩

/-! ### C4 (single-automaton half): the text-side wildcard -/

/-- Reading `'N'` from the text always advances any non-accepting state. -/
theorem transitions_wildcard (p : List Char) (s : Nat)
    (hs : s < (mkDFA p).pattern.length) :
    (mkDFA p).transitions s 'N' = s + 1 := by
  simp only [DFAStateMachine.transitions]
  rw [if_pos hs]
  simp

/-- A pattern-side `'N'` is never advanced over by a non-`'N'` text symbol:
the transition falls back to a state at most `s`. -/
theorem transitions_pattern_wildcard_literal (p : List Char) (hp : p ≠ [])
    (s : Nat) (c : Char) (hs : s < (mkDFA p).pattern.length)
    (hps : (mkDFA p).pattern.getD s 'A' = 'N') (hc : c ≠ 'N') :
    (mkDFA p).transitions s c ≤ s := by
  have hFle := mkDFA_fail_le p hp
  simp only [DFAStateMachine.transitions]
  rw [if_pos hs, if_neg (by rintro (h | h); exacts [hc h, hc (by rw [h, hps])])]
  simp only [DFAStateMachine.getFailureState]
  set j0 := if s > 0 then (mkDFA p).failure_func.getD (s - 1) 0 else 0 with hj0
  have hloople := shrinkLoop_le (mkDFA p).pattern (mkDFA p).failure_func c
    hFle j0 j0
  have hj0le : j0 ≤ s := by
    rcases Nat.eq_zero_or_pos s with rfl | hspos
    · rw [hj0]; simp
    · rw [hj0, if_pos hspos]
      have := hFle (s - 1)
      omega
  by_cases hfin : (mkDFA p).pattern.getD
      (shrinkLoop (mkDFA p).pattern (mkDFA p).failure_func c j0 j0) 'A' = c
      ∨ c = 'N'
  · rw [if_pos hfin]
    rcases hfin with h | h
    · rcases Nat.eq_zero_or_pos s with rfl | hspos
      · exfalso
        have hz : j0 = 0 := by rw [hj0]; simp
        have : shrinkLoop (mkDFA p).pattern (mkDFA p).failure_func c j0 j0 = 0 := by
          rw [hz]; rfl
        rw [this, hps] at h
        exact hc h.symm
      · have hj0eq : j0 = (mkDFA p).failure_func.getD (s - 1) 0 := by
          rw [hj0, if_pos hspos]
        have h8 := hFle (s - 1)
        omega
    · exact absurd h hc
  · rw [if_neg hfin]; omega

/-! ### C5 (single-automaton half): positions strictly ascend -/

theorem matchAux_pos_ge (δ : Nat → Char → Nat) (fail : List Nat) (m : Nat)
    (tu : List Char) :
    ∀ rest i s q, q ∈ (matchAux δ fail m tu i s rest).map SMatch.position →
      (i : Int) - (m : Int) + 1 ≤ q := by
  intro rest
  induction rest with
  | nil => intro i s q hq; simp [matchAux] at hq
  | cons c rest ih =>
      intro i s q hq
      simp only [matchAux] at hq
      by_cases hca : c ∈ alphabet
      · rw [if_pos hca] at hq
        by_cases hfull : δ s c = m
        · rw [if_pos hfull] at hq
          simp only [List.map_cons, List.mem_cons] at hq
          rcases hq with rfl | hq
          · omega
          · have := ih (i + 1) _ q hq
            push_cast at this ⊢
            omega
        · rw [if_neg hfull] at hq
          have := ih (i + 1) _ q hq
          push_cast at this ⊢
          omega
      · rw [if_neg hca] at hq
        have := ih (i + 1) _ q hq
        push_cast at this ⊢
        omega

theorem matchAux_pos_sorted (δ : Nat → Char → Nat) (fail : List Nat) (m : Nat)
    (tu : List Char) :
    ∀ rest i s,
      List.Sorted (· < ·) ((matchAux δ fail m tu i s rest).map SMatch.position) := by
  intro rest
  induction rest with
  | nil => intro i s; simp [matchAux]
  | cons c rest ih =>
      intro i s
      simp only [matchAux]
      by_cases hca : c ∈ alphabet
      · rw [if_pos hca]
        by_cases hfull : δ s c = m
        · rw [if_pos hfull]
          simp only [List.map_cons]
          rw [List.sorted_cons]
          refine ⟨?_, ih (i + 1) _⟩
          intro b hb
          have := matchAux_pos_ge δ fail m tu rest (i + 1) _ b hb
          push_cast at this ⊢
          omega
        · rw [if_neg hfull]
          exact ih (i + 1) _
      · rw [if_neg hca]
        exact ih (i + 1) _

/-- The single-pattern scanner reports strictly ascending positions on every
pattern and every text, with no hypotheses at all. -/
theorem dfa_matchAll_sorted (d : DFAStateMachine) (t : List Char) :
    List.Sorted (· < ·) ((d.matchAll t).map SMatch.position) :=
  matchAux_pos_sorted d.transitions d.failure_func d.pattern.length
    (upperStr t) (upperStr t) 0 0

/-! ### Multi-pattern automaton (`src/aho_corasick.py`)

The mutable `TrieNode` graph is embedded as an arena `List ACNode` addressed
by index; index 0 is the root.  `children` is an insertion-ordered
association list (Python dicts preserve insertion order), `fail` the failure
link index (Python's `None` placeholder is never read before the link is
set; the placeholder is 0 here), and `patterns` the list of pattern indices
ending at the node (plus, after the build, the inherited ones). -/

/-- A node of the Aho-Corasick trie (`TrieNode.__init__`). -/
structure ACNode where
  children : List (Char × Nat)
  fail : Nat
  patterns : List Nat
deriving DecidableEq, Repr

instance : Inhabited ACNode := ⟨⟨[], 0, []⟩⟩

/-- Look up the child of node `v` along symbol `c` (`char in node.children`
and `node.children[char]` combined). -/
def childOf (ns : List ACNode) (v : Nat) (c : Char) : Option Nat :=
  ((ns.getD v default).children.lookup c)

/-- The arena after `_build_trie` creates a fresh `TrieNode()` (appended at
index `ns.length`) and records it as the `c`-child of `v`. -/
def extendArena (ns : List ACNode) (v : Nat) (c : Char) : List ACNode :=
  (ns.set v { ns.getD v default with
    children := (ns.getD v default).children ++ [(c, ns.length)] }) ++
    [(default : ACNode)]

/-- Walk one pattern through the trie from node `v`, creating child nodes on
demand (the inner loop of `_build_trie`); returns the updated arena and the
terminal node. -/
def insertPath (ns : List ACNode) (v : Nat) : List Char → List ACNode × Nat
  | [] => (ns, v)
  | c :: cs =>
      match childOf ns v c with
      | some w => insertPath ns w cs
      | none => insertPath (extendArena ns v c) ns.length cs

/-- Insert one pattern and record its index at the terminal node
(`node.patterns.append(i)`). -/
def insertPattern (ns : List ACNode) (i : Nat) (pat : List Char) : List ACNode :=
  let r := insertPath ns 0 pat
  let nd := r.1.getD r.2 default
  r.1.set r.2 { nd with patterns := nd.patterns ++ [i] }

/-- The `for i, pattern in enumerate(self.patterns)` loop of `_build_trie`;
`k` is the index of the next pattern. -/
def buildTrieAux (k : Nat) (ns : List ACNode) : List (List Char) → List ACNode
  | [] => ns
  | q :: qs => buildTrieAux (k + 1) (insertPattern ns k q) qs

/-- `_build_trie`: insert every pattern in order, starting from a root-only
arena. -/
def buildTrie (ps : List (List Char)) : List ACNode :=
  buildTrieAux 0 [(default : ACNode)] ps

/-- The shared shape of the two Python `while` loops that walk failure links
looking for a node with a `c`-child:

    while node != root and char not in node.children:
        node = node.fail

(one in `_build_failure_function` over `fail`, one in `match` over `node`).
Fuel-bounded; fuel `ns.length` suffices because failure links strictly
decrease trie depth (proved below). -/
def chainToChild (ns : List ACNode) (c : Char) : Nat → Nat → Nat
  | _, 0 => 0
  | 0, v + 1 => v + 1
  | fuel + 1, v + 1 =>
      if (childOf ns (v + 1) c).isSome then v + 1
      else chainToChild ns c fuel (ns.getD (v + 1) default).fail

/-- After the chain walk, step into the `c`-child if one exists, else go to
the root (`fail.children[char] if char in fail.children else root`, and the
identical transition step of `match`). -/
def gotoChild (ns : List ACNode) (c : Char) (v : Nat) : Nat :=
  let r := chainToChild ns c ns.length v
  match childOf ns r c with
  | some w => w
  | none => 0

/-- Process the recorded children list of dequeued node `v` (the
`for char, child in node.children.items()` loop of
`_build_failure_function`): set each child's failure link, extend its
pattern list with the failure target's patterns, and collect the children
for the queue.  Mirrors the Python statement order: `child.fail` is
assigned first, then `child.patterns.extend(child.fail.patterns)`. -/
def processChildren (ns : List ACNode) (v : Nat) :
    List (Char × Nat) → List ACNode × List Nat
  | [] => (ns, [])
  | (c, w) :: cs =>
      let f := gotoChild ns c ((ns.getD v default).fail)
      let nd := ns.getD w default
      let ns1 := ns.set w { nd with fail := f }
      let inh := (ns1.getD f default).patterns
      let nd1 := ns1.getD w default
      let ns2 := ns1.set w { nd1 with patterns := nd1.patterns ++ inh }
      let r := processChildren ns2 v cs
      (r.1, w :: r.2)

/-- The breadth-first queue loop of `_build_failure_function`.  Fuel-bounded;
each node is enqueued at most once, so fuel `ns.length` suffices (proved
below). -/
def bfsLoop : Nat → List ACNode → List Nat → List ACNode
  | _, ns, [] => ns
  | 0, ns, _ :: _ => ns
  | fuel + 1, ns, v :: rest =>
      let r := processChildren ns v (ns.getD v default).children
      bfsLoop fuel r.1 (rest ++ r.2)

/-- The built multi-pattern automaton: the uppercased pattern list and the
node arena. -/
structure AhoCorasick where
  patterns : List (List Char)
  nodes : List ACNode
deriving DecidableEq, Repr

/-- `AhoCorasick.__init__`: uppercase the patterns, build the trie, point the
root's failure link at itself, set every depth-1 node's failure link to the
root and seed the queue with them, then run the breadth-first loop.  Note
that no exception is raised for an empty pattern list: the automaton is
built with a bare root and matches nothing. -/
def AhoCorasick.build (patterns : List (List Char)) : AhoCorasick :=
  let ps := patterns.map upperStr
  let ns := buildTrie ps
  let nd := ns.getD 0 default
  let ns1 := ns.set 0 { nd with fail := 0 }
  let rootChildren := (ns1.getD 0 default).children
  let ns2 := rootChildren.foldl
    (fun acc cw => acc.set cw.2 { acc.getD cw.2 default with fail := 0 }) ns1
  { patterns := ps, nodes := bfsLoop ns2.length ns2 (rootChildren.map Prod.snd) }

/-- The match record produced by `AhoCorasick.match` (a Python dict with keys
`position`, `pattern`, `length`, `pattern_id`, `score`). -/
structure ACMatch where
  position : Int
  pattern : List Char
  length : Nat
  pattern_id : Nat
  score : Rat
deriving DecidableEq, Repr

/-- The `for pattern_id in node.patterns` emission loop of `match`. -/
def acEmit (ps : List (List Char)) (i : Nat) (ids : List Nat) : List ACMatch :=
  ids.map fun pid =>
    { position := (i : Int) - ((ps.getD pid []).length : Int) + 1
      pattern := ps.getD pid []
      length := (ps.getD pid []).length
      pattern_id := pid
      score := 1 }

/-- The scanning loop of `AhoCorasick.match`: walk failure links until a
`c`-child exists (or the root is reached), step into it (or stay at the
root), then emit one match per pattern id at the resulting node. -/
def acScanAux (ac : AhoCorasick) : Nat → Nat → List Char → List ACMatch
  | _, _, [] => []
  | i, v, c :: rest =>
      acEmit ac.patterns i ((ac.nodes.getD (gotoChild ac.nodes c v) default).patterns)
        ++ acScanAux ac (i + 1) (gotoChild ac.nodes c v) rest

/-- `AhoCorasick.match` (named `matchAll` because `match` is a Lean keyword):
uppercase the text and scan from the root. -/
def AhoCorasick.matchAll (ac : AhoCorasick) (text : List Char) : List ACMatch :=
  acScanAux ac 0 0 (upperStr text)

/-! ### C3: construction-time failures -/

/-- C3 counterexample: constructing the multi-pattern automaton from the
empty pattern list does not fail at all (the Python constructor raises
nothing): it produces a root-only automaton that scans normally. -/
theorem C3_counterexample :
    (AhoCorasick.build []).nodes = [⟨[], 0, []⟩] ∧
    (AhoCorasick.build []).matchAll ['A'] = [] := by
  decide

theorem acBuild_nil_matchAll (t : List Char) :
    (AhoCorasick.build []).matchAll t = [] := by
  have hb : AhoCorasick.build [] = ⟨[], [⟨[], 0, []⟩]⟩ := by decide
  rw [AhoCorasick.matchAll, hb]
  generalize upperStr t = tu
  suffices h : ∀ (rest : List Char) (i : Nat),
      acScanAux ⟨[], [⟨[], 0, []⟩]⟩ i 0 rest = [] from h tu 0
  intro rest
  induction rest with
  | nil => intro i; rfl
  | cons c rest ih =>
      intro i
      show acEmit _ _ _ ++ _ = []
      have hgoto : gotoChild [⟨[], 0, []⟩] c 0 = 0 := rfl
      rw [hgoto]
      simpa [acEmit] using ih (i + 1)

/-- C3 (amended): the single-pattern constructor fails exactly on the empty
pattern — deterministically, via the `pattern[-1]` IndexError in
`_build_transitions` (the source defines no `EmptyPatternError` class) —
while the multi-pattern constructor does not fail on the empty pattern
list: it succeeds and the resulting automaton returns no matches on any
text. -/
theorem C3_construction_failures :
    (∀ p : List Char, DFAStateMachine.build p = none ↔ p = []) ∧
    (∀ t : List Char, (AhoCorasick.build []).matchAll t = []) := by
  constructor
  · intro p
    rw [DFAStateMachine.build]
    constructor
    · intro h
      match hlast : (upperStr p).getLast? with
      | some x => rw [hlast] at h; exact absurd h (by simp)
      | none =>
          have := List.getLast?_eq_none_iff.mp hlast
          unfold upperStr at this
          simpa using this
    · rintro rfl
      rfl
  · exact acBuild_nil_matchAll

/-! ### C6: an empty pattern string in the multi-pattern list -/

/-- C6 counterexample: with patterns `["", "A"]` the empty pattern is not a
no-op — it terminates at the root node and a scan of the text "C" emits a
zero-length match for it at position 1. -/
theorem C6_counterexample :
    (AhoCorasick.build [[], ['A']]).matchAll ['C'] =
      [{ position := 1, pattern := [], length := 0, pattern_id := 0,
         score := 1 }] := by
  decide

/-- C6 (amended): construction from a non-empty list containing an empty
pattern string does not fail, and the remaining patterns are matched as
usual; but the empty pattern is not a no-op: it terminates at the root node
(the root's pattern list records its index), and every scan step that ends
at a node carrying the root's pattern list emits a zero-length match for it
at position `i + 1` (steps ending on a depth-1 node do not, since depth-1
nodes never inherit the root's pattern list). -/
theorem C6_empty_pattern_not_ignored :
    ((AhoCorasick.build [[], ['A']]).nodes.getD 0 default).patterns = [0] ∧
    (AhoCorasick.build [[], ['A']]).matchAll ['C'] =
      [{ position := 1, pattern := [], length := 0, pattern_id := 0,
         score := 1 }] ∧
    (AhoCorasick.build [[], ['A']]).matchAll ['A'] =
      [{ position := 0, pattern := ['A'], length := 1, pattern_id := 1,
         score := 1 }] := by
  decide

/-! ### C4: the wildcard asymmetry between the two automata -/

/-- C4 counterexample: the multi-pattern automaton does not treat a text-side
`'N'` as a wildcard: pattern "ACG" on text "ANG" yields no match at all
(the claim requires a match at position 0 for both automata). -/
theorem C4_counterexample :
    (AhoCorasick.build [['A', 'C', 'G']]).matchAll ['A', 'N', 'G'] = [] := by
  decide

/-- C4 (amended): in the single-pattern automaton a text-side `'N'` always
satisfies the expected transition (any non-accepting state advances on
`'N'`, and pattern "ACG" on text "ANG" matches at 0), and an `'N'` inside a
pattern is matched only when the text also presents `'N'`; but in the
multi-pattern automaton a text-side `'N'` is not a wildcard — it only
follows explicit `'N'`-labelled trie edges coming from pattern-side `'N'`s
(pattern "ANG" matches text "ANG" at 0 but not text "ACG"). -/
theorem C4_wildcard_single_only :
    (∀ (p : List Char) (s : Nat), s < (mkDFA p).pattern.length →
      (mkDFA p).transitions s 'N' = s + 1) ∧
    (∀ (p : List Char), p ≠ [] → ∀ (s : Nat) (c : Char),
      s < (mkDFA p).pattern.length →
      (mkDFA p).pattern.getD s 'A' = 'N' → c ≠ 'N' →
      (mkDFA p).transitions s c ≤ s) ∧
    ((mkDFA ['A', 'C', 'G']).matchAll ['A', 'N', 'G']).map SMatch.position
      = [0] ∧
    ((AhoCorasick.build [['A', 'N', 'G']]).matchAll ['A', 'N', 'G']).map
      (fun mm => (mm.position, mm.pattern_id)) = [(0, 0)] ∧
    (AhoCorasick.build [['A', 'N', 'G']]).matchAll ['A', 'C', 'G'] = [] := by
  refine ⟨transitions_wildcard, transitions_pattern_wildcard_literal,
    ?_, ?_, ?_⟩ <;> decide

theorem C4_witness :
    (0 < (mkDFA ['A', 'C', 'G']).pattern.length ∧
      (mkDFA ['A', 'C', 'G']).transitions 0 'N' = 0 + 1) ∧
    ((['A', 'N', 'G'] : List Char) ≠ [] ∧
      (mkDFA ['A', 'N', 'G']).transitions 1 'C' ≤ 1) :=
  ⟨⟨by decide, C4_wildcard_single_only.1 ['A', 'C', 'G'] 0 (by decide)⟩,
   ⟨by decide, C4_wildcard_single_only.2.1 ['A', 'N', 'G'] (by decide) 1 'C'
      (by decide) (by decide) (by decide)⟩⟩

/-! ### C5: output order -/

/-- The end offset (one past the last matched character) of a reported
multi-pattern match. -/
def ACMatch.endPos (mm : ACMatch) : Int := mm.position + (mm.length : Int)

theorem acEmit_endPos {ps : List (List Char)} {i : Nat} {ids : List Nat}
    {q : Int} (hq : q ∈ (acEmit ps i ids).map ACMatch.endPos) :
    q = (i : Int) + 1 := by
  simp only [acEmit, List.map_map, List.mem_map] at hq
  obtain ⟨pid, _, rfl⟩ := hq
  simp [ACMatch.endPos]
  ring

theorem acScan_endPos_ge (ac : AhoCorasick) :
    ∀ (rest : List Char) (i v : Nat) (q : Int),
      q ∈ (acScanAux ac i v rest).map ACMatch.endPos → (i : Int) + 1 ≤ q := by
  intro rest
  induction rest with
  | nil => intro i v q hq; simp [acScanAux] at hq
  | cons c rest ih =>
      intro i v q hq
      simp only [acScanAux, List.map_append, List.mem_append] at hq
      rcases hq with hq | hq
      · rw [acEmit_endPos hq]
      · have := ih (i + 1) _ q hq
        push_cast at this ⊢
        omega

theorem pairwise_le_of_const (x : Int) :
    ∀ (l : List Int), (∀ q ∈ l, q = x) → l.Pairwise (· ≤ ·) := by
  intro l
  induction l with
  | nil => intro _; exact List.Pairwise.nil
  | cons a l ih =>
      intro h
      rw [List.pairwise_cons]
      refine ⟨?_, ih fun q hq => h q (List.mem_cons_of_mem a hq)⟩
      intro b hb
      rw [h a (List.mem_cons_self a l), h b (List.mem_cons_of_mem a hb)]

theorem acScan_endPos_sorted (ac : AhoCorasick) :
    ∀ (rest : List Char) (i v : Nat),
      List.Sorted (· ≤ ·) ((acScanAux ac i v rest).map ACMatch.endPos) := by
  intro rest
  induction rest with
  | nil => intro i v; simp [acScanAux]
  | cons c rest ih =>
      intro i v
      simp only [acScanAux, List.map_append]
      rw [List.Sorted, List.pairwise_append]
      refine ⟨?_, ih (i + 1) _, ?_⟩
      · exact pairwise_le_of_const ((i : Int) + 1) _ (fun q hq => acEmit_endPos hq)
      · intro a ha b hb
        rw [acEmit_endPos ha]
        have := acScan_endPos_ge ac rest (i + 1) _ b hb
        push_cast at this ⊢
        omega

/-- C5 counterexample: for patterns ["CG", "ACGT"] on text "ACGT" the
multi-pattern automaton reports positions [1, 0] — not ascending (the
longer pattern ends later but starts earlier). -/
theorem C5_counterexample :
    ((AhoCorasick.build [['C', 'G'], ['A', 'C', 'G', 'T']]).matchAll
      ['A', 'C', 'G', 'T']).map (fun mm => mm.position) = [1, 0] := by
  decide

/-- C5 (amended): the single-pattern automaton reports matches in strictly
ascending start-position order for every pattern and every text, and no
overlapping occurrence is suppressed (pattern "ATA" on "ATATA" yields both
0 and 2); the multi-pattern automaton reports matches in non-decreasing
end-position order (all matches emitted at scan step `i` end at `i + 1`),
but its start positions need not be ascending. -/
theorem C5_output_order :
    (∀ (d : DFAStateMachine) (t : List Char),
      List.Sorted (· < ·) ((d.matchAll t).map SMatch.position)) ∧
    (∀ (ac : AhoCorasick) (t : List Char),
      List.Sorted (· ≤ ·) ((ac.matchAll t).map ACMatch.endPos)) ∧
    ((AhoCorasick.build [['A', 'T', 'A']]).matchAll
      ['A', 'T', 'A', 'T', 'A']).map (fun mm => (mm.position, mm.pattern_id))
      = [(0, 0), (2, 0)] := by
  refine ⟨dfa_matchAll_sorted, fun ac t => ?_, by decide⟩
  exact acScan_endPos_sorted ac (upperStr t) 0 0

/-! ### Trie structure: reachability and well-formedness -/

/-- Follow the trie's child edges from node `v` along a string. -/
def tfind (ns : List ACNode) (v : Nat) : List Char → Option Nat
  | [] => some v
  | c :: s =>
      match childOf ns v c with
      | none => none
      | some w => tfind ns w s

/-- A labelled edge of the arena. -/
def Edge (ns : List ACNode) (v : Nat) (c : Char) (w : Nat) : Prop :=
  v < ns.length ∧ (c, w) ∈ (ns.getD v default).children

/-- Structural well-formedness of the trie arena: the root exists, every
edge goes from a valid node to a strictly larger valid index (so the graph
is acyclic and the root has no incoming edge), child labels are unique per
node, and every node has at most one incoming edge. -/
structure TrieWF (ns : List ACNode) : Prop where
  root_pos : 0 < ns.length
  child_bound : ∀ {v c w}, Edge ns v c w → v < w ∧ w < ns.length
  keys_nodup : ∀ v, ((ns.getD v default).children.map Prod.fst).Nodup
  parent_uniq : ∀ {v c w v' c'}, Edge ns v c w → Edge ns v' c' w →
    v = v' ∧ c = c'

theorem tfind_append (ns : List ACNode) (s1 : List Char) :
    ∀ (v : Nat) (s2 : List Char),
    tfind ns v (s1 ++ s2) = (tfind ns v s1).bind (fun u => tfind ns u s2) := by
  induction s1 with
  | nil => intro v s2; simp [tfind]
  | cons c s1 ih =>
      intro v s2
      simp only [List.cons_append, tfind]
      match childOf ns v c with
      | none => rfl
      | some w => exact ih w s2

theorem tfind_snoc (ns : List ACNode) (s : List Char) (c : Char) (v : Nat) :
    tfind ns v (s ++ [c]) =
      (tfind ns v s).bind (fun u => childOf ns u c) := by
  rw [tfind_append]
  congr 1
  funext u
  simp [tfind]
  match childOf ns u c with
  | none => rfl
  | some w => rfl

theorem lookup_mem {l : List (Char × Nat)} {c : Char} {w : Nat}
    (h : l.lookup c = some w) : (c, w) ∈ l := by
  induction l with
  | nil => cases h
  | cons kb l ih =>
      obtain ⟨k, b⟩ := kb
      simp only [List.lookup] at h
      by_cases hck : c = k
      · subst hck
        simp only [beq_self_eq_true] at h
        cases h
        exact List.mem_cons_self _ _
      · rw [show (c == k) = false from beq_eq_false_iff_ne.mpr hck] at h
        exact List.mem_cons_of_mem _ (ih h)

theorem mem_lookup {l : List (Char × Nat)} {c : Char} {w : Nat}
    (hnd : (l.map Prod.fst).Nodup) (h : (c, w) ∈ l) :
    l.lookup c = some w := by
  induction l with
  | nil => cases h
  | cons kb l ih =>
      obtain ⟨k, b⟩ := kb
      simp only [List.map_cons, List.nodup_cons] at hnd
      rcases List.mem_cons.mp h with h1 | h1
      · cases h1
        simp [List.lookup]
      · have hck : c ≠ k := by
          intro hcontra
          subst hcontra
          exact hnd.1 (List.mem_map.mpr ⟨(c, w), h1, rfl⟩)
        simp only [List.lookup,
          show (c == k) = false from beq_eq_false_iff_ne.mpr hck]
        exact ih hnd.2 h1

theorem lookup_eq_none_iff {l : List (Char × Nat)} {c : Char} :
    l.lookup c = none ↔ c ∉ l.map Prod.fst := by
  induction l with
  | nil => simp [List.lookup]
  | cons kb l ih =>
      obtain ⟨k, b⟩ := kb
      by_cases hck : c = k
      · subst hck
        simp [List.lookup]
      · simp only [List.lookup,
          show (c == k) = false from beq_eq_false_iff_ne.mpr hck,
          List.map_cons, List.mem_cons, ih]
        constructor
        · intro h
          rintro (h1 | h1)
          · exact hck h1
          · exact h h1
        · intro h h1
          exact h (Or.inr h1)

theorem lookup_append_of_none {l1 l2 : List (Char × Nat)} {c : Char}
    (h : l1.lookup c = none) : (l1 ++ l2).lookup c = l2.lookup c := by
  induction l1 with
  | nil => rfl
  | cons kb l1 ih =>
      obtain ⟨k, b⟩ := kb
      simp only [List.lookup] at h ⊢
      match hck : c == k with
      | true => rw [hck] at h; cases h
      | false =>
          rw [hck] at h
          simp only [List.cons_append, List.lookup, hck]
          exact ih h

theorem lookup_append_of_some {l1 l2 : List (Char × Nat)} {c : Char} {w : Nat}
    (h : l1.lookup c = some w) : (l1 ++ l2).lookup c = some w := by
  induction l1 with
  | nil => cases h
  | cons kb l1 ih =>
      obtain ⟨k, b⟩ := kb
      simp only [List.lookup] at h ⊢
      match hck : c == k with
      | true => rw [hck] at h; simp only [List.cons_append, List.lookup, hck]; exact h
      | false =>
          rw [hck] at h
          simp only [List.cons_append, List.lookup, hck]
          exact ih h

/-- With unique labels, `childOf` is exactly edge membership. -/
theorem childOf_iff_edge {ns : List ACNode} (wf : TrieWF ns) {v : Nat}
    {c : Char} {w : Nat} (hv : v < ns.length) :
    childOf ns v c = some w ↔ Edge ns v c w := by
  unfold childOf Edge
  constructor
  · intro h
    exact ⟨hv, lookup_mem h⟩
  · rintro ⟨_, hmem⟩
    exact mem_lookup (wf.keys_nodup v) hmem

theorem childOf_mem {ns : List ACNode} {v : Nat} {c : Char} {w : Nat}
    (h : childOf ns v c = some w) : (c, w) ∈ (ns.getD v default).children :=
  lookup_mem h

/-- Out-of-range nodes have no children. -/
theorem childOf_oob {ns : List ACNode} {v : Nat} (hv : ns.length ≤ v)
    (c : Char) : childOf ns v c = none := by
  unfold childOf
  rw [List.getD_eq_default _ _ hv]
  rfl

theorem tfind_lt {ns : List ACNode} (wf : TrieWF ns) :
    ∀ (s : List Char) (v u : Nat), v < ns.length → tfind ns v s = some u →
      u < ns.length := by
  intro s
  induction s with
  | nil => intro v u hv h; cases h; exact hv
  | cons c s ih =>
      intro v u hv h
      simp only [tfind] at h
      match hc : childOf ns v c with
      | none => rw [hc] at h; cases h
      | some w =>
          rw [hc] at h
          have hw := (wf.child_bound ((childOf_iff_edge wf hv).mp hc)).2
          exact ih w u hw h

/-- The walk can only gain index: targets of edges strictly increase. -/
theorem tfind_le {ns : List ACNode} (wf : TrieWF ns) :
    ∀ (s : List Char) (v u : Nat), v < ns.length → tfind ns v s = some u →
      v ≤ u := by
  intro s
  induction s with
  | nil => intro v u hv h; cases h; exact le_refl _
  | cons c s ih =>
      intro v u hv h
      simp only [tfind] at h
      match hc : childOf ns v c with
      | none => rw [hc] at h; cases h
      | some w =>
          rw [hc] at h
          have he := (childOf_iff_edge wf hv).mp hc
          have hw := wf.child_bound he
          have := ih w u hw.2 h
          omega

/-- Only the empty string reaches the root. -/
theorem tfind_zero {ns : List ACNode} (wf : TrieWF ns) {s : List Char}
    (h : tfind ns 0 s = some 0) : s = [] := by
  rcases List.eq_nil_or_concat s with rfl | ⟨s1, c, rfl⟩
  · rfl
  · rw [List.concat_eq_append] at h ⊢
    rw [tfind_snoc] at h
    match h1 : tfind ns 0 s1 with
    | none => rw [h1] at h; cases h
    | some u =>
        rw [h1] at h
        simp only [Option.some_bind] at h
        have hu := tfind_lt wf s1 0 u wf.root_pos h1
        have := (wf.child_bound ((childOf_iff_edge wf hu).mp h)).1
        omega

/-- Injectivity: each node is reached from the root by at most one string. -/
theorem tfind_inj {ns : List ACNode} (wf : TrieWF ns) :
    ∀ (v : Nat) {s s' : List Char}, tfind ns 0 s = some v →
      tfind ns 0 s' = some v → s = s' := by
  intro v
  induction v using Nat.strong_induction_on with
  | _ v ih =>
      intro s s' hs hs'
      match v with
      | 0 => rw [tfind_zero wf hs, tfind_zero wf hs']
      | v + 1 =>
          rcases List.eq_nil_or_concat s with rfl | ⟨s1, c, rfl⟩
          · cases hs
          rcases List.eq_nil_or_concat s' with rfl | ⟨s1', c', rfl⟩
          · cases hs'
          rw [List.concat_eq_append] at hs ⊢
          rw [List.concat_eq_append] at hs' ⊢
          rw [tfind_snoc] at hs hs'
          match h1 : tfind ns 0 s1, h1' : tfind ns 0 s1' with
          | none, _ => rw [h1] at hs; cases hs
          | some u, none => rw [h1'] at hs'; cases hs'
          | some u, some u' =>
              rw [h1] at hs
              rw [h1'] at hs'
              simp only [Option.some_bind] at hs hs'
              have hu := tfind_lt wf s1 0 u wf.root_pos h1
              have hu' := tfind_lt wf s1' 0 u' wf.root_pos h1'
              have he := (childOf_iff_edge wf hu).mp hs
              have he' := (childOf_iff_edge wf hu').mp hs'
              obtain ⟨rfl, rfl⟩ := wf.parent_uniq he he'
              have hlt := (wf.child_bound he).1
              rw [ih u hlt h1 h1']

/-! ### Suffix combinatorics for the trie -/

/-- Among two suffixes of a common list, the shorter is a suffix of the
longer. -/
theorem suffix_of_suffix_le {l1 l2 s : List Char} (h1 : l1 <:+ s)
    (h2 : l2 <:+ s) (hle : l1.length ≤ l2.length) : l1 <:+ l2 := by
  rcases List.suffix_or_suffix_of_suffix h1 h2 with h | h
  · exact h
  · have := h.eq_of_length (le_antisymm h.length_le hle)
    rw [← this]

/-- The length-`k` suffix of `s`. -/
def sufAt (s : List Char) (k : Nat) : List Char := s.drop (s.length - k)

theorem sufAt_suffix (s : List Char) (k : Nat) : sufAt s k <:+ s :=
  List.drop_suffix _ _

theorem sufAt_length {s : List Char} {k : Nat} (hk : k ≤ s.length) :
    (sufAt s k).length = k := by
  simp [sufAt]
  omega

theorem sufAt_zero (s : List Char) : sufAt s 0 = [] := by
  simp [sufAt]

theorem suffix_eq_sufAt {t s : List Char} (h : t <:+ s) :
    t = sufAt s t.length := by
  rw [List.suffix_iff_eq_drop] at h
  exact h

/-! ### Arena update primitives -/

theorem getD_set_self {ns : List ACNode} {v : Nat} (hv : v < ns.length)
    (nd : ACNode) : (ns.set v nd).getD v default = nd := by
  rw [List.getD_eq_getElem?_getD, List.getElem?_set_self (by simpa using hv)]
  rfl

theorem getD_set_ne {ns : List ACNode} {v u : Nat} (h : u ≠ v) (nd : ACNode) :
    (ns.set v nd).getD u default = ns.getD u default := by
  rw [List.getD_eq_getElem?_getD, List.getElem?_set_ne (fun hh => h hh.symm),
    ← List.getD_eq_getElem?_getD]

theorem getD_append_lt {ns : List ACNode} {u : Nat} (h : u < ns.length)
    (x : ACNode) : (ns ++ [x]).getD u default = ns.getD u default := by
  rw [List.getD_eq_getElem?_getD, List.getElem?_append_left h,
    ← List.getD_eq_getElem?_getD]

theorem getD_append_last (ns : List ACNode) (x : ACNode) :
    (ns ++ [x]).getD ns.length default = x := by
  rw [List.getD_eq_getElem?_getD, List.getElem?_append_right (le_refl _)]
  simp

theorem getD_oob {ns : List ACNode} {u : Nat} (h : ns.length ≤ u) :
    ns.getD u default = default :=
  List.getD_eq_default _ _ h

/-! ### The effect of adding one fresh child -/

theorem extendArena_length (ns : List ACNode) (v : Nat) (c : Char) :
    (extendArena ns v c).length = ns.length + 1 := by
  simp [extendArena]

theorem extendArena_getD_ne {ns : List ACNode} {v u : Nat} (h : u ≠ v)
    (hu : u < ns.length) (c : Char) :
    (extendArena ns v c).getD u default = ns.getD u default := by
  unfold extendArena
  rw [getD_append_lt (by simpa using hu), getD_set_ne h]

theorem extendArena_getD_self {ns : List ACNode} {v : Nat}
    (hv : v < ns.length) (c : Char) :
    (extendArena ns v c).getD v default =
      { ns.getD v default with
        children := (ns.getD v default).children ++ [(c, ns.length)] } := by
  unfold extendArena
  rw [getD_append_lt (by simpa using hv), getD_set_self hv]

theorem extendArena_getD_new (ns : List ACNode) (v : Nat) (c : Char)
    (_hv : v < ns.length) :
    (extendArena ns v c).getD ns.length default = default := by
  unfold extendArena
  have h := getD_append_last (ns.set v { ns.getD v default with
    children := (ns.getD v default).children ++ [(c, ns.length)] })
    (default : ACNode)
  rwa [List.length_set] at h

theorem extendArena_getD_oob {ns : List ACNode} {v u : Nat} (c : Char)
    (h : ns.length + 1 ≤ u) :
    (extendArena ns v c).getD u default = default := by
  apply getD_oob
  rw [extendArena_length]
  omega

theorem extendArena_childOf_self {ns : List ACNode} {v : Nat} {c : Char}
    (hv : v < ns.length) (hnone : childOf ns v c = none) :
    childOf (extendArena ns v c) v c = some ns.length := by
  unfold childOf
  rw [extendArena_getD_self hv]
  exact lookup_append_of_none hnone |>.trans (by simp [List.lookup])

theorem extendArena_childOf_other {ns : List ACNode} {v u : Nat} {c c' : Char}
    (hv : v < ns.length) (hne : ¬ (u = v ∧ c' = c)) :
    childOf (extendArena ns v c) u c' = childOf ns u c' := by
  rcases Nat.lt_or_ge u ns.length with hu | hu
  · by_cases huv : u = v
    · subst huv
      have hcc : c' ≠ c := fun h => hne ⟨rfl, h⟩
      unfold childOf
      rw [extendArena_getD_self hv]
      match hc : (ns.getD u default).children.lookup c' with
      | some w => exact lookup_append_of_some hc
      | none =>
          rw [lookup_append_of_none hc]
          simp [List.lookup, show (c' == c) = false from beq_eq_false_iff_ne.mpr hcc]
    · unfold childOf
      rw [extendArena_getD_ne huv hu]
  · rcases Nat.eq_or_lt_of_le hu with heq | hlt
    · unfold childOf
      rw [← heq, extendArena_getD_new ns v c hv, getD_oob (le_refl _)]
    · unfold childOf
      rw [extendArena_getD_oob c (by omega), getD_oob (by omega)]

theorem extendArena_edge_iff {ns : List ACNode} {v : Nat} {c : Char}
    (hv : v < ns.length) {v' : Nat} {c' : Char} {w' : Nat} :
    Edge (extendArena ns v c) v' c' w' ↔
      Edge ns v' c' w' ∨ (v' = v ∧ c' = c ∧ w' = ns.length) := by
  unfold Edge
  rw [extendArena_length]
  constructor
  · rintro ⟨hb, hmem⟩
    rcases Nat.lt_or_ge v' ns.length with hlt | hge
    · by_cases hvv : v' = v
      · subst hvv
        rw [extendArena_getD_self hv] at hmem
        simp only [List.mem_append, List.mem_singleton] at hmem
        rcases hmem with h | h
        · exact Or.inl ⟨hlt, h⟩
        · cases h
          exact Or.inr ⟨rfl, rfl, rfl⟩
      · rw [extendArena_getD_ne hvv hlt] at hmem
        exact Or.inl ⟨hlt, hmem⟩
    · rcases Nat.eq_or_lt_of_le hge with heq | hgt
      · rw [← heq, extendArena_getD_new ns v c hv] at hmem
        cases hmem
      · rw [extendArena_getD_oob c (by omega)] at hmem
        cases hmem
  · rintro (⟨hb, hmem⟩ | ⟨rfl, rfl, rfl⟩)
    · refine ⟨by omega, ?_⟩
      by_cases hvv : v' = v
      · subst hvv
        rw [extendArena_getD_self hv]
        exact List.mem_append_left _ hmem
      · rw [extendArena_getD_ne hvv hb]
        exact hmem
    · refine ⟨by omega, ?_⟩
      rw [extendArena_getD_self hv]
      exact List.mem_append_right _ (List.mem_singleton.mpr rfl)

theorem extendArena_wf {ns : List ACNode} {v : Nat} {c : Char}
    (wf : TrieWF ns) (hv : v < ns.length) (hnone : childOf ns v c = none) :
    TrieWF (extendArena ns v c) := by
  refine ⟨?_, ?_, ?_, ?_⟩
  · rw [extendArena_length]; omega
  · intro v' c' w' he
    rcases (extendArena_edge_iff hv).mp he with h | ⟨rfl, rfl, rfl⟩
    · have := wf.child_bound h
      rw [extendArena_length]
      omega
    · rw [extendArena_length]
      omega
  · intro u
    rcases Nat.lt_or_ge u ns.length with hlt | hge
    · by_cases hvv : u = v
      · subst hvv
        rw [extendArena_getD_self hv]
        simp only [List.map_append]
        rw [List.nodup_append]
        refine ⟨wf.keys_nodup u, by simp, ?_⟩
        intro a ha hb
        simp only [List.map_cons, List.map_nil, List.mem_singleton] at hb
        subst hb
        have := lookup_eq_none_iff.mp hnone
        exact this ha
      · rw [extendArena_getD_ne hvv hlt]
        exact wf.keys_nodup u
    · rcases Nat.eq_or_lt_of_le hge with heq | hgt
      · rw [← heq, extendArena_getD_new ns v c hv]
        exact List.nodup_nil
      · rw [extendArena_getD_oob c (by omega)]
        exact List.nodup_nil
  · intro v1 c1 w1 v2 c2 he1 he2
    rcases (extendArena_edge_iff hv).mp he1 with h1 | ⟨rfl, rfl, rfl⟩ <;>
      rcases (extendArena_edge_iff hv).mp he2 with h2 | ⟨rfl, rfl, h2⟩
    · exact wf.parent_uniq h1 h2
    · have := wf.child_bound h1
      omega
    · have := (wf.child_bound h2).2
      omega
    · exact ⟨rfl, rfl⟩

theorem extendArena_patterns (ns : List ACNode) (v : Nat) (c : Char)
    (hv : v < ns.length) (u : Nat) :
    ((extendArena ns v c).getD u default).patterns =
      (ns.getD u default).patterns := by
  rcases Nat.lt_or_ge u ns.length with hlt | hge
  · by_cases hvv : u = v
    · subst hvv
      rw [extendArena_getD_self hv]
    · rw [extendArena_getD_ne hvv hlt]
  · rcases Nat.eq_or_lt_of_le hge with heq | hgt
    · rw [← heq, extendArena_getD_new ns v c hv, getD_oob (le_refl _)]
    · rw [extendArena_getD_oob c (by omega), getD_oob (by omega)]

theorem extendArena_tfind_preserve {ns : List ACNode} {v : Nat} {c : Char}
    (wf : TrieWF ns) (hv : v < ns.length) (hnone : childOf ns v c = none) :
    ∀ (s : List Char) (u0 u : Nat), u0 < ns.length → tfind ns u0 s = some u →
    tfind (extendArena ns v c) u0 s = some u := by
  intro s
  induction s with
  | nil => intro u0 u _ h; exact h
  | cons c1 s ih =>
      intro u0 u hu0 h
      simp only [tfind] at h ⊢
      match hc : childOf ns u0 c1 with
      | none => rw [hc] at h; cases h
      | some x =>
          rw [hc] at h
          have hne : ¬ (u0 = v ∧ c1 = c) := by
            rintro ⟨rfl, rfl⟩
            rw [hnone] at hc
            cases hc
          rw [extendArena_childOf_other hv hne, hc]
          have hx := (wf.child_bound ((childOf_iff_edge wf hu0).mp hc)).2
          exact ih x u hx h

theorem extendArena_tfind_new {ns : List ACNode} {v : Nat} {c : Char}
    (wf : TrieWF ns) (hv : v < ns.length) (hnone : childOf ns v c = none) :
    ∀ (s : List Char) (u0 u : Nat), u0 < ns.length →
    tfind (extendArena ns v c) u0 s = some u →
    tfind ns u0 s = some u ∨
      ∃ s1, s = s1 ++ [c] ∧ tfind ns u0 s1 = some v ∧ u = ns.length := by
  intro s
  induction s with
  | nil => intro u0 u _ h; exact Or.inl h
  | cons c1 s ih =>
      intro u0 u hu0 h
      simp only [tfind] at h
      by_cases hvc : u0 = v ∧ c1 = c
      · obtain ⟨rfl, rfl⟩ := hvc
        rw [extendArena_childOf_self hv hnone] at h
        match s with
        | [] =>
            simp only [tfind] at h
            cases h
            exact Or.inr ⟨[], rfl, rfl, rfl⟩
        | c2 :: s2 =>
            exfalso
            simp only [tfind] at h
            have : childOf (extendArena ns u0 c1) ns.length c2 = none := by
              unfold childOf
              rw [extendArena_getD_new ns u0 c1 hv]
              rfl
            rw [this] at h
            cases h
      · rw [extendArena_childOf_other hv hvc] at h
        match hc : childOf ns u0 c1 with
        | none => rw [hc] at h; cases h
        | some x =>
            rw [hc] at h
            have hx := (wf.child_bound ((childOf_iff_edge wf hu0).mp hc)).2
            rcases ih x u hx h with h1 | ⟨s1, rfl, h2, h3⟩
            · left
              simp only [tfind, hc]
              exact h1
            · right
              refine ⟨c1 :: s1, rfl, ?_, h3⟩
              simp only [tfind, hc]
              exact h2

theorem extendArena_fail (ns : List ACNode) (v : Nat) (c : Char)
    (hv : v < ns.length) (u : Nat) :
    ((extendArena ns v c).getD u default).fail = (ns.getD u default).fail := by
  rcases Nat.lt_or_ge u ns.length with hlt | hge
  · by_cases hvv : u = v
    · subst hvv
      rw [extendArena_getD_self hv]
    · rw [extendArena_getD_ne hvv hlt]
  · rcases Nat.eq_or_lt_of_le hge with heq | hgt
    · rw [← heq, extendArena_getD_new ns v c hv, getD_oob (le_refl _)]
    · rw [extendArena_getD_oob c (by omega), getD_oob (by omega)]

/-- Full specification of one pattern walk of `_build_trie`: the arena stays
well-formed and only grows, the walked string becomes reachable and ends at
the returned node, previously reachable strings keep their nodes, every
newly reachable string extends `s0` along the walked suffix, `patterns` and
`fail` fields are untouched, and all edge labels still satisfy `P`. -/
theorem insertPath_spec (P : Char → Prop) :
    ∀ (cs : List Char) (ns : List ACNode) (v : Nat) (s0 : List Char),
    TrieWF ns → tfind ns 0 s0 = some v →
    (∀ x ∈ cs, P x) →
    (∀ {v' : Nat} {c' : Char} {w' : Nat}, Edge ns v' c' w' → P c') →
    TrieWF (insertPath ns v cs).1 ∧
    ns.length ≤ (insertPath ns v cs).1.length ∧
    tfind (insertPath ns v cs).1 0 (s0 ++ cs) = some (insertPath ns v cs).2 ∧
    (∀ s u, tfind ns 0 s = some u → tfind (insertPath ns v cs).1 0 s = some u) ∧
    (∀ s u, tfind (insertPath ns v cs).1 0 s = some u →
      tfind ns 0 s = some u ∨ ∃ t, t ≠ [] ∧ t <+: cs ∧ s = s0 ++ t) ∧
    (∀ u, ((insertPath ns v cs).1.getD u default).patterns =
      (ns.getD u default).patterns) ∧
    (∀ u, ((insertPath ns v cs).1.getD u default).fail =
      (ns.getD u default).fail) ∧
    (∀ {v' : Nat} {c' : Char} {w' : Nat},
      Edge (insertPath ns v cs).1 v' c' w' → P c') ∧
    (∀ s u, tfind (insertPath ns v cs).1 0 s = some u → u < ns.length →
      tfind ns 0 s = some u) := by
  intro cs
  induction cs with
  | nil =>
      intro ns v s0 wf h0 _ hlab
      have heq : insertPath ns v [] = (ns, v) := rfl
      rw [heq]
      exact ⟨wf, le_refl _, by simpa using h0, fun s u h => h,
        fun s u h => Or.inl h, fun u => rfl, fun u => rfl, fun he => hlab he,
        fun s u h _ => h⟩
  | cons c cs ih =>
      intro ns v s0 wf h0 hcs hlab
      have hv : v < ns.length := tfind_lt wf s0 0 v wf.root_pos h0
      match hc : childOf ns v c with
      | some w =>
          have hw : w < ns.length := (wf.child_bound ((childOf_iff_edge wf hv).mp hc)).2
          have h0' : tfind ns 0 (s0 ++ [c]) = some w := by
            rw [tfind_snoc, h0, Option.some_bind, hc]
          obtain ⟨i1, i2, i3, i4, i5, i6, i7, i8, i9⟩ := ih ns w (s0 ++ [c]) wf h0'
            (fun x hx => hcs x (List.mem_cons_of_mem c hx)) hlab
          have heq : insertPath ns v (c :: cs) = insertPath ns w cs := by
            simp only [insertPath, hc]
          rw [heq]
          refine ⟨i1, i2, ?_, i4, ?_, i6, i7, fun he => i8 he, i9⟩
          · have : s0 ++ c :: cs = (s0 ++ [c]) ++ cs := by simp
            rw [this]
            exact i3
          · intro s u h
            rcases i5 s u h with h1 | ⟨t, ht1, ht2, rfl⟩
            · exact Or.inl h1
            · refine Or.inr ⟨c :: t, by simp, ?_, by simp⟩
              exact (List.cons_prefix_cons).mpr ⟨rfl, ht2⟩
      | none =>
          have wf2 := extendArena_wf wf hv hc
          have hpres := extendArena_tfind_preserve wf hv hc
          have hnew := extendArena_tfind_new wf hv hc
          have h0'' : tfind (extendArena ns v c) 0 s0 = some v :=
            hpres s0 0 v wf.root_pos h0
          have h0' : tfind (extendArena ns v c) 0 (s0 ++ [c]) = some ns.length := by
            rw [tfind_snoc, h0'', Option.some_bind]
            exact extendArena_childOf_self hv hc
          have hlab2 : ∀ {v' : Nat} {c' : Char} {w' : Nat},
              Edge (extendArena ns v c) v' c' w' → P c' := by
            intro v' c' w' he
            rcases (extendArena_edge_iff hv).mp he with h | ⟨_, rfl, _⟩
            · exact hlab h
            · exact hcs _ (List.mem_cons_self _ cs)
          obtain ⟨i1, i2, i3, i4, i5, i6, i7, i8, i9⟩ := ih (extendArena ns v c)
            ns.length (s0 ++ [c]) wf2 h0'
            (fun x hx => hcs x (List.mem_cons_of_mem c hx)) hlab2
          have heq : insertPath ns v (c :: cs) =
              insertPath (extendArena ns v c) ns.length cs := by
            simp only [insertPath, hc]
          rw [heq]
          rw [extendArena_length] at i2
          refine ⟨i1, by omega, ?_, ?_, ?_, ?_, ?_, fun he => i8 he, ?_⟩
          · have : s0 ++ c :: cs = (s0 ++ [c]) ++ cs := by simp
            rw [this]
            exact i3
          · intro s u h
            exact i4 s u (hpres s 0 u wf.root_pos h)
          · intro s u h
            rcases i5 s u h with h1 | ⟨t, ht1, ht2, rfl⟩
            · rcases hnew s 0 u wf.root_pos h1 with h2 | ⟨s1, rfl, h3, rfl⟩
              · exact Or.inl h2
              · have : s1 = s0 := tfind_inj wf v h3 h0
                subst this
                exact Or.inr ⟨[c], by simp, by simp, rfl⟩
            · refine Or.inr ⟨c :: t, by simp, ?_, by simp⟩
              exact (List.cons_prefix_cons).mpr ⟨rfl, ht2⟩
          · intro u
            rw [i6 u, extendArena_patterns ns v c hv u]
          · intro u
            rw [i7 u, extendArena_fail ns v c hv u]
          · intro s u h hu
            have h2 := i9 s u h (by rw [extendArena_length]; omega)
            rcases hnew s 0 u wf.root_pos h2 with h3 | ⟨s1, rfl, h4, rfl⟩
            · exact h3
            · omega

/-! ### Updates that leave the child structure unchanged -/

/-- Two arenas with the same length and the same child structure (the BFS
phase only rewrites `fail` and `patterns` fields). -/
def childrenEq (ns ns2 : List ACNode) : Prop :=
  ns2.length = ns.length ∧
  ∀ u, (ns2.getD u default).children = (ns.getD u default).children

theorem childrenEq_refl (ns : List ACNode) : childrenEq ns ns :=
  ⟨rfl, fun _ => rfl⟩

theorem childrenEq_trans {ns1 ns2 ns3 : List ACNode}
    (h1 : childrenEq ns1 ns2) (h2 : childrenEq ns2 ns3) : childrenEq ns1 ns3 :=
  ⟨h2.1.trans h1.1, fun u => (h2.2 u).trans (h1.2 u)⟩

theorem childrenEq_set {ns : List ACNode} {v : Nat} {nd : ACNode}
    (hnd : nd.children = (ns.getD v default).children) :
    childrenEq ns (ns.set v nd) := by
  refine ⟨by simp, fun u => ?_⟩
  by_cases huv : u = v
  · subst huv
    rcases Nat.lt_or_ge u ns.length with hlt | hge
    · rw [getD_set_self hlt, hnd]
    · rw [List.set_eq_of_length_le hge]
  · rw [getD_set_ne huv]

theorem childOf_congr {ns ns2 : List ACNode} (h : childrenEq ns ns2)
    (u : Nat) (c : Char) : childOf ns2 u c = childOf ns u c := by
  unfold childOf
  rw [h.2 u]

theorem tfind_congr {ns ns2 : List ACNode} (h : childrenEq ns ns2) :
    ∀ (s : List Char) (v : Nat), tfind ns2 v s = tfind ns v s := by
  intro s
  induction s with
  | nil => intro v; rfl
  | cons c s ih =>
      intro v
      simp only [tfind, childOf_congr h]
      match childOf ns v c with
      | none => rfl
      | some w => exact ih w

theorem edge_congr {ns ns2 : List ACNode} (h : childrenEq ns ns2)
    {v : Nat} {c : Char} {w : Nat} : Edge ns2 v c w ↔ Edge ns v c w := by
  unfold Edge
  rw [h.1, h.2 v]

theorem wf_congr {ns ns2 : List ACNode} (h : childrenEq ns ns2)
    (wf : TrieWF ns) : TrieWF ns2 := by
  refine ⟨by rw [h.1]; exact wf.root_pos, ?_, ?_, ?_⟩
  · intro v c w he
    have := wf.child_bound ((edge_congr h).mp he)
    rw [h.1]
    exact this
  · intro v
    rw [h.2 v]
    exact wf.keys_nodup v
  · intro v c w v' c' he he'
    exact wf.parent_uniq ((edge_congr h).mp he) ((edge_congr h).mp he')

theorem tfind_of_prefix {ns : List ACNode} {s1 s2 : List Char} {u : Nat}
    (h : tfind ns 0 (s1 ++ s2) = some u) : ∃ u2, tfind ns 0 s1 = some u2 := by
  rw [tfind_append] at h
  match h1 : tfind ns 0 s1 with
  | none => rw [h1] at h; cases h
  | some x => exact ⟨x, rfl⟩

/-! ### The trie-build invariant -/

/-- What `_build_trie` guarantees after inserting the first `k` patterns:
the arena is well-formed; the reachable strings are exactly the prefixes of
the inserted patterns; a node's pattern list holds exactly the indices
`i < k` whose pattern ends there, without duplicates; and every edge label
occurs in some pattern. -/
def TrieInv (pats : List (List Char)) (k : Nat) (ns : List ACNode) : Prop :=
  TrieWF ns ∧
  (∀ s, (∃ u, tfind ns 0 s = some u) ↔
    (s = [] ∨ ∃ j, j < k ∧ s <+: pats.getD j [])) ∧
  (∀ u s, tfind ns 0 s = some u →
    ∀ i, (i ∈ (ns.getD u default).patterns ↔ (i < k ∧ pats.getD i [] = s))) ∧
  (∀ u, (ns.getD u default).patterns.Nodup) ∧
  (∀ {v : Nat} {c : Char} {w : Nat}, Edge ns v c w → ∃ q ∈ pats, c ∈ q)

theorem trieInv_zero (pats : List (List Char)) :
    TrieInv pats 0 [(default : ACNode)] := by
  refine ⟨⟨by simp, ?_, ?_, ?_⟩, ?_, ?_, ?_, ?_⟩
  · intro v c w he
    obtain ⟨hv, hmem⟩ := he
    simp only [List.length_singleton] at hv
    interval_cases v
    simp [default] at hmem
  · intro v
    match v with
    | 0 => exact List.nodup_nil
    | v + 1 =>
        rw [getD_oob (by simp)]
        exact List.nodup_nil
  · intro v c w v' c' he
    obtain ⟨hv, hmem⟩ := he
    simp only [List.length_singleton] at hv
    interval_cases v
    simp [default] at hmem
  · intro s
    constructor
    · rintro ⟨u, hu⟩
      left
      match s with
      | [] => rfl
      | c :: s2 =>
          exfalso
          simp only [tfind] at hu
          have : childOf [(default : ACNode)] 0 c = none := rfl
          rw [this] at hu
          cases hu
    · rintro (rfl | ⟨j, hj, _⟩)
      · exact ⟨0, rfl⟩
      · omega
  · intro u s hu i
    constructor
    · intro hmem
      exfalso
      match u with
      | 0 => simp [default] at hmem
      | u + 1 =>
          rw [getD_oob (by simp)] at hmem
          simp [default] at hmem
    · rintro ⟨hi, _⟩
      omega
  · intro u
    match u with
    | 0 => exact List.nodup_nil
    | u + 1 =>
        rw [getD_oob (by simp)]
        exact List.nodup_nil
  · intro v c w he
    obtain ⟨hv, hmem⟩ := he
    simp only [List.length_singleton] at hv
    interval_cases v
    simp [default] at hmem

/-- Inserting pattern `k` (one iteration of `_build_trie`'s loop) advances
the invariant from `k` to `k + 1`. -/
theorem insertPattern_step (pats : List (List Char)) (k : Nat)
    (ns : List ACNode) (inv : TrieInv pats k ns) (hk : k < pats.length) :
    TrieInv pats (k + 1) (insertPattern ns k (pats.getD k [])) := by
  obtain ⟨wf, hlang, hpat, hnodup, hlab⟩ := inv
  set q := pats.getD k [] with hqdef
  have hqmem : q ∈ pats := by
    rw [hqdef, List.getD_eq_getElem?_getD, List.getElem?_eq_getElem hk]
    simp
  obtain ⟨i1, i2, i3, i4, i5, i6, i7, i8, i9⟩ :=
    insertPath_spec (fun c => ∃ q2 ∈ pats, c ∈ q2) q ns 0 [] wf rfl
      (fun x hx => ⟨q, hqmem, hx⟩) (fun he => hlab he)
  simp only [List.nil_append] at i3 i5
  set r1 := (insertPath ns 0 q).1 with hr1
  set r2 := (insertPath ns 0 q).2 with hr2
  have hq : tfind r1 0 q = some r2 := i3
  have hr2lt : r2 < r1.length := tfind_lt i1 q 0 r2 i1.root_pos hq
  have heqdef : insertPattern ns k q =
      r1.set r2 { r1.getD r2 default with
        patterns := (r1.getD r2 default).patterns ++ [k] } := rfl
  rw [heqdef]
  set nd2 : ACNode := { r1.getD r2 default with
    patterns := (r1.getD r2 default).patterns ++ [k] } with hnd2
  have hce : childrenEq r1 (r1.set r2 nd2) := childrenEq_set rfl
  have htf : ∀ s v, tfind (r1.set r2 nd2) v s = tfind r1 v s :=
    fun s v => tfind_congr hce s v
  have hpats2 : ∀ u, ((r1.set r2 nd2).getD u default).patterns =
      if u = r2 then (ns.getD r2 default).patterns ++ [k]
      else (ns.getD u default).patterns := by
    intro u
    by_cases hur : u = r2
    · subst hur
      rw [if_pos rfl, getD_set_self hr2lt]
      show (r1.getD r2 default).patterns ++ [k] =
        (ns.getD r2 default).patterns ++ [k]
      rw [i6 r2]
    · rw [if_neg hur, getD_set_ne hur, i6 u]
  -- the fresh-node case: if the terminal is a new node its old pattern list
  -- is empty, and no already-inserted pattern equals `q`
  have hfresh : ns.length ≤ r2 →
      (∀ i, i < k → pats.getD i [] ≠ q) ∧
      (ns.getD r2 default).patterns = [] := by
    intro hge
    constructor
    · intro i hi hiq
      obtain ⟨u2, hu2⟩ := (hlang q).mpr (Or.inr ⟨i, hi, by rw [hiq]⟩)
      have := i4 q u2 hu2
      have hu2r2 : u2 = r2 := by
        rw [this] at hq
        cases hq
        rfl
      have := tfind_lt wf q 0 u2 wf.root_pos hu2
      omega
    · rw [getD_oob hge]
      rfl
  -- when the terminal is an old node, `q` was already reachable to it
  have hold : r2 < ns.length → tfind ns 0 q = some r2 := fun hlt => i9 q r2 hq hlt
  refine ⟨wf_congr hce i1, ?_, ?_, ?_, ?_⟩
  · intro s
    rw [show (∃ u, tfind (r1.set r2 nd2) 0 s = some u) ↔
        (∃ u, tfind r1 0 s = some u) by
      constructor
      · rintro ⟨u, hu⟩
        rw [htf] at hu
        exact ⟨u, hu⟩
      · rintro ⟨u, hu⟩
        refine ⟨u, ?_⟩
        rw [htf]
        exact hu]
    constructor
    · rintro ⟨u, hu⟩
      rcases i5 s u hu with h1 | ⟨t, _, ht2, rfl⟩
      · rcases (hlang s).mp ⟨u, h1⟩ with rfl | ⟨j, hj, hjp⟩
        · exact Or.inl rfl
        · exact Or.inr ⟨j, by omega, hjp⟩
      · exact Or.inr ⟨k, by omega, ht2⟩
    · rintro (rfl | ⟨j, hj, hjp⟩)
      · exact ⟨0, rfl⟩
      · rcases Nat.lt_or_ge j k with hjk | hjk
        · obtain ⟨u, hu⟩ := (hlang s).mpr (Or.inr ⟨j, hjk, hjp⟩)
          exact ⟨u, i4 s u hu⟩
        · have hjeq : j = k := by omega
          subst hjeq
          obtain ⟨t, ht⟩ := hjp
          rw [← hqdef] at ht
          rw [← ht] at hq
          exact tfind_of_prefix hq
  · intro u s hu i
    rw [htf] at hu
    rw [hpats2 u]
    by_cases hur : u = r2
    · subst hur
      rw [if_pos rfl]
      have hsq : s = q := tfind_inj i1 r2 hu hq
      subst hsq
      rw [List.mem_append, List.mem_singleton]
      rcases Nat.lt_or_ge r2 ns.length with hlt | hge
      · rw [hpat r2 q (hold hlt) i]
        constructor
        · rintro (⟨h1, h2⟩ | rfl)
          · exact ⟨by omega, h2⟩
          · exact ⟨by omega, rfl⟩
        · rintro ⟨h1, h2⟩
          rcases Nat.lt_or_ge i k with hik | hik
          · exact Or.inl ⟨hik, h2⟩
          · exact Or.inr (by omega)
      · obtain ⟨hne, hemp⟩ := hfresh hge
        rw [hemp]
        simp only [List.not_mem_nil, false_or]
        constructor
        · rintro rfl
          exact ⟨by omega, rfl⟩
        · rintro ⟨h1, h2⟩
          rcases Nat.lt_or_ge i k with hik | hik
          · exact absurd h2 (hne i hik)
          · omega
    · rw [if_neg hur]
      have hfun : ∀ u2, tfind r1 0 s = some u2 → u2 = u := by
        intro u2 h2
        rw [h2] at hu
        cases hu
        rfl
      have hnotq : s ≠ q := by
        rintro rfl
        exact hur (hfun r2 hq).symm
      have hcore : tfind ns 0 s = some u → ∀ i,
          (i ∈ (ns.getD u default).patterns ↔ (i < k + 1 ∧ pats.getD i [] = s)) := by
        intro hns i2
        rw [hpat u s hns i2]
        constructor
        · rintro ⟨h1, h2⟩
          exact ⟨by omega, h2⟩
        · rintro ⟨h1, h2⟩
          refine ⟨?_, h2⟩
          rcases Nat.lt_or_ge i2 k with hik | hik
          · exact hik
          · exfalso
            have : i2 = k := by omega
            subst this
            rw [← hqdef] at h2
            exact hnotq h2.symm
      rcases i5 s u hu with h1 | ⟨t, _, ht2, rfl⟩
      · exact hcore h1 i
      · rcases Nat.lt_or_ge u ns.length with hlt | hge
        · exact hcore (i9 _ u hu hlt) i
        · rw [getD_oob hge]
          rw [show (default : ACNode).patterns = [] from rfl]
          simp only [List.not_mem_nil, false_iff]
          rintro ⟨h1, h2⟩
          rcases Nat.lt_or_ge i k with hik | hik
          · obtain ⟨u2, hu2⟩ := (hlang s).mpr (Or.inr ⟨i, hik, by rw [h2]⟩)
            have := hfun u2 (i4 s u2 hu2)
            subst this
            have := tfind_lt wf s 0 u2 wf.root_pos hu2
            omega
          · have : i = k := by omega
            subst this
            rw [← hqdef] at h2
            exact hnotq h2.symm
  · intro u
    rw [hpats2 u]
    by_cases hur : u = r2
    · rw [if_pos hur]
      subst hur
      rw [List.nodup_append]
      refine ⟨hnodup r2, by simp, ?_⟩
      intro a ha hb
      simp only [List.mem_singleton] at hb
      subst hb
      rcases Nat.lt_or_ge r2 ns.length with hlt | hge
      · have := (hpat r2 q (hold hlt) a).mp ha
        omega
      · rw [(hfresh hge).2] at ha
        cases ha
    · rw [if_neg hur]
      exact hnodup u
  · intro v c w he
    exact i8 ((edge_congr hce).mp he)

theorem buildTrieAux_inv (pats : List (List Char)) :
    ∀ (qs : List (List Char)) (k : Nat) (ns : List ACNode),
    TrieInv pats k ns → qs = pats.drop k →
    TrieInv pats (k + qs.length) (buildTrieAux k ns qs) := by
  intro qs
  induction qs with
  | nil =>
      intro k ns inv _
      simpa [buildTrieAux] using inv
  | cons q qs ih =>
      intro k ns inv hdrop
      have hk : k < pats.length := by
        have := congrArg List.length hdrop
        simp only [List.length_cons, List.length_drop] at this
        omega
      have hq : q = pats.getD k [] := by
        have h0 := congrArg (fun l => l.getD 0 ([] : List Char)) hdrop.symm
        simp only [List.getD_cons_zero] at h0
        rw [← h0, List.getD_eq_getElem?_getD, List.getD_eq_getElem?_getD,
          List.getElem?_drop]
        simp
      have hdrop2 : qs = pats.drop (k + 1) := by
        have := congrArg List.tail hdrop
        simpa [List.tail_drop] using this
      have hstep := insertPattern_step pats k ns inv hk
      rw [← hq] at hstep
      have := ih (k + 1) (insertPattern ns k q) hstep hdrop2
      simp only [buildTrieAux, List.length_cons]
      have harith : k + (qs.length + 1) = k + 1 + qs.length := by omega
      rw [harith]
      exact this

/-- The complete characterization of the built trie. -/
theorem buildTrie_inv (pats : List (List Char)) :
    TrieInv pats pats.length (buildTrie pats) := by
  have h := buildTrieAux_inv pats pats 0 [(default : ACNode)]
    (trieInv_zero pats) (by simp)
  simpa [buildTrie] using h

/-! ### Maximal trie suffixes and failure-link correctness -/

/-- The length of the longest suffix of `u` of length at most `bound` that
is a string of the trie.  With `bound = u.length - 1` this is the proper
suffix targeted by a failure link; with `bound = u.length` it is the scan
invariant. -/
def mtsLen (ns : List ACNode) (u : List Char) (bound : Nat) : Nat :=
  Nat.findGreatest (fun k => (tfind ns 0 (sufAt u k)).isSome = true) bound

theorem mtsLen_le (ns : List ACNode) (u : List Char) (bound : Nat) :
    mtsLen ns u bound ≤ bound :=
  Nat.findGreatest_le bound

theorem mtsLen_isSome (ns : List ACNode) (u : List Char) (bound : Nat) :
    (tfind ns 0 (sufAt u (mtsLen ns u bound))).isSome = true := by
  unfold mtsLen
  apply Nat.findGreatest_spec
    (P := fun k => (tfind ns 0 (sufAt u k)).isSome = true) (Nat.zero_le bound)
  rw [sufAt_zero]
  rfl

theorem le_mtsLen {ns : List ACNode} {u t : List Char} {b : Nat}
    (ht : t <:+ u) (hsome : (tfind ns 0 t).isSome = true)
    (hb : t.length ≤ b) : t.length ≤ mtsLen ns u b := by
  unfold mtsLen
  apply Nat.le_findGreatest hb
  rw [← suffix_eq_sufAt ht]
  exact hsome

/-- The failure link of a node with path `s` points at the node of the
longest proper trie suffix of `s`. -/
def failCorrect (ns : List ACNode) (v : Nat) (s : List Char) : Prop :=
  tfind ns 0 (sufAt s (mtsLen ns s (s.length - 1))) =
    some ((ns.getD v default).fail)

/-- A node's pattern list holds exactly the indices of the patterns that are
suffixes of its path, without duplicates. -/
def patsCorrect (ps : List (List Char)) (ns : List ACNode) (v : Nat)
    (s : List Char) : Prop :=
  (∀ i, i ∈ (ns.getD v default).patterns ↔
    (i < ps.length ∧ ps.getD i [] <:+ s)) ∧
  (ns.getD v default).patterns.Nodup

/-- Failure links known (correct) for all nodes of depth below `D`. -/
def failsBelow (ns : List ACNode) (D : Nat) : Prop :=
  ∀ u s, tfind ns 0 s = some u → s.length < D → failCorrect ns u s

/-- The failure-chain walk stops at the longest trie suffix of `s` (the
path of `v`) whose node has a `c`-child, or at the root. -/
theorem chainToChild_spec (ns : List ACNode) (wf : TrieWF ns) (c : Char)
    (D : Nat) (HK : failsBelow ns D) :
    ∀ (fuel : Nat) (s : List Char) (v : Nat), tfind ns 0 s = some v →
    s.length < D → s.length ≤ fuel →
    ∃ t, t <:+ s ∧ tfind ns 0 t = some (chainToChild ns c fuel v) ∧
      (∀ t' u', t' <:+ s → tfind ns 0 t' = some u' →
        (childOf ns u' c).isSome = true → t'.length ≤ t.length) ∧
      ((childOf ns (chainToChild ns c fuel v) c).isSome = true ∨
        (chainToChild ns c fuel v = 0 ∧ t = [])) := by
  intro fuel
  induction fuel with
  | zero =>
      intro s v hv _ hlen
      have hs : s = [] := List.eq_nil_of_length_eq_zero (by omega)
      subst hs
      cases hv
      refine ⟨[], List.nil_suffix, rfl, ?_, Or.inr ⟨rfl, rfl⟩⟩
      intro t' u' ht' _ _
      rw [List.suffix_nil] at ht'
      subst ht'
      exact le_refl _
  | succ fuel ih =>
      intro s v hv hD hlen
      match v with
      | 0 =>
          have hs : s = [] := tfind_zero wf hv
          subst hs
          refine ⟨[], List.nil_suffix, ?_, ?_, ?_⟩
          · show tfind ns 0 [] = some (chainToChild ns c (fuel + 1) 0)
            rfl
          · intro t' u' ht' _ _
            rw [List.suffix_nil] at ht'
            subst ht'
            exact le_refl _
          · exact Or.inr ⟨rfl, rfl⟩
      | v + 1 =>
          by_cases hcs : (childOf ns (v + 1) c).isSome = true
          · have hstop : chainToChild ns c (fuel + 1) (v + 1) = v + 1 := by
              simp only [chainToChild, if_pos hcs]
            rw [hstop]
            exact ⟨s, List.suffix_refl s, hv, fun t' u' ht' _ _ => ht'.length_le,
              Or.inl hcs⟩
          · have hstep : chainToChild ns c (fuel + 1) (v + 1) =
                chainToChild ns c fuel (ns.getD (v + 1) default).fail := by
              simp only [chainToChild, if_neg hcs]
            have hsne : s ≠ [] := by
              intro hcontra
              subst hcontra
              cases hv
            have hslen : 1 ≤ s.length := by
              cases s with
              | nil => exact absurd rfl hsne
              | cons a l => simp
            have hfc : failCorrect ns (v + 1) s := HK (v + 1) s hv hD
            set t2 := sufAt s (mtsLen ns s (s.length - 1)) with ht2def
            have ht2suf : t2 <:+ s := sufAt_suffix s _
            have ht2len : t2.length = mtsLen ns s (s.length - 1) :=
              sufAt_length (le_trans (mtsLen_le ns s _) (by omega))
            have ht2lt : t2.length < s.length := by
              have := mtsLen_le ns s (s.length - 1)
              omega
            obtain ⟨t, htt2, htfind, hmax, hlast⟩ := ih t2
              (ns.getD (v + 1) default).fail hfc (by omega) (by omega)
            rw [hstep]
            refine ⟨t, htt2.trans ht2suf, htfind, ?_, hlast⟩
            intro t' u' ht' hu' hcs'
            by_cases hts : t' = s
            · subst hts
              rw [hu'] at hv
              cases hv
              exact absurd hcs' hcs
            · have ht'lt : t'.length < s.length := by
                rcases Nat.lt_or_ge t'.length s.length with h | h
                · exact h
                · exfalso
                  have := ht'.length_le
                  have heq : t'.length = s.length := by omega
                  exact hts (ht'.eq_of_length heq)
              have ht'le : t'.length ≤ mtsLen ns s (s.length - 1) :=
                le_mtsLen ht' (by rw [hu']; rfl) (by omega)
              have ht't2 : t' <:+ t2 :=
                suffix_of_suffix_le ht' ht2suf (by omega)
              exact hmax t' u' ht't2 hu' hcs'

/-- Each edge strictly increases the node index, so the index of a node
bounds its depth from below. -/
theorem tfind_depth_le {ns : List ACNode} (wf : TrieWF ns) :
    ∀ (s : List Char) (v u : Nat), v < ns.length → tfind ns v s = some u →
      v + s.length ≤ u := by
  intro s
  induction s with
  | nil => intro v u _ h; cases h; simp
  | cons c s ih =>
      intro v u hv h
      simp only [tfind] at h
      match hc : childOf ns v c with
      | none => rw [hc] at h; cases h
      | some w =>
          rw [hc] at h
          have he := (childOf_iff_edge wf hv).mp hc
          have hw := wf.child_bound he
          have := ih w u hw.2 h
          simp only [List.length_cons]
          omega

theorem sufAt_snoc {s : List Char} {c : Char} {k : Nat} (hk1 : 1 ≤ k)
    (hk2 : k ≤ s.length + 1) :
    sufAt (s ++ [c]) k = sufAt s (k - 1) ++ [c] := by
  unfold sufAt
  rw [List.drop_append_eq_append_drop]
  have h1 : (s ++ [c]).length - k = s.length - (k - 1) := by
    simp only [List.length_append, List.length_cons, List.length_nil]
    omega
  rw [h1]
  have h2 : s.length - (k - 1) - s.length = 0 := by omega
  rw [h2]
  rfl

theorem suffix_append_singleton {t s : List Char} (h : t <:+ s) (c : Char) :
    t ++ [c] <:+ s ++ [c] := by
  obtain ⟨p, hp⟩ := h
  exact ⟨p, by rw [← List.append_assoc, hp]⟩

/-- The `goto` step (`fail.children[char] if char in fail.children else
root`, and the loop body of `match`) lands on the node of the longest trie
suffix of `s ++ [c]`, where `s` is the path of the current node `v`. -/
theorem gotoChild_spec (ns : List ACNode) (wf : TrieWF ns) (c : Char)
    (D : Nat) (HK : failsBelow ns D) {s : List Char} {v : Nat}
    (hv : tfind ns 0 s = some v) (hD : s.length < D) :
    tfind ns 0 (sufAt (s ++ [c]) (mtsLen ns (s ++ [c]) (s.length + 1))) =
      some (gotoChild ns c v) := by
  have hvlt := tfind_lt wf s 0 v wf.root_pos hv
  have hlen : s.length ≤ ns.length := by
    have h0 := tfind_depth_le wf s 0 v wf.root_pos hv
    omega
  obtain ⟨t, hts, htf, hmax, hlast⟩ :=
    chainToChild_spec ns wf c D HK ns.length s v hv hD hlen
  cases hcw : childOf ns (chainToChild ns c ns.length v) c with
  | some w =>
      have hgoto : gotoChild ns c v = w := by
        simp only [gotoChild, hcw]
      have htw : tfind ns 0 (t ++ [c]) = some w := by
        rw [tfind_snoc, htf, Option.some_bind, hcw]
      have hsuf : t ++ [c] <:+ s ++ [c] := suffix_append_singleton hts c
      have hmle : t.length + 1 ≤ mtsLen ns (s ++ [c]) (s.length + 1) := by
        have hb : (t ++ [c]).length ≤ s.length + 1 := by
          have := hts.length_le
          simp only [List.length_append, List.length_cons, List.length_nil]
          omega
        have h := le_mtsLen hsuf (by rw [htw]; rfl) hb
        simpa using h
      have hmge : mtsLen ns (s ++ [c]) (s.length + 1) ≤ t.length + 1 := by
        have hk1 : 1 ≤ mtsLen ns (s ++ [c]) (s.length + 1) := by omega
        have hk2 := mtsLen_le ns (s ++ [c]) (s.length + 1)
        have hsome := mtsLen_isSome ns (s ++ [c]) (s.length + 1)
        rw [sufAt_snoc hk1 hk2, tfind_snoc] at hsome
        match h1 : tfind ns 0
            (sufAt s (mtsLen ns (s ++ [c]) (s.length + 1) - 1)) with
        | none => rw [h1] at hsome; cases hsome
        | some u1 =>
            rw [h1, Option.some_bind] at hsome
            have hm := hmax _ u1 (sufAt_suffix s _) h1 hsome
            rw [sufAt_length (by omega)] at hm
            omega
      have hkeq : mtsLen ns (s ++ [c]) (s.length + 1) = t.length + 1 :=
        le_antisymm hmge hmle
      rw [hkeq, sufAt_snoc (by omega)
        (by simpa using Nat.succ_le_succ hts.length_le)]
      have hst : sufAt s (t.length + 1 - 1) = t := by
        have : t.length + 1 - 1 = t.length := rfl
        rw [this, ← suffix_eq_sufAt hts]
      rw [hst, htw, hgoto]
  | none =>
      have hgoto : gotoChild ns c v = 0 := by
        simp only [gotoChild, hcw]
      rcases hlast with hsome | ⟨hr0, ht0⟩
      · rw [hcw] at hsome; cases hsome
      have hm0 : mtsLen ns (s ++ [c]) (s.length + 1) = 0 := by
        by_contra hne
        have hk1 : 1 ≤ mtsLen ns (s ++ [c]) (s.length + 1) :=
          Nat.one_le_iff_ne_zero.mpr hne
        have hk2 := mtsLen_le ns (s ++ [c]) (s.length + 1)
        have hsome := mtsLen_isSome ns (s ++ [c]) (s.length + 1)
        rw [sufAt_snoc hk1 hk2, tfind_snoc] at hsome
        match h1 : tfind ns 0
            (sufAt s (mtsLen ns (s ++ [c]) (s.length + 1) - 1)) with
        | none => rw [h1] at hsome; cases hsome
        | some u1 =>
            rw [h1, Option.some_bind] at hsome
            have hm := hmax _ u1 (sufAt_suffix s _) h1 hsome
            rw [sufAt_length (by omega), ht0] at hm
            have hk1' : mtsLen ns (s ++ [c]) (s.length + 1) - 1 = 0 := by
              simpa using hm
            rw [hk1', sufAt_zero] at h1
            have hu1 : u1 = 0 := by
              have : tfind ns 0 [] = some 0 := rfl
              rw [this] at h1
              exact (Option.some.injEq _ _).mp h1.symm
            subst hu1
            rw [← hr0, hcw] at hsome
            cases hsome
      rw [hm0, sufAt_zero, hgoto]
      rfl

/-- Stepping the longest-trie-suffix invariant: the longest trie suffix of
`u ++ [c]` coincides with the longest trie suffix of `su ++ [c]`, where
`su` is the longest trie suffix of `u`. -/
theorem mts_snoc (ns : List ACNode) (u : List Char) (c : Char) :
    sufAt (u ++ [c]) (mtsLen ns (u ++ [c]) (u.length + 1)) =
      sufAt (sufAt u (mtsLen ns u u.length) ++ [c])
        (mtsLen ns (sufAt u (mtsLen ns u u.length) ++ [c])
          ((sufAt u (mtsLen ns u u.length)).length + 1)) := by
  set su := sufAt u (mtsLen ns u u.length) with hsu
  have hsuu : su <:+ u := sufAt_suffix u _
  have hsulen : su.length = mtsLen ns u u.length :=
    sufAt_length (mtsLen_le ns u u.length)
  set A := sufAt (u ++ [c]) (mtsLen ns (u ++ [c]) (u.length + 1)) with hA
  set B := sufAt (su ++ [c]) (mtsLen ns (su ++ [c]) (su.length + 1)) with hB
  have hAu : A <:+ u ++ [c] := sufAt_suffix _ _
  have hBsu : B <:+ su ++ [c] := sufAt_suffix _ _
  have hAlen : A.length = mtsLen ns (u ++ [c]) (u.length + 1) :=
    sufAt_length (by simpa using mtsLen_le ns (u ++ [c]) (u.length + 1))
  have hBlen : B.length = mtsLen ns (su ++ [c]) (su.length + 1) :=
    sufAt_length (by simpa using mtsLen_le ns (su ++ [c]) (su.length + 1))
  have hAsome : (tfind ns 0 A).isSome = true := mtsLen_isSome ns _ _
  have hBsome : (tfind ns 0 B).isSome = true := mtsLen_isSome ns _ _
  have hBu : B <:+ u ++ [c] :=
    hBsu.trans (suffix_append_singleton hsuu c)
  have hBA : B.length ≤ A.length := by
    rw [hAlen]
    exact le_mtsLen hBu hBsome (by have := hBu.length_le; simpa using this)
  have hAB : A.length ≤ B.length := by
    have hAsu : A <:+ su ++ [c] := by
      rcases Nat.eq_zero_or_pos A.length with h0 | hpos
      · rw [List.length_eq_zero] at h0
        rw [h0]
        exact List.nil_suffix
      · have hk1 : 1 ≤ mtsLen ns (u ++ [c]) (u.length + 1) := by omega
        have hk2 := mtsLen_le ns (u ++ [c]) (u.length + 1)
        have hAeq : A = sufAt u (mtsLen ns (u ++ [c]) (u.length + 1) - 1)
            ++ [c] := by
          rw [hA, sufAt_snoc hk1 hk2]
        set a1 := sufAt u (mtsLen ns (u ++ [c]) (u.length + 1) - 1) with ha1
        have ha1u : a1 <:+ u := sufAt_suffix u _
        have ha1len : a1.length = mtsLen ns (u ++ [c]) (u.length + 1) - 1 :=
          sufAt_length (by omega)
        have ha1some : (tfind ns 0 a1).isSome = true := by
          rw [hAeq] at hAsome
          obtain ⟨w, hw⟩ := Option.isSome_iff_exists.mp hAsome
          obtain ⟨u2, hu2⟩ := tfind_of_prefix hw
          rw [hu2]; rfl
        have ha1m : a1.length ≤ mtsLen ns u u.length :=
          le_mtsLen ha1u ha1some (by have := ha1u.length_le; omega)
        have ha1su : a1 <:+ su :=
          suffix_of_suffix_le ha1u hsuu (by omega)
        rw [hAeq]
        exact suffix_append_singleton ha1su c
    rw [hBlen]
    exact le_mtsLen hAsu hAsome
      (by have := hAsu.length_le; simpa using this)
  have hlen : A.length = B.length := le_antisymm hAB hBA
  exact (suffix_of_suffix_le hAu hBu (le_of_eq hlen)).eq_of_length hlen

/-! ### The breadth-first failure-link construction -/

/-- What `_build_failure_function` establishes at a node: a correct failure
link and a correct pattern list. -/
def nodeSet (ps : List (List Char)) (ns : List ACNode) (v : Nat)
    (s : List Char) : Prop :=
  failCorrect ns v s ∧ patsCorrect ps ns v s

theorem mtsLen_congr {ns ns2 : List ACNode} (h : childrenEq ns ns2)
    {u : List Char} {b : Nat} (hb : b ≤ u.length) :
    mtsLen ns2 u b = mtsLen ns u b := by
  apply le_antisymm
  · have h1 := mtsLen_isSome ns2 u b
    rw [tfind_congr h] at h1
    have h2 := le_mtsLen (b := b) (sufAt_suffix u _) h1
      (by rw [sufAt_length (le_trans (mtsLen_le ns2 u b) hb)]
          exact mtsLen_le ns2 u b)
    rwa [sufAt_length (le_trans (mtsLen_le ns2 u b) hb)] at h2
  · have h1 := mtsLen_isSome ns u b
    rw [← tfind_congr h] at h1
    have h2 := le_mtsLen (b := b) (sufAt_suffix u _) h1
      (by rw [sufAt_length (le_trans (mtsLen_le ns u b) hb)]
          exact mtsLen_le ns u b)
    rwa [sufAt_length (le_trans (mtsLen_le ns u b) hb)] at h2

/-- `nodeSet` only depends on the trie shape and the node's own fields. -/
theorem nodeSet_invar {ps : List (List Char)} {ns ns2 : List ACNode}
    (h : childrenEq ns ns2) {v : Nat} {s : List Char}
    (hf : (ns2.getD v default).fail = (ns.getD v default).fail)
    (hp : (ns2.getD v default).patterns = (ns.getD v default).patterns)
    (hset : nodeSet ps ns v s) : nodeSet ps ns2 v s := by
  constructor
  · unfold failCorrect
    rw [tfind_congr h, mtsLen_congr h (by omega), hf]
    exact hset.1
  · unfold patsCorrect
    rw [hp]
    exact hset.2

/-- Failure links known below a depth bound transfer along `childrenEq`
when the relevant fields agree. -/
theorem failsBelow_invar {ns ns2 : List ACNode} (h : childrenEq ns ns2)
    {D : Nat}
    (hf : ∀ v s, tfind ns 0 s = some v → s.length < D →
      (ns2.getD v default).fail = (ns.getD v default).fail)
    (hk : failsBelow ns D) : failsBelow ns2 D := by
  intro u s hts hlen
  unfold failCorrect
  rw [tfind_congr h, mtsLen_congr h (by omega),
    hf u s (by rwa [tfind_congr h] at hts) hlen]
  exact hk u s (by rwa [tfind_congr h] at hts) hlen

/-- The nodes whose failure data is still pending: the proper descendants
of the queued nodes. -/
def pendSet (ns : List ACNode) (qs : List (List Char)) : Set Nat :=
  {u | ∃ s, tfind ns 0 s = some u ∧ ∃ s' ∈ qs, s' <+: s ∧ s' ≠ s}

theorem forall₂_map_pair {α β γ : Type} (R : β → γ → Prop) (f : α → β)
    (g : α → γ) : ∀ (l : List α), (∀ x ∈ l, R (f x) (g x)) →
    List.Forall₂ R (l.map f) (l.map g) := by
  intro l
  induction l with
  | nil => intro _; exact List.Forall₂.nil
  | cons a l ih =>
      intro h
      simp only [List.map_cons]
      exact List.Forall₂.cons (h a (List.mem_cons_self a l))
        (ih fun x hx => h x (List.mem_cons_of_mem _ hx))

/-- The proper variant of `mts_snoc`: for a node path `sv` of depth at
least 1, the longest proper trie suffix of `sv ++ [c]` equals the longest
(not necessarily proper) trie suffix of `msv ++ [c]`, where `msv` is the
longest proper trie suffix of `sv`.  This is why `_build_failure_function`
may compute a child's failure link by a `goto` step from the parent's
failure node. -/
theorem mts_snoc_proper (ns : List ACNode) {sv : List Char}
    (hsv : 1 ≤ sv.length) (c : Char) :
    sufAt (sv ++ [c]) (mtsLen ns (sv ++ [c]) sv.length) =
      sufAt (sufAt sv (mtsLen ns sv (sv.length - 1)) ++ [c])
        (mtsLen ns (sufAt sv (mtsLen ns sv (sv.length - 1)) ++ [c])
          ((sufAt sv (mtsLen ns sv (sv.length - 1))).length + 1)) := by
  set msv := sufAt sv (mtsLen ns sv (sv.length - 1)) with hmsv
  have hmsvs : msv <:+ sv := sufAt_suffix sv _
  have hmsvlen : msv.length = mtsLen ns sv (sv.length - 1) :=
    sufAt_length (by have := mtsLen_le ns sv (sv.length - 1); omega)
  have hmsvlt : msv.length ≤ sv.length - 1 := by
    rw [hmsvlen]; exact mtsLen_le ns sv (sv.length - 1)
  set A := sufAt (sv ++ [c]) (mtsLen ns (sv ++ [c]) sv.length) with hA
  set B := sufAt (msv ++ [c]) (mtsLen ns (msv ++ [c]) (msv.length + 1))
    with hB
  have hAsuf : A <:+ sv ++ [c] := sufAt_suffix _ _
  have hBsuf : B <:+ msv ++ [c] := sufAt_suffix _ _
  have hAlen : A.length = mtsLen ns (sv ++ [c]) sv.length := by
    rw [hA]
    exact sufAt_length (by
      have := mtsLen_le ns (sv ++ [c]) sv.length
      simp only [List.length_append, List.length_cons, List.length_nil]
      omega)
  have hBlen : B.length = mtsLen ns (msv ++ [c]) (msv.length + 1) := by
    rw [hB]
    exact sufAt_length (by
      have := mtsLen_le ns (msv ++ [c]) (msv.length + 1)
      simp only [List.length_append, List.length_cons, List.length_nil]
      omega)
  have hAsome : (tfind ns 0 A).isSome = true := by
    have := mtsLen_isSome ns (sv ++ [c]) sv.length
    rwa [← hA] at this
  have hBsome : (tfind ns 0 B).isSome = true := by
    have := mtsLen_isSome ns (msv ++ [c]) (msv.length + 1)
    rwa [← hB] at this
  have hBu : B <:+ sv ++ [c] := hBsuf.trans (suffix_append_singleton hmsvs c)
  have hBA : B.length ≤ A.length := by
    rw [hAlen]
    refine le_mtsLen hBu hBsome ?_
    have h1 := mtsLen_le ns (msv ++ [c]) (msv.length + 1)
    omega
  have hAB : A.length ≤ B.length := by
    rcases Nat.eq_zero_or_pos A.length with h0 | hpos
    · omega
    · have hk1 : 1 ≤ mtsLen ns (sv ++ [c]) sv.length := by omega
      have hk2 : mtsLen ns (sv ++ [c]) sv.length ≤ sv.length :=
        mtsLen_le ns (sv ++ [c]) sv.length
      have hAeq : A = sufAt sv (mtsLen ns (sv ++ [c]) sv.length - 1)
          ++ [c] := by
        rw [hA]; exact sufAt_snoc hk1 (by omega)
      set a1 := sufAt sv (mtsLen ns (sv ++ [c]) sv.length - 1) with ha1
      have ha1suf : a1 <:+ sv := sufAt_suffix _ _
      have ha1len : a1.length = mtsLen ns (sv ++ [c]) sv.length - 1 :=
        sufAt_length (by omega)
      have ha1some : (tfind ns 0 a1).isSome = true := by
        rw [hAeq] at hAsome
        obtain ⟨w, hw⟩ := Option.isSome_iff_exists.mp hAsome
        obtain ⟨u2, hu2⟩ := tfind_of_prefix hw
        rw [hu2]; rfl
      have ha1m : a1.length ≤ mtsLen ns sv (sv.length - 1) :=
        le_mtsLen ha1suf ha1some (by omega)
      have ha1msv : a1 <:+ msv :=
        suffix_of_suffix_le ha1suf hmsvs (by omega)
      have hAmsv : A <:+ msv ++ [c] := by
        rw [hAeq]; exact suffix_append_singleton ha1msv c
      rw [hBlen]
      refine le_mtsLen hAmsv hAsome ?_
      have : A.length = a1.length + 1 := by
        rw [hAeq]
        simp only [List.length_append, List.length_cons, List.length_nil]
      omega
  have hlen : A.length = B.length := le_antisymm hAB hBA
  exact (suffix_of_suffix_le hAsuf hBu (le_of_eq hlen)).eq_of_length hlen

theorem childrenEq_symm {ns ns2 : List ACNode} (h : childrenEq ns ns2) :
    childrenEq ns2 ns := by
  refine ⟨h.1.symm, fun u => ?_⟩
  rw [h.2 u]

/-- What the `for char, child in node.children.items()` loop of
`_build_failure_function` establishes: given a dequeued node `v` at path
`sv` whose own data and all shallower data are correct, it sets the failure
link and pattern list of every child correctly and leaves all other nodes
untouched. -/
theorem processChildren_spec (ps : List (List Char)) (ar0 : List ACNode)
    (inv0 : TrieInv ps ps.length ar0) (_hNE : ∀ p ∈ ps, p ≠ [])
    (v : Nat) (sv : List Char) (hsv : 1 ≤ sv.length) :
    ∀ (cs : List (Char × Nat)) (ns : List ACNode),
    childrenEq ar0 ns →
    tfind ns 0 sv = some v →
    (∃ pre, pre ++ cs = (ar0.getD v default).children) →
    (∀ u s, tfind ns 0 s = some u → s.length ≤ sv.length →
      nodeSet ps ns u s) →
    (∀ cw ∈ cs, (ns.getD cw.2 default).patterns =
      (ar0.getD cw.2 default).patterns) →
    childrenEq ar0 (processChildren ns v cs).1 ∧
    (processChildren ns v cs).2 = cs.map Prod.snd ∧
    (∀ u, u ∉ cs.map Prod.snd →
      (processChildren ns v cs).1.getD u default = ns.getD u default) ∧
    (∀ cw ∈ cs, nodeSet ps (processChildren ns v cs).1 cw.2
      (sv ++ [cw.1])) := by
  have wf0 : TrieWF ar0 := inv0.1
  intro cs
  induction cs with
  | nil =>
      intro ns hce _ _ _ _
      exact ⟨hce, rfl, fun u _ => rfl, fun cw hcw => absurd hcw
        (List.not_mem_nil cw)⟩
  | cons cw0 cs' ih =>
      obtain ⟨c, w⟩ := cw0
      intro ns hce hv hsub hbelow hpat
      obtain ⟨pre, hsubeq⟩ := hsub
      have wfn : TrieWF ns := wf_congr hce wf0
      have hvlt : v < ns.length := tfind_lt wfn sv 0 v wfn.root_pos hv
      have hvlt0 : v < ar0.length := by rw [← hce.1]; exact hvlt
      -- the head child is a trie edge of `v`
      have hmem0 : (c, w) ∈ (ar0.getD v default).children := by
        rw [← hsubeq]
        exact List.mem_append_right pre (List.mem_cons_self _ _)
      have hmemn : (c, w) ∈ (ns.getD v default).children := by
        rw [hce.2 v]; exact hmem0
      have hcw : childOf ns v c = some w :=
        mem_lookup (wfn.keys_nodup v) hmemn
      have he : Edge ns v c w := (childOf_iff_edge wfn hvlt).mp hcw
      have hwlt : w < ns.length := (wfn.child_bound he).2
      have hw : tfind ns 0 (sv ++ [c]) = some w := by
        rw [tfind_snoc, hv, Option.some_bind]
        exact hcw
      -- keys of the full children list are distinct
      have hkeys : ((pre ++ (c, w) :: cs').map Prod.fst).Nodup := by
        rw [hsubeq]; exact wf0.keys_nodup v
      have hcnot : c ∉ cs'.map Prod.fst := by
        rw [List.map_append] at hkeys
        have h2 := hkeys.of_append_right
        rw [List.map_cons, List.nodup_cons] at h2
        exact h2.1
      have hwtail : ∀ cw ∈ cs', cw.2 ≠ w := by
        intro cw hcwmem hww
        have hmemt : (cw.1, cw.2) ∈ (ar0.getD v default).children := by
          rw [← hsubeq]
          exact List.mem_append_right pre (List.mem_cons_of_mem _ hcwmem)
        have he1 : Edge ar0 v cw.1 cw.2 := ⟨hvlt0, hmemt⟩
        have he2 : Edge ar0 v c w := ⟨hvlt0, hmem0⟩
        rw [hww] at he1
        have := (wf0.parent_uniq he2 he1).2
        rw [this] at hcnot
        exact hcnot (List.mem_map.mpr ⟨cw, hcwmem, rfl⟩)
      have hwnotin : w ∉ cs'.map Prod.snd := by
        intro hwin
        obtain ⟨cw, hcwmem, hcweq⟩ := List.mem_map.mp hwin
        exact hwtail cw hcwmem hcweq
      -- the parent's failure link is correct, and so are all shallower ones
      have hfv : failCorrect ns v sv := (hbelow v sv hv (le_refl _)).1
      have hqlow : failsBelow ns (sv.length + 1) := by
        intro u s hts hlen
        exact (hbelow u s hts (by omega)).1
      -- the goto step from the parent's failure node
      have hmsvlen : (sufAt sv (mtsLen ns sv (sv.length - 1))).length =
          mtsLen ns sv (sv.length - 1) :=
        sufAt_length (by have := mtsLen_le ns sv (sv.length - 1); omega)
      have hgoto := gotoChild_spec ns wfn c (sv.length + 1) hqlow hfv
        (by rw [hmsvlen]; have := mtsLen_le ns sv (sv.length - 1); omega)
      rw [← mts_snoc_proper ns hsv c] at hgoto
      -- hgoto : tfind at longest proper trie suffix of sv ++ [c]
      --         = some (gotoChild ns c (fail v))
      set f := gotoChild ns c ((ns.getD v default).fail) with hf
      set Bs := sufAt (sv ++ [c]) (mtsLen ns (sv ++ [c]) sv.length) with hBs
      have hBsuf : Bs <:+ sv ++ [c] := sufAt_suffix _ _
      have hBlen : Bs.length = mtsLen ns (sv ++ [c]) sv.length := by
        rw [hBs]
        exact sufAt_length (by
          have := mtsLen_le ns (sv ++ [c]) sv.length
          simp only [List.length_append, List.length_cons, List.length_nil]
          omega)
      have hBsv : Bs.length ≤ sv.length := by
        rw [hBlen]; exact mtsLen_le ns (sv ++ [c]) sv.length
      have hsetf : nodeSet ps ns f Bs := hbelow f Bs hgoto hBsv
      have hfnw : f ≠ w := by
        intro hcontra
        rw [hcontra] at hgoto
        have := tfind_inj wfn w hgoto hw
        have hl : Bs.length = (sv ++ [c]).length := by rw [this]
        simp only [List.length_append, List.length_cons,
          List.length_nil] at hl
        omega
      -- the arena after the two writes to the child
      set nd := ns.getD w default with hnd
      set ns1 := ns.set w { nd with fail := f } with hns1
      have hns1w : ns1.getD w default = { nd with fail := f } :=
        getD_set_self hwlt _
      have hns1ne : ∀ u, u ≠ w → ns1.getD u default = ns.getD u default :=
        fun u hu => getD_set_ne hu _
      set inh := (ns1.getD f default).patterns with hinh
      have hinhf : inh = (ns.getD f default).patterns := by
        rw [hinh, hns1ne f hfnw]
      set nd1 := ns1.getD w default with hnd1
      set ns2 := ns1.set w { nd1 with patterns := nd1.patterns ++ inh }
        with hns2
      have hw1lt : w < ns1.length := by rw [hns1, List.length_set]; exact hwlt
      have hns2w : ns2.getD w default =
          { nd1 with patterns := nd1.patterns ++ inh } :=
        getD_set_self hw1lt _
      have hns2ne : ∀ u, u ≠ w → ns2.getD u default = ns.getD u default := by
        intro u hu
        rw [hns2, getD_set_ne hu, hns1ne u hu]
      have hce1 : childrenEq ns ns1 := childrenEq_set rfl
      have hce2' : childrenEq ns1 ns2 := childrenEq_set rfl
      have hce2 : childrenEq ns ns2 := childrenEq_trans hce1 hce2'
      have hceA : childrenEq ar0 ns2 := childrenEq_trans hce hce2
      -- the recursion step of `processChildren`
      have hstep : processChildren ns v ((c, w) :: cs') =
          ((processChildren ns2 v cs').1,
            w :: (processChildren ns2 v cs').2) := rfl
      -- fields of the child after the writes
      have hw2fail : (ns2.getD w default).fail = f := by
        rw [hns2w]
        show nd1.fail = f
        rw [hns1w]
      have hw2pat : (ns2.getD w default).patterns =
          (ns.getD w default).patterns ++ (ns.getD f default).patterns := by
        rw [hns2w]
        show nd1.patterns ++ inh = _
        rw [hns1w]
        show nd.patterns ++ inh = _
        rw [hnd, hinhf]
      -- the child's node data is now correct
      have hwpat0 : (ns.getD w default).patterns =
          (ar0.getD w default).patterns := hpat (c, w) (List.mem_cons_self _ _)
      have hw0 : tfind ar0 0 (sv ++ [c]) = some w := by
        rw [← tfind_congr hce]; exact hw
      have hsetw : nodeSet ps ns2 w (sv ++ [c]) := by
        constructor
        · unfold failCorrect
          have hlen1 : (sv ++ [c]).length - 1 = sv.length := by
            simp only [List.length_append, List.length_cons, List.length_nil]
            omega
          rw [tfind_congr hce2, hlen1,
            mtsLen_congr hce2 (by
              simp only [List.length_append, List.length_cons,
                List.length_nil]
              omega),
            hw2fail]
          exact hgoto
        · constructor
          · intro i
            rw [hw2pat, List.mem_append, hwpat0]
            have hterm := inv0.2.2.1 w (sv ++ [c]) hw0 i
            have hinhiff := hsetf.2.1 i
            constructor
            · rintro (h1 | h1)
              · obtain ⟨hi, hpi⟩ := hterm.mp h1
                exact ⟨hi, hpi ▸ List.suffix_refl _⟩
              · obtain ⟨hi, hpi⟩ := hinhiff.mp h1
                exact ⟨hi, hpi.trans hBsuf⟩
            · rintro ⟨hi, hpi⟩
              rcases Nat.lt_or_ge (ps.getD i []).length (sv.length + 1)
                with hshort | hlong
              · right
                apply hinhiff.mpr
                refine ⟨hi, ?_⟩
                have hreach : ∃ u', tfind ar0 0 (ps.getD i []) = some u' :=
                  (inv0.2.1 (ps.getD i [])).mpr
                    (Or.inr ⟨i, hi, List.prefix_refl _⟩)
                obtain ⟨u', hu'⟩ := hreach
                have hu'n : (tfind ns 0 (ps.getD i [])).isSome = true := by
                  rw [tfind_congr hce, hu']; rfl
                have hle : (ps.getD i []).length ≤
                    mtsLen ns (sv ++ [c]) sv.length :=
                  le_mtsLen hpi hu'n (by omega)
                exact suffix_of_suffix_le hpi hBsuf (by omega)
              · left
                apply hterm.mpr
                refine ⟨hi, ?_⟩
                have hplen : (ps.getD i []).length = (sv ++ [c]).length := by
                  have := hpi.length_le
                  simp only [List.length_append, List.length_cons,
                    List.length_nil] at this ⊢
                  omega
                exact hpi.eq_of_length hplen
          · rw [hw2pat]
            apply List.Nodup.append
            · rw [hwpat0]; exact inv0.2.2.2.1 w
            · exact hsetf.2.2
            · intro i h1 h2
              rw [hwpat0] at h1
              obtain ⟨_, hpi⟩ := (inv0.2.2.1 w (sv ++ [c]) hw0 i).mp h1
              obtain ⟨_, hpi2⟩ := (hsetf.2.1 i).mp h2
              have hl1 : (ps.getD i []).length = sv.length + 1 := by
                rw [hpi]
                simp only [List.length_append, List.length_cons,
                  List.length_nil]
              have hl2 := hpi2.length_le
              omega
      -- hypotheses for the tail
      have hv2 : tfind ns2 0 sv = some v := by
        rw [tfind_congr hce2]; exact hv
      have hsub2 : ∃ pre2, pre2 ++ cs' = (ar0.getD v default).children :=
        ⟨pre ++ [(c, w)], by rw [List.append_assoc]; exact hsubeq⟩
      have hbelow2 : ∀ u s, tfind ns2 0 s = some u → s.length ≤ sv.length →
          nodeSet ps ns2 u s := by
        intro u s hts hlen
        rw [tfind_congr hce2] at hts
        have huw : u ≠ w := by
          intro hcontra
          rw [hcontra] at hts
          have := tfind_inj wfn w hts hw
          have hl : s.length = (sv ++ [c]).length := by rw [this]
          simp only [List.length_append, List.length_cons,
            List.length_nil] at hl
          omega
        exact nodeSet_invar hce2 (by rw [hns2ne u huw])
          (by rw [hns2ne u huw]) (hbelow u s hts hlen)
      have hpat2 : ∀ cw ∈ cs', (ns2.getD cw.2 default).patterns =
          (ar0.getD cw.2 default).patterns := by
        intro cw hcwmem
        rw [hns2ne cw.2 (hwtail cw hcwmem)]
        exact hpat cw (List.mem_cons_of_mem _ hcwmem)
      obtain ⟨R1, R2, R3, R4⟩ := ih ns2 hceA hv2 hsub2 hbelow2 hpat2
      rw [hstep]
      refine ⟨R1, ?_, ?_, ?_⟩
      · simp only [List.map_cons]
        rw [R2]
      · intro u hu
        simp only [List.map_cons, List.mem_cons] at hu
        push_neg at hu
        rw [R3 u hu.2, hns2ne u hu.1]
      · intro cw hcwmem
        rcases List.mem_cons.mp hcwmem with h1 | h1
        · subst h1
          have hfinw : (processChildren ns2 v cs').1.getD w default =
              ns2.getD w default := R3 w hwnotin
          have hceF : childrenEq ns2 (processChildren ns2 v cs').1 :=
            childrenEq_trans (childrenEq_symm hceA) R1
          exact nodeSet_invar hceF (by rw [hfinw]) (by rw [hfinw]) hsetw
        · exact R4 cw h1

theorem prefix_of_prefix_snoc {s' sv : List Char} {c : Char}
    (h : s' <+: sv ++ [c]) (hl : s'.length ≤ sv.length) : s' <+: sv := by
  have h1 : s' = (sv ++ [c]).take s'.length := List.prefix_iff_eq_take.mp h
  have h2 : (sv ++ [c]).take s'.length = sv.take s'.length := by
    rw [List.take_append_eq_append_take]
    have h3 : s'.length - sv.length = 0 := by omega
    rw [h3, List.take_zero, List.append_nil]
  rw [h1, h2]
  exact List.take_prefix _ _

theorem exists_snoc_prefix {sv s : List Char} (h : sv <+: s) (hne : sv ≠ s) :
    ∃ c0 t, s = (sv ++ [c0]) ++ t := by
  obtain ⟨t, ht⟩ := h
  match t with
  | [] => exact absurd (by rw [← ht, List.append_nil]) hne
  | c0 :: tail =>
      exact ⟨c0, tail, by rw [← ht, List.append_assoc, List.singleton_append]⟩

/-- The invariant of the breadth-first queue loop: the queue holds trie
nodes in non-decreasing depth order within a window of two consecutive
depths, no queued node is an ancestor of another, every node that is not a
proper descendant of a queued node already has correct failure data, and
proper descendants of queued nodes are still in their post-`_build_trie`
state. -/
structure BfsInv (ps : List (List Char)) (ar0 ns : List ACNode)
    (Q : List Nat) (qs : List (List Char)) : Prop where
  hce : childrenEq ar0 ns
  hreach : List.Forall₂ (fun v s => tfind ns 0 s = some v) Q qs
  hqne : ∀ s ∈ qs, s ≠ ([] : List Char)
  hsorted : List.Pairwise (fun a b : List Char => a.length ≤ b.length) qs
  hwin : ∀ s1 ∈ qs, ∀ s2 ∈ qs, s1.length ≤ s2.length + 1
  hanti : ∀ s1 ∈ qs, ∀ s2 ∈ qs, s1 <+: s2 → s1 = s2
  hnodup : qs.Nodup
  hset : ∀ v s, tfind ns 0 s = some v →
    (∀ s' ∈ qs, ¬(s' <+: s ∧ s' ≠ s)) → nodeSet ps ns v s
  hpat : ∀ v s, tfind ns 0 s = some v →
    (∃ s' ∈ qs, s' <+: s ∧ s' ≠ s) →
    (ns.getD v default).patterns = (ar0.getD v default).patterns

theorem bfsInv_nil_set {ps : List (List Char)} {ar0 ns : List ACNode}
    {qs : List (List Char)} (hinv : BfsInv ps ar0 ns [] qs) :
    childrenEq ar0 ns ∧
    ∀ v s, tfind ns 0 s = some v → nodeSet ps ns v s := by
  obtain ⟨hce, hreach, _, _, _, _, _, hset, _⟩ := hinv
  cases hreach
  exact ⟨hce, fun v s h => hset v s h
    (fun s' hs' => absurd hs' (List.not_mem_nil s'))⟩

/-- The queue loop of `_build_failure_function` terminates within its fuel
and leaves every reachable node with correct failure data. -/
theorem bfsLoop_spec (ps : List (List Char)) (ar0 : List ACNode)
    (inv0 : TrieInv ps ps.length ar0) (hNE : ∀ p ∈ ps, p ≠ []) :
    ∀ (fuel : Nat) (ns : List ACNode) (Q : List Nat) (qs : List (List Char)),
    BfsInv ps ar0 ns Q qs →
    Q.length + (pendSet ns qs).ncard ≤ fuel →
    childrenEq ar0 (bfsLoop fuel ns Q) ∧
    ∀ v s, tfind (bfsLoop fuel ns Q) 0 s = some v →
      nodeSet ps (bfsLoop fuel ns Q) v s := by
  have wf0 : TrieWF ar0 := inv0.1
  intro fuel
  induction fuel with
  | zero =>
      intro ns Q qs hinv hfuel
      match Q with
      | [] => exact bfsInv_nil_set hinv
      | v :: rest =>
          exfalso
          simp only [List.length_cons] at hfuel
          omega
  | succ fuel ih =>
      intro ns Q qs hinv hfuel
      match Q with
      | [] => exact bfsInv_nil_set hinv
      | v :: rest =>
      obtain ⟨hce, hreach, hqne, hsorted, hwin, hanti, hnodup, hset, hpat⟩ :=
        hinv
      cases hreach with
      | @cons _ sv _ qrest hv hrest =>
      have wfn : TrieWF ns := wf_congr hce wf0
      have hsv1 : 1 ≤ sv.length := by
        have := hqne sv (List.mem_cons_self _ _)
        cases sv with
        | nil => exact absurd rfl this
        | cons a l => simp
      have hminlen : ∀ s' ∈ qrest, sv.length ≤ s'.length :=
        (List.pairwise_cons.mp hsorted).1
      have hqrestnodup : qrest.Nodup := (List.nodup_cons.mp hnodup).2
      have hsvnotin : sv ∉ qrest := (List.nodup_cons.mp hnodup).1
      -- everything at depth at most `sv.length` is already correct
      have hbelow : ∀ u s, tfind ns 0 s = some u → s.length ≤ sv.length →
          nodeSet ps ns u s := by
        intro u s hts hlen
        apply hset u s hts
        rintro s' hs' ⟨hpre, hne⟩
        have hlt : s'.length < s.length := by
          rcases Nat.lt_or_ge s'.length s.length with h | h
          · exact h
          · exact absurd (hpre.eq_of_length
              (le_antisymm hpre.length_le (by omega))) hne
        rcases List.mem_cons.mp hs' with h1 | h1
        · subst h1; omega
        · have := hminlen s' h1; omega
      set cs := (ns.getD v default).children with hcsdef
      have hchild : ∀ cw ∈ cs, tfind ns 0 (sv ++ [cw.1]) = some cw.2 := by
        intro cw hcw
        have hco : childOf ns v cw.1 = some cw.2 :=
          mem_lookup (wfn.keys_nodup v) hcw
        rw [tfind_snoc, hv, Option.some_bind]
        exact hco
      have hsub : ∃ pre, pre ++ cs = (ar0.getD v default).children :=
        ⟨[], by rw [List.nil_append, hcsdef, hce.2 v]⟩
      have hpatcs : ∀ cw ∈ cs, (ns.getD cw.2 default).patterns =
          (ar0.getD cw.2 default).patterns := by
        intro cw hcw
        apply hpat cw.2 (sv ++ [cw.1]) (hchild cw hcw)
        exact ⟨sv, List.mem_cons_self _ _, ⟨[cw.1], rfl⟩, by
          intro hcontra
          have := congrArg List.length hcontra
          simp at this⟩
      obtain ⟨P1, P2, P3, P4⟩ := processChildren_spec ps ar0 inv0 hNE v sv
        hsv1 cs ns hce hv hsub hbelow hpatcs
      have hceS : childrenEq ns (processChildren ns v cs).1 :=
        childrenEq_trans (childrenEq_symm hce) P1
      have hunfold : bfsLoop (fuel + 1) ns (v :: rest) =
          bfsLoop fuel (processChildren ns v cs).1
            (rest ++ (processChildren ns v cs).2) := rfl
      set ns' := (processChildren ns v cs).1 with hns'
      set qs' := qrest ++ cs.map (fun cw => sv ++ [cw.1]) with hqs'
      -- membership facts about child paths
      have hcplen : ∀ b ∈ cs.map (fun cw : Char × Nat => sv ++ [cw.1]),
          b.length = sv.length + 1 := by
        intro b hb
        obtain ⟨cw, _, rfl⟩ := List.mem_map.mp hb
        simp
      have hqrlen : ∀ s' ∈ qrest, s'.length ≤ sv.length + 1 := by
        intro s' hs'
        exact hwin s' (List.mem_cons_of_mem _ hs') sv (List.mem_cons_self _ _)
      -- a queued element that is a prefix of a child path must be sv itself
      have hqrpre : ∀ s' ∈ qrest, ∀ c1 : Char, s' <+: sv ++ [c1] →
          s' = sv ++ [c1] := by
        intro s' hs' c1 hpre
        rcases Nat.lt_or_ge s'.length (sv.length + 1) with h | h
        · exfalso
          have hps : s' <+: sv := prefix_of_prefix_snoc hpre (by omega)
          have := hanti s' (List.mem_cons_of_mem _ hs') sv
            (List.mem_cons_self _ _) hps
          subst this
          exact hsvnotin hs'
        · exact hpre.eq_of_length (by
            have := hpre.length_le
            simp only [List.length_append, List.length_cons,
              List.length_nil] at this ⊢
            omega)
      -- the new invariant
      have hreach' : List.Forall₂ (fun u s => tfind ns' 0 s = some u)
          (rest ++ (processChildren ns v cs).2) qs' := by
        rw [P2, hqs']
        apply List.rel_append
        · exact hrest.imp (fun u s h => by rw [tfind_congr hceS]; exact h)
        · exact forall₂_map_pair _ _ _ cs
            (fun cw hcw => by rw [tfind_congr hceS]; exact hchild cw hcw)
      have hqne' : ∀ s ∈ qs', s ≠ ([] : List Char) := by
        intro s hs
        rcases List.mem_append.mp hs with h1 | h1
        · exact hqne s (List.mem_cons_of_mem _ h1)
        · obtain ⟨cw, _, rfl⟩ := List.mem_map.mp h1
          simp
      have hsorted' : List.Pairwise
          (fun a b : List Char => a.length ≤ b.length) qs' := by
        rw [hqs']
        rw [List.pairwise_append]
        refine ⟨(List.pairwise_cons.mp hsorted).2, ?_, ?_⟩
        · rw [List.pairwise_map]
          apply List.Pairwise.imp (fun {a b} h => h)
          apply List.pairwise_of_forall_mem_list
          intro a _ b _
          simp
        · intro a ha b hb
          rw [hcplen b hb]
          exact hqrlen a ha
      have hwin' : ∀ s1 ∈ qs', ∀ s2 ∈ qs', s1.length ≤ s2.length + 1 := by
        intro s1 h1 s2 h2
        have hb : ∀ s ∈ qs', sv.length ≤ s.length ∧
            s.length ≤ sv.length + 1 := by
          intro s hs
          rcases List.mem_append.mp hs with h | h
          · exact ⟨hminlen s h, hqrlen s h⟩
          · rw [hcplen s h]; omega
        have := hb s1 h1
        have := hb s2 h2
        omega
      have hanti' : ∀ s1 ∈ qs', ∀ s2 ∈ qs', s1 <+: s2 → s1 = s2 := by
        intro s1 h1 s2 h2 hpre
        rcases List.mem_append.mp h1 with ha | ha <;>
          rcases List.mem_append.mp h2 with hb | hb
        · exact hanti s1 (List.mem_cons_of_mem _ ha) s2
            (List.mem_cons_of_mem _ hb) hpre
        · obtain ⟨cw, _, rfl⟩ := List.mem_map.mp hb
          exact hqrpre s1 ha cw.1 hpre
        · obtain ⟨cw, _, rfl⟩ := List.mem_map.mp ha
          refine hpre.eq_of_length ?_
          have h1l := hpre.length_le
          have h2l := hqrlen s2 hb
          simp only [List.length_append, List.length_cons,
            List.length_nil] at h1l ⊢
          omega
        · refine hpre.eq_of_length ?_
          rw [hcplen s1 ha, hcplen s2 hb]
      have hcsnodup : cs.Nodup := (wfn.keys_nodup v).of_map
      have hidxnodup : (cs.map Prod.snd).Nodup := by
        refine List.Nodup.map_on ?_ hcsnodup
        intro a ha b hb hab
        have hea : Edge ns v a.1 a.2 := ⟨tfind_lt wfn sv 0 v wfn.root_pos hv,
          ha⟩
        have heb : Edge ns v b.1 b.2 := ⟨tfind_lt wfn sv 0 v wfn.root_pos hv,
          hb⟩
        rw [hab] at hea
        have := (wfn.parent_uniq hea heb).2
        have hfst : a.1 = b.1 := this
        exact Prod.ext hfst hab
      have hcpnodup : (cs.map (fun cw : Char × Nat => sv ++ [cw.1])).Nodup := by
        have : (cs.map (fun cw : Char × Nat => sv ++ [cw.1])) =
            (cs.map Prod.fst).map (fun c => sv ++ [c]) := by
          rw [List.map_map]
          rfl
        rw [this]
        refine (wfn.keys_nodup v).map ?_
        intro a b hab
        have := List.append_cancel_left hab
        simpa using this
      have hcpdisj : ∀ b ∈ cs.map (fun cw : Char × Nat => sv ++ [cw.1]),
          b ∉ qrest := by
        intro b hb hbq
        obtain ⟨cw, _, rfl⟩ := List.mem_map.mp hb
        have := hanti sv (List.mem_cons_self _ _) (sv ++ [cw.1])
          (List.mem_cons_of_mem _ hbq) ⟨[cw.1], rfl⟩
        have hl := congrArg List.length this
        simp at hl
      have hnodup' : qs'.Nodup := by
        rw [hqs', List.nodup_append]
        exact ⟨hqrestnodup, hcpnodup, fun a ha hb => hcpdisj a hb ha⟩
      -- nodes off the processed children keep their records
      have hoffeq : ∀ u, u ∉ cs.map Prod.snd →
          ns'.getD u default = ns.getD u default := P3
      -- characterization of new pending nodes, used for both the invariant
      -- and the fuel bound
      have huchild : ∀ u s, tfind ns 0 s = some u → u ∈ cs.map Prod.snd →
          ∃ cw ∈ cs, u = cw.2 ∧ s = sv ++ [cw.1] := by
        intro u s hts hu
        obtain ⟨cw, hcwm, hcweq⟩ := List.mem_map.mp hu
        refine ⟨cw, hcwm, hcweq.symm, ?_⟩
        apply tfind_inj wfn u hts
        rw [← hcweq] at *
        exact hcweq ▸ hchild cw hcwm
      have hset' : ∀ u s, tfind ns' 0 s = some u →
          (∀ s' ∈ qs', ¬(s' <+: s ∧ s' ≠ s)) → nodeSet ps ns' u s := by
        intro u s hts hnp
        rw [tfind_congr hceS] at hts
        by_cases hold : ∀ s' ∈ sv :: qrest, ¬(s' <+: s ∧ s' ≠ s)
        · have hns := hset u s hts hold
          have hunotchild : u ∉ cs.map Prod.snd := by
            intro hu
            obtain ⟨cw, hcwm, rfl, rfl⟩ := huchild u s hts hu
            exact hold sv (List.mem_cons_self _ _) ⟨⟨[cw.1], rfl⟩, by
              intro hcontra
              have := congrArg List.length hcontra
              simp at this⟩
          exact nodeSet_invar hceS (by rw [hoffeq u hunotchild])
            (by rw [hoffeq u hunotchild]) hns
        · push_neg at hold
          obtain ⟨s', hs'm, hpre, hne⟩ := hold
          rcases List.mem_cons.mp hs'm with h1 | h1
          · rw [h1] at hpre hne
            obtain ⟨c0, t, rfl⟩ := exists_snoc_prefix hpre hne
            obtain ⟨u0, hu0⟩ := tfind_of_prefix hts
            have hc0 : childOf ns v c0 = some u0 := by
              rw [tfind_snoc, hv, Option.some_bind] at hu0
              exact hu0
            have hc0m : (c0, u0) ∈ cs := childOf_mem hc0
            rcases t with _ | ⟨c1, t1⟩
            · rw [List.append_nil] at hts hnp ⊢
              have hu : u0 = u := by
                have := hu0.symm.trans hts
                exact Option.some.inj this
              rw [← hu]
              exact P4 (c0, u0) hc0m
            · exfalso
              refine hnp (sv ++ [c0]) ?_ ⟨⟨c1 :: t1, rfl⟩, ?_⟩
              · rw [hqs']
                exact List.mem_append_right _
                  (List.mem_map.mpr ⟨(c0, u0), hc0m, rfl⟩)
              · intro hcontra
                have := congrArg List.length hcontra
                simp at this
          · exact absurd ⟨hpre, hne⟩
              (hnp s' (by rw [hqs']; exact List.mem_append_left _ h1))
      have hpat' : ∀ u s, tfind ns' 0 s = some u →
          (∃ s' ∈ qs', s' <+: s ∧ s' ≠ s) →
          (ns'.getD u default).patterns = (ar0.getD u default).patterns := by
        intro u s hts hex
        rw [tfind_congr hceS] at hts
        obtain ⟨s', hs'm, hpre, hne⟩ := hex
        rw [hqs'] at hs'm
        have hproper : s'.length < s.length := by
          rcases Nat.lt_or_ge s'.length s.length with h | h
          · exact h
          · exact absurd (hpre.eq_of_length
              (le_antisymm hpre.length_le (by omega))) hne
        rcases List.mem_append.mp hs'm with h1 | h1
        · -- pending via an old queue element
          have hpend : (ns.getD u default).patterns =
              (ar0.getD u default).patterns :=
            hpat u s hts ⟨s', List.mem_cons_of_mem _ h1, hpre, hne⟩
          have hunotchild : u ∉ cs.map Prod.snd := by
            intro hu
            obtain ⟨cw, hcwm, rfl, rfl⟩ := huchild u s hts hu
            have := hqrpre s' h1 cw.1 hpre
            subst this
            simp only [List.length_append, List.length_cons,
              List.length_nil] at hproper
            omega
          rw [hoffeq u hunotchild]
          exact hpend
        · obtain ⟨cw, _, rfl⟩ := List.mem_map.mp h1
          have hsvpre : sv <+: s := (List.prefix_append sv [cw.1]).trans hpre
          have hslen : sv.length + 1 < s.length := by
            simp only [List.length_append, List.length_cons,
              List.length_nil] at hproper
            omega
          have hpend : (ns.getD u default).patterns =
              (ar0.getD u default).patterns :=
            hpat u s hts ⟨sv, List.mem_cons_self _ _, hsvpre, by
              intro hcontra
              rw [← hcontra] at hslen
              omega⟩
          have hunotchild : u ∉ cs.map Prod.snd := by
            intro hu
            obtain ⟨cw2, hcwm2, rfl, rfl⟩ := huchild u s hts hu
            simp only [List.length_append, List.length_cons,
              List.length_nil] at hslen
            omega
          rw [hoffeq u hunotchild]
          exact hpend
      -- the fuel bound: processing `v` settles exactly its children
      have hpendeq : pendSet ns' qs' =
          pendSet ns (sv :: qrest) \ {u | u ∈ cs.map Prod.snd} := by
        ext u
        constructor
        · rintro ⟨s, hts, s', hs'm, hpre, hne⟩
          rw [tfind_congr hceS] at hts
          have hproper : s'.length < s.length := by
            rcases Nat.lt_or_ge s'.length s.length with h | h
            · exact h
            · exact absurd (hpre.eq_of_length
                (le_antisymm hpre.length_le (by omega))) hne
          rw [hqs'] at hs'm
          rcases List.mem_append.mp hs'm with h1 | h1
          · refine ⟨⟨s, hts, s', List.mem_cons_of_mem _ h1, hpre, hne⟩, ?_⟩
            intro hu
            obtain ⟨cw, hcwm, rfl, rfl⟩ := huchild u s hts hu
            have := hqrpre s' h1 cw.1 hpre
            subst this
            simp only [List.length_append, List.length_cons,
              List.length_nil] at hproper
            omega
          · obtain ⟨cw, _, rfl⟩ := List.mem_map.mp h1
            have hsvpre : sv <+: s := (List.prefix_append sv [cw.1]).trans hpre
            have hslen : sv.length + 1 < s.length := by
              simp only [List.length_append, List.length_cons,
                List.length_nil] at hproper
              omega
            refine ⟨⟨s, hts, sv, List.mem_cons_self _ _, hsvpre, by
              intro hcontra
              rw [← hcontra] at hslen
              omega⟩, ?_⟩
            intro hu
            obtain ⟨cw2, hcwm2, rfl, rfl⟩ := huchild u s hts hu
            simp only [List.length_append, List.length_cons,
              List.length_nil] at hslen
            omega
        · rintro ⟨⟨s, hts, s', hs'm, hpre, hne⟩, hnotchild⟩
          simp only [Set.mem_setOf_eq] at hnotchild
          rcases List.mem_cons.mp hs'm with h1 | h1
          · rw [h1] at hpre hne
            obtain ⟨c0, t, rfl⟩ := exists_snoc_prefix hpre hne
            obtain ⟨u0, hu0⟩ := tfind_of_prefix hts
            have hc0 : childOf ns v c0 = some u0 := by
              rw [tfind_snoc, hv, Option.some_bind] at hu0
              exact hu0
            have hc0m : (c0, u0) ∈ cs := childOf_mem hc0
            rcases t with _ | ⟨c1, t1⟩
            · exfalso
              rw [List.append_nil] at hts
              have hu : u0 = u := Option.some.inj (hu0.symm.trans hts)
              exact hnotchild (List.mem_map.mpr ⟨(c0, u0), hc0m, by
                rw [hu]⟩)
            · refine ⟨(sv ++ [c0]) ++ c1 :: t1,
                by rw [tfind_congr hceS]; exact hts,
                sv ++ [c0], ?_, ⟨c1 :: t1, rfl⟩, ?_⟩
              · rw [hqs']
                exact List.mem_append_right _
                  (List.mem_map.mpr ⟨(c0, u0), hc0m, rfl⟩)
              · intro hcontra
                have := congrArg List.length hcontra
                simp at this
          · exact ⟨s, by rw [tfind_congr hceS]; exact hts,
              s', by rw [hqs']; exact List.mem_append_left _ h1, hpre, hne⟩
      have hchildsub : {u | u ∈ cs.map Prod.snd} ⊆
          pendSet ns (sv :: qrest) := by
        intro u hu
        simp only [Set.mem_setOf_eq] at hu
        obtain ⟨cw, hcwm, hcweq⟩ := List.mem_map.mp hu
        refine ⟨sv ++ [cw.1], by rw [← hcweq]; exact hchild cw hcwm,
          sv, List.mem_cons_self _ _, ⟨[cw.1], rfl⟩, ?_⟩
        intro hcontra
        have := congrArg List.length hcontra
        simp at this
      have hpendfin : (pendSet ns (sv :: qrest)).Finite := by
        apply Set.Finite.subset (Set.finite_Iio ns.length)
        rintro u ⟨s, hts, _⟩
        exact tfind_lt wfn s 0 u wfn.root_pos hts
      have hchildcard : ({u | u ∈ cs.map Prod.snd} : Set Nat).ncard =
          cs.length := by
        have h1 : ({u | u ∈ cs.map Prod.snd} : Set Nat) =
            ↑(cs.map Prod.snd).toFinset := by
          ext u
          simp
        rw [h1, Set.ncard_coe_Finset, List.toFinset_card_of_nodup hidxnodup,
          List.length_map]
      have hchildle : cs.length ≤ (pendSet ns (sv :: qrest)).ncard := by
        rw [← hchildcard]
        exact Set.ncard_le_ncard hchildsub hpendfin
      have hcard' : (pendSet ns' qs').ncard =
          (pendSet ns (sv :: qrest)).ncard - cs.length := by
        rw [hpendeq, Set.ncard_diff hchildsub ((cs.map Prod.snd).finite_toSet),
          hchildcard]
      have hfuel' : (rest ++ (processChildren ns v cs).2).length +
          (pendSet ns' qs').ncard ≤ fuel := by
        rw [P2, hcard', List.length_append, List.length_map]
        simp only [List.length_cons] at hfuel
        omega
      have hres := ih ns' (rest ++ (processChildren ns v cs).2) qs'
        ⟨P1, hreach', hqne', hsorted', hwin', hanti', hnodup', hset', hpat'⟩
        hfuel'
      rw [hunfold]
      exact hres

/-- The fail-reset fold of `AhoCorasick.__init__` over the root's children:
children are untouched, patterns are untouched, unmentioned nodes are
untouched, and every mentioned in-range node gets failure link 0. -/
theorem foldl_set_fail_spec :
    ∀ (l : List (Char × Nat)) (a : List ACNode),
    (l.foldl (fun acc cw =>
      acc.set cw.2 { acc.getD cw.2 default with fail := 0 }) a).length =
      a.length ∧
    (∀ u, u ∉ l.map Prod.snd →
      (l.foldl (fun acc cw =>
        acc.set cw.2 { acc.getD cw.2 default with fail := 0 }) a).getD u
          default = a.getD u default) ∧
    (∀ u, u ∈ l.map Prod.snd → u < a.length →
      ((l.foldl (fun acc cw =>
        acc.set cw.2 { acc.getD cw.2 default with fail := 0 }) a).getD u
          default).fail = 0 ∧
      ((l.foldl (fun acc cw =>
        acc.set cw.2 { acc.getD cw.2 default with fail := 0 }) a).getD u
          default).children = (a.getD u default).children ∧
      ((l.foldl (fun acc cw =>
        acc.set cw.2 { acc.getD cw.2 default with fail := 0 }) a).getD u
          default).patterns = (a.getD u default).patterns) := by
  intro l
  induction l with
  | nil =>
      intro a
      refine ⟨rfl, fun u _ => rfl, ?_⟩
      intro u hu _
      simp at hu
  | cons cw l ih =>
      intro a
      simp only [List.foldl_cons]
      obtain ⟨ihl, ihoff, ihon⟩ :=
        ih (a.set cw.2 { a.getD cw.2 default with fail := 0 })
      refine ⟨by rw [ihl, List.length_set], ?_, ?_⟩
      · intro u hu
        simp only [List.map_cons, List.mem_cons] at hu
        push_neg at hu
        rw [ihoff u hu.2, getD_set_ne hu.1]
      · intro u hu hlen
        simp only [List.map_cons, List.mem_cons] at hu
        by_cases hul : u ∈ l.map Prod.snd
        · obtain ⟨h1, h2, h3⟩ := ihon u hul (by rw [List.length_set]; exact hlen)
          refine ⟨h1, ?_, ?_⟩
          · rw [h2]
            by_cases huw : u = cw.2
            · subst huw
              rw [getD_set_self hlen]
            · rw [getD_set_ne huw]
          · rw [h3]
            by_cases huw : u = cw.2
            · subst huw
              rw [getD_set_self hlen]
            · rw [getD_set_ne huw]
        · have huw : u = cw.2 := by
            rcases hu with h | h
            · exact h
            · exact absurd h hul
          subst huw
          rw [ihoff _ hul, getD_set_self hlen]
          exact ⟨rfl, rfl, rfl⟩

theorem foldl_set_fail_childrenEq :
    ∀ (l : List (Char × Nat)) (a : List ACNode),
    childrenEq a (l.foldl (fun acc cw =>
      acc.set cw.2 { acc.getD cw.2 default with fail := 0 }) a) := by
  intro l
  induction l with
  | nil => intro a; exact childrenEq_refl a
  | cons cw l ih =>
      intro a
      simp only [List.foldl_cons]
      refine childrenEq_trans ?_
        (ih (a.set cw.2 { a.getD cw.2 default with fail := 0 }))
      exact childrenEq_set rfl

/-- After `AhoCorasick.__init__` finishes (for a pattern list with no empty
pattern), the arena has the same trie shape as `_build_trie`'s output and
every reachable node carries a correct failure link and pattern list. -/
theorem acBuild_spec (pats : List (List Char))
    (hNE : ∀ p ∈ pats.map upperStr, p ≠ []) :
    childrenEq (buildTrie (pats.map upperStr))
      (AhoCorasick.build pats).nodes ∧
    ∀ v s, tfind (AhoCorasick.build pats).nodes 0 s = some v →
      nodeSet (pats.map upperStr) (AhoCorasick.build pats).nodes v s := by
  set ps := pats.map upperStr with hps
  set ar0 := buildTrie ps with har0
  have inv0 : TrieInv ps ps.length ar0 := buildTrie_inv ps
  have wf0 : TrieWF ar0 := inv0.1
  set ns1 := ar0.set 0 { ar0.getD 0 default with fail := 0 } with hns1
  set rc := (ns1.getD 0 default).children with hrc
  set ns2 := rc.foldl (fun acc cw =>
    acc.set cw.2 { acc.getD cw.2 default with fail := 0 }) ns1 with hns2
  have hnodes : (AhoCorasick.build pats).nodes =
      bfsLoop ns2.length ns2 (rc.map Prod.snd) := rfl
  have hceN1 : childrenEq ar0 ns1 := childrenEq_set rfl
  have hceN2 : childrenEq ar0 ns2 :=
    childrenEq_trans hceN1 (foldl_set_fail_childrenEq rc ns1)
  have wf2 : TrieWF ns2 := wf_congr hceN2 wf0
  obtain ⟨hfl, hfoff, hfon⟩ := foldl_set_fail_spec rc ns1
  have hlen2 : ns2.length = ar0.length := hceN2.1
  have hlen1 : ns1.length = ar0.length := hceN1.1
  have hrootpos : 0 < ar0.length := wf0.root_pos
  have hrcar0 : rc = (ar0.getD 0 default).children := by
    rw [hrc, hceN1.2 0]
  -- no root child has index 0, and child indices are distinct
  have hrcedge : ∀ cw ∈ rc, Edge ar0 0 cw.1 cw.2 := by
    intro cw hcw
    rw [hrcar0] at hcw
    exact ⟨hrootpos, hcw⟩
  have hrcpos : ∀ cw ∈ rc, 0 < cw.2 :=
    fun cw hcw => (wf0.child_bound (hrcedge cw hcw)).1
  have hrclt : ∀ cw ∈ rc, cw.2 < ar0.length :=
    fun cw hcw => (wf0.child_bound (hrcedge cw hcw)).2
  -- fail links after the init phase
  have hroot2 : ns2.getD 0 default = ns1.getD 0 default := by
    apply hfoff
    intro h0
    obtain ⟨cw, hcw, hcweq⟩ := List.mem_map.mp h0
    have := hrcpos cw hcw
    omega
  have hrootfail : (ns2.getD 0 default).fail = 0 := by
    rw [hroot2, hns1, getD_set_self hrootpos]
  have hrootpat : (ns2.getD 0 default).patterns =
      (ar0.getD 0 default).patterns := by
    rw [hroot2, hns1, getD_set_self hrootpos]
  have hlvl1 : ∀ cw ∈ rc, ((ns2.getD cw.2 default).fail = 0 ∧
      (ns2.getD cw.2 default).patterns = (ar0.getD cw.2 default).patterns) := by
    intro cw hcw
    have hin : cw.2 ∈ rc.map Prod.snd := List.mem_map.mpr ⟨cw, hcw, rfl⟩
    have hlt : cw.2 < ns1.length := by rw [hlen1]; exact hrclt cw hcw
    obtain ⟨h1, _, h3⟩ := hfon cw.2 hin hlt
    refine ⟨h1, ?_⟩
    rw [h3, hns1, getD_set_ne (by have := hrcpos cw hcw; omega)]
  have hpatall : ∀ u, (ns2.getD u default).patterns =
      (ar0.getD u default).patterns := by
    intro u
    by_cases hu : u ∈ rc.map Prod.snd
    · obtain ⟨cw, hcw, hcweq⟩ := List.mem_map.mp hu
      rw [← hcweq]
      exact (hlvl1 cw hcw).2
    · rw [hfoff u hu]
      by_cases h0 : u = 0
      · subst h0
        rw [hns1, getD_set_self hrootpos]
      · rw [hns1, getD_set_ne h0]
  -- reachability of the level-1 nodes
  have hrcn2 : (ns2.getD 0 default).children = rc := by
    rw [hceN2.2 0, ← hrcar0]
  have hchild1 : ∀ cw ∈ rc, tfind ns2 0 [cw.1] = some cw.2 := by
    intro cw hcw
    have hco : childOf ns2 0 cw.1 = some cw.2 := by
      unfold childOf
      rw [hrcn2]
      rw [hrcar0] at hcw ⊢
      exact mem_lookup (wf0.keys_nodup 0) hcw
    simp only [tfind]
    rw [hco]
  -- distinctness of level-1 indices
  have hrcnodup : rc.Nodup := by
    rw [hrcar0]
    exact (wf0.keys_nodup 0).of_map
  have hidxnodup : (rc.map Prod.snd).Nodup := by
    refine List.Nodup.map_on ?_ hrcnodup
    intro a ha b hb hab
    have hea := hrcedge a ha
    have heb := hrcedge b hb
    rw [hab] at hea
    have hfst : a.1 = b.1 := (wf0.parent_uniq hea heb).2
    exact Prod.ext hfst hab
  -- the initial queue invariant
  set qs0 := rc.map (fun cw : Char × Nat => [cw.1]) with hqs0
  have hinv : BfsInv ps ar0 ns2 (rc.map Prod.snd) qs0 := by
    refine ⟨hceN2, ?_, ?_, ?_, ?_, ?_, ?_, ?_, ?_⟩
    · exact forall₂_map_pair _ _ _ rc (fun cw hcw => hchild1 cw hcw)
    · intro s hs
      obtain ⟨cw, _, rfl⟩ := List.mem_map.mp hs
      simp
    · rw [hqs0, List.pairwise_map]
      apply List.Pairwise.imp (fun {a b} h => h)
      apply List.pairwise_of_forall_mem_list
      intro a _ b _
      simp
    · intro s1 h1 s2 h2
      obtain ⟨cw1, _, rfl⟩ := List.mem_map.mp h1
      obtain ⟨cw2, _, rfl⟩ := List.mem_map.mp h2
      simp
    · intro s1 h1 s2 h2 hpre
      obtain ⟨cw1, _, rfl⟩ := List.mem_map.mp h1
      obtain ⟨cw2, _, rfl⟩ := List.mem_map.mp h2
      exact hpre.eq_of_length (by simp)
    · rw [hqs0]
      have : (rc.map fun cw : Char × Nat => [cw.1]) =
          (rc.map Prod.fst).map (fun c => [c]) := by
        rw [List.map_map]
        rfl
      rw [this]
      refine ((by rw [hrcar0]; exact wf0.keys_nodup 0 :
        (rc.map Prod.fst).Nodup)).map ?_
      intro a b hab
      simpa using hab
    · -- nodes with no queued proper ancestor: the root and depth 1
      intro u s hts hnp
      match s, hts with
      | [], hts =>
          have hu : u = 0 := by
            have : tfind ns2 0 [] = some 0 := rfl
            rw [this] at hts
            exact (Option.some.inj hts).symm
          subst hu
          constructor
          · unfold failCorrect
            simp only [List.length_nil, Nat.zero_sub]
            have : mtsLen ns2 [] 0 = 0 :=
              Nat.le_zero.mp (mtsLen_le ns2 [] 0)
            rw [this, sufAt_zero, hrootfail]
            rfl
          · constructor
            · intro i
              rw [hrootpat]
              have h0 : tfind ar0 0 [] = some 0 := rfl
              rw [inv0.2.2.1 0 [] h0 i]
              constructor
              · rintro ⟨hi, hpi⟩
                refine ⟨hi, ?_⟩
                rw [hpi]
              · rintro ⟨hi, hpi⟩
                exact ⟨hi, List.suffix_nil.mp hpi⟩
            · rw [hrootpat]
              exact inv0.2.2.2.1 0
      | c :: s', hts =>
          -- a queued singleton is a proper prefix of anything longer
          have hs' : s' = [] := by
            by_contra hne
            simp only [tfind] at hts
            match hco : childOf ns2 0 c with
            | none => rw [hco] at hts; cases hts
            | some u0 =>
                have hmem : (c, u0) ∈ rc := by
                  have := childOf_mem hco
                  rw [hrcn2] at this
                  exact this
                refine hnp [c] ?_ ⟨⟨s', rfl⟩, ?_⟩
                · rw [hqs0]
                  exact List.mem_map.mpr ⟨(c, u0), hmem, rfl⟩
                · intro hcontra
                  have := congrArg List.length hcontra
                  simp only [List.length_cons, List.length_nil] at this
                  exact hne (List.eq_nil_of_length_eq_zero (by omega))
          subst hs'
          simp only [tfind] at hts
          match hco : childOf ns2 0 c with
          | none => rw [hco] at hts; cases hts
          | some u0 =>
              simp only [hco] at hts
              have hu : u0 = u := Option.some.inj hts
              subst hu
              have hmem : (c, u0) ∈ rc := by
                have := childOf_mem hco
                rw [hrcn2] at this
                exact this
              obtain ⟨hfail0, hpat0⟩ := hlvl1 (c, u0) hmem
              constructor
              · unfold failCorrect
                simp only [List.length_cons, List.length_nil]
                have : mtsLen ns2 [c] (1 - 1) = 0 :=
                  Nat.le_zero.mp (mtsLen_le ns2 [c] (1 - 1))
                rw [this, sufAt_zero, hfail0]
                rfl
              · have h0 : tfind ar0 0 [c] = some u0 := by
                  rw [← tfind_congr hceN2]
                  exact hchild1 (c, u0) hmem
                constructor
                · intro i
                  rw [hpat0, inv0.2.2.1 u0 [c] h0 i]
                  constructor
                  · rintro ⟨hi, hpi⟩
                    refine ⟨hi, ?_⟩
                    rw [hpi]
                  · rintro ⟨hi, hpi⟩
                    refine ⟨hi, ?_⟩
                    have hne : ps.getD i [] ≠ [] := by
                      apply hNE
                      rw [hps]
                      have hgl : ps.getD i [] = ps[i] := by
                        rw [List.getD_eq_getElem?_getD,
                          List.getElem?_eq_getElem hi]
                        rfl
                      rw [← hps, hgl]
                      exact List.getElem_mem hi
                    have hlen : (ps.getD i []).length = 1 := by
                      have h1 := hpi.length_le
                      have h2 : 0 < (ps.getD i []).length :=
                        List.length_pos.mpr hne
                      simp only [List.length_cons, List.length_nil] at h1
                      omega
                    exact hpi.eq_of_length (by
                      rw [hlen]
                      simp)
                · rw [hpat0]
                  exact inv0.2.2.2.1 u0
    · intro u s hts _
      exact hpatall u
  -- the fuel bound: queued nodes and pending nodes are distinct valid nodes
  have hQcard : ({u | u ∈ rc.map Prod.snd} : Set Nat).ncard =
      (rc.map Prod.snd).length := by
    have h1 : ({u | u ∈ rc.map Prod.snd} : Set Nat) =
        ↑(rc.map Prod.snd).toFinset := by
      ext u
      simp
    rw [h1, Set.ncard_coe_Finset, List.toFinset_card_of_nodup hidxnodup]
  have hdisj : Disjoint ({u | u ∈ rc.map Prod.snd} : Set Nat)
      (pendSet ns2 qs0) := by
    rw [Set.disjoint_left]
    rintro u hu ⟨s, hts, s', hs'm, hpre, hne⟩
    simp only [Set.mem_setOf_eq] at hu
    obtain ⟨cw, hcw, hcweq⟩ := List.mem_map.mp hu
    have hpath : s = [cw.1] := by
      apply tfind_inj wf2 u hts
      rw [← hcweq]
      exact hchild1 cw hcw
    obtain ⟨cw', _, rfl⟩ := List.mem_map.mp hs'm
    subst hpath
    have h1 := hpre.length_le
    simp only [List.length_cons, List.length_nil] at h1
    exact hne (hpre.eq_of_length (by simp))
  have hpendfin : (pendSet ns2 qs0).Finite := by
    apply Set.Finite.subset (Set.finite_Iio ns2.length)
    rintro u ⟨s, hts, _⟩
    exact tfind_lt wf2 s 0 u wf2.root_pos hts
  have hsub : ({u | u ∈ rc.map Prod.snd} : Set Nat) ∪ pendSet ns2 qs0 ⊆
      Set.Iio ns2.length := by
    rintro u (hu | hu)
    · simp only [Set.mem_setOf_eq] at hu
      obtain ⟨cw, hcw, hcweq⟩ := List.mem_map.mp hu
      have := hrclt cw hcw
      rw [Set.mem_Iio, hlen2]
      omega
    · obtain ⟨s, hts, _⟩ := hu
      exact tfind_lt wf2 s 0 u wf2.root_pos hts
  have hfuel : (rc.map Prod.snd).length + (pendSet ns2 qs0).ncard ≤
      ns2.length := by
    have h1 : (({u | u ∈ rc.map Prod.snd} : Set Nat) ∪
        pendSet ns2 qs0).ncard =
        ({u | u ∈ rc.map Prod.snd} : Set Nat).ncard +
        (pendSet ns2 qs0).ncard :=
      Set.ncard_union_eq hdisj ((rc.map Prod.snd).finite_toSet) hpendfin
    have h2 : (({u | u ∈ rc.map Prod.snd} : Set Nat) ∪
        pendSet ns2 qs0).ncard ≤ (Set.Iio ns2.length).ncard :=
      Set.ncard_le_ncard hsub (Set.finite_Iio ns2.length)
    have h3 : (Set.Iio ns2.length).ncard = ns2.length := by
      rw [← Finset.coe_Iio, Set.ncard_coe_Finset, Nat.card_Iio]
    rw [hQcard] at h1
    omega
  obtain ⟨hc, hs⟩ := bfsLoop_spec ps ar0 inv0 hNE ns2.length ns2
    (rc.map Prod.snd) qs0 hinv hfuel
  rw [hnodes]
  exact ⟨hc, hs⟩

/-! ### The multi-pattern scan -/

/-- Reference form of a multi-pattern match record: pattern `i` ending at
text offset `e` (so starting at `e - |pattern|`). -/
def acRec (ps : List (List Char)) (i e : Nat) : ACMatch :=
  { position := (e : Int) - ((ps.getD i []).length : Int)
    pattern := ps.getD i []
    length := (ps.getD i []).length
    pattern_id := i
    score := 1 }

/-- The records emitted after consuming the character at index `j` all end
at offset `j + 1`. -/
theorem acEmit_eq_acRec (ps : List (List Char)) (j : Nat) (ids : List Nat) :
    acEmit ps j ids = ids.map (fun pid => acRec ps pid (j + 1)) := by
  unfold acEmit acRec
  apply List.map_congr_left
  intro pid _
  simp only [ACMatch.mk.injEq, and_true]
  push_cast
  ring

/-- One scan step of `AhoCorasick.match` preserves the invariant: the
current node is the one reached by the longest trie suffix of the processed
text. -/
theorem acStep_goto (ac : AhoCorasick) (hwf : TrieWF ac.nodes)
    (hall : ∀ v s, tfind ac.nodes 0 s = some v →
      nodeSet ac.patterns ac.nodes v s)
    (u : List Char) (c : Char) (vcur : Nat)
    (hv : tfind ac.nodes 0 (sufAt u (mtsLen ac.nodes u u.length)) =
      some vcur) :
    tfind ac.nodes 0 (sufAt (u ++ [c])
      (mtsLen ac.nodes (u ++ [c]) (u.length + 1))) =
      some (gotoChild ac.nodes c vcur) := by
  have hK : failsBelow ac.nodes
      ((sufAt u (mtsLen ac.nodes u u.length)).length + 1) :=
    fun v s hts _ => (hall v s hts).1
  have h := gotoChild_spec ac.nodes hwf c
    ((sufAt u (mtsLen ac.nodes u u.length)).length + 1) hK hv (by omega)
  rw [← mts_snoc ac.nodes u c] at h
  exact h

/-- After each scan step, the pattern ids at the current node are exactly
the patterns that end at the current text offset. -/
theorem acStep_patterns (ac : AhoCorasick) (hwf : TrieWF ac.nodes)
    (hlang : ∀ s, (∃ w, tfind ac.nodes 0 s = some w) ↔
      (s = [] ∨ ∃ j, j < ac.patterns.length ∧ s <+: ac.patterns.getD j []))
    (hall : ∀ v s, tfind ac.nodes 0 s = some v →
      nodeSet ac.patterns ac.nodes v s)
    (u : List Char) (c : Char) (vcur : Nat)
    (hv : tfind ac.nodes 0 (sufAt u (mtsLen ac.nodes u u.length)) =
      some vcur) :
    ∀ i, i ∈ (ac.nodes.getD (gotoChild ac.nodes c vcur) default).patterns ↔
      (i < ac.patterns.length ∧ ac.patterns.getD i [] <:+ u ++ [c]) := by
  have hgoto := acStep_goto ac hwf hall u c vcur hv
  have hnode := hall _ _ hgoto
  intro i
  rw [hnode.2.1 i]
  constructor
  · rintro ⟨hi, hpi⟩
    exact ⟨hi, hpi.trans (sufAt_suffix _ _)⟩
  · rintro ⟨hi, hpi⟩
    refine ⟨hi, ?_⟩
    have hreach : (tfind ac.nodes 0 (ac.patterns.getD i [])).isSome =
        true := by
      obtain ⟨w, hw⟩ := (hlang _).mpr (Or.inr ⟨i, hi, List.prefix_refl _⟩)
      rw [hw]; rfl
    have hb : (ac.patterns.getD i []).length ≤ u.length + 1 := by
      have := hpi.length_le
      simp only [List.length_append, List.length_cons, List.length_nil]
        at this
      omega
    have hle := le_mtsLen hpi hreach hb
    have hAlen : (sufAt (u ++ [c])
        (mtsLen ac.nodes (u ++ [c]) (u.length + 1))).length =
        mtsLen ac.nodes (u ++ [c]) (u.length + 1) :=
      sufAt_length (by
        have := mtsLen_le ac.nodes (u ++ [c]) (u.length + 1)
        simp only [List.length_append, List.length_cons, List.length_nil]
        omega)
    exact suffix_of_suffix_le hpi (sufAt_suffix _ _) (by omega)

/-- Membership characterization of the scan output: a record is produced
exactly for each pattern occurrence ending strictly inside the remaining
text. -/
theorem acScanAux_mem_iff (ac : AhoCorasick) (hwf : TrieWF ac.nodes)
    (hlang : ∀ s, (∃ w, tfind ac.nodes 0 s = some w) ↔
      (s = [] ∨ ∃ j, j < ac.patterns.length ∧ s <+: ac.patterns.getD j []))
    (hall : ∀ v s, tfind ac.nodes 0 s = some v →
      nodeSet ac.patterns ac.nodes v s) :
    ∀ (rest u : List Char) (vcur : Nat),
    tfind ac.nodes 0 (sufAt u (mtsLen ac.nodes u u.length)) = some vcur →
    ∀ m, m ∈ acScanAux ac u.length vcur rest ↔
      ∃ i, i < ac.patterns.length ∧ ∃ e, u.length + 1 ≤ e ∧
        e ≤ u.length + rest.length ∧
        ac.patterns.getD i [] <:+ (u ++ rest).take e ∧
        m = acRec ac.patterns i e := by
  intro rest
  induction rest with
  | nil =>
      intro u vcur _ m
      constructor
      · intro h
        exact absurd h (List.not_mem_nil m)
      · rintro ⟨i, hi, e, he1, he2, _⟩
        simp only [List.length_nil] at he2
        omega
  | cons c rest' ih =>
      intro u vcur hv m
      have hgoto := acStep_goto ac hwf hall u c vcur hv
      have hpats := acStep_patterns ac hwf hlang hall u c vcur hv
      have hstep : acScanAux ac u.length vcur (c :: rest') =
          acEmit ac.patterns u.length
            ((ac.nodes.getD (gotoChild ac.nodes c vcur) default).patterns) ++
          acScanAux ac (u.length + 1) (gotoChild ac.nodes c vcur) rest' :=
        rfl
      rw [hstep, List.mem_append, acEmit_eq_acRec]
      have hlen1 : (u ++ [c]).length = u.length + 1 := by simp
      have hih := ih (u ++ [c]) (gotoChild ac.nodes c vcur)
        (by rw [hlen1]; exact hgoto) m
      rw [hlen1, List.append_assoc, List.singleton_append] at hih
      rw [hih]
      constructor
      · rintro (h | h)
        · rw [List.mem_map] at h
          obtain ⟨pid, hpidm, rfl⟩ := h
          obtain ⟨hi, hsuf⟩ := (hpats pid).mp hpidm
          refine ⟨pid, hi, u.length + 1, le_refl _, by
            simp only [List.length_cons]
            omega, ?_, rfl⟩
          rw [take_append_one]
          exact hsuf
        · obtain ⟨i, hi, e, he1, he2, hsuf, hm⟩ := h
          refine ⟨i, hi, e, by omega, ?_, hsuf, hm⟩
          simp only [List.length_cons]
          omega
      · rintro ⟨i, hi, e, he1, he2, hsuf, hm⟩
        rcases Nat.eq_or_lt_of_le he1 with heq | hlt
        · left
          rw [List.mem_map]
          refine ⟨i, ?_, ?_⟩
          · apply (hpats i).mpr
            refine ⟨hi, ?_⟩
            rw [← heq, take_append_one] at hsuf
            exact hsuf
          · rw [hm, ← heq]
        · right
          refine ⟨i, hi, e, by omega, ?_, hsuf, hm⟩
          simp only [List.length_cons] at he2
          omega

/-- The end offset of a reference record. -/
theorem acRec_end (ps : List (List Char)) (i e : Nat) :
    (acRec ps i e).position + ((acRec ps i e).length : Int) = (e : Int) := by
  unfold acRec
  push_cast
  ring

/-- The scan never emits the same record twice. -/
theorem acScanAux_nodup (ac : AhoCorasick) (hwf : TrieWF ac.nodes)
    (hlang : ∀ s, (∃ w, tfind ac.nodes 0 s = some w) ↔
      (s = [] ∨ ∃ j, j < ac.patterns.length ∧ s <+: ac.patterns.getD j []))
    (hall : ∀ v s, tfind ac.nodes 0 s = some v →
      nodeSet ac.patterns ac.nodes v s) :
    ∀ (rest u : List Char) (vcur : Nat),
    tfind ac.nodes 0 (sufAt u (mtsLen ac.nodes u u.length)) = some vcur →
    (acScanAux ac u.length vcur rest).Nodup := by
  intro rest
  induction rest with
  | nil =>
      intro u vcur _
      exact List.nodup_nil
  | cons c rest' ih =>
      intro u vcur hv
      have hgoto := acStep_goto ac hwf hall u c vcur hv
      have hnode := hall _ _ hgoto
      have hstep : acScanAux ac u.length vcur (c :: rest') =
          acEmit ac.patterns u.length
            ((ac.nodes.getD (gotoChild ac.nodes c vcur) default).patterns) ++
          acScanAux ac (u.length + 1) (gotoChild ac.nodes c vcur) rest' :=
        rfl
      rw [hstep, acEmit_eq_acRec]
      apply List.Nodup.append
      · refine List.Nodup.map_on ?_ hnode.2.2
        intro a _ b _ hab
        have := congrArg ACMatch.pattern_id hab
        exact this
      · have hlen1 : (u ++ [c]).length = u.length + 1 := by simp
        have h := ih (u ++ [c]) (gotoChild ac.nodes c vcur)
          (by rw [hlen1]; exact hgoto)
        rw [hlen1] at h
        exact h
      · intro a hmem1 hmem2
        obtain ⟨pid, _, rfl⟩ := List.mem_map.mp hmem1
        have hlen1 : (u ++ [c]).length = u.length + 1 := by simp
        have hmemiff := acScanAux_mem_iff ac hwf hlang hall rest' (u ++ [c])
          (gotoChild ac.nodes c vcur) (by rw [hlen1]; exact hgoto)
          (acRec ac.patterns pid (u.length + 1))
        rw [hlen1] at hmemiff
        obtain ⟨i, _, e, he1, _, _, hm⟩ := hmemiff.mp hmem2
        have h1 := congrArg
          (fun r : ACMatch => r.position + (r.length : Int)) hm
        simp only at h1
        rw [acRec_end, acRec_end] at h1
        have : u.length + 1 = e := by exact_mod_cast h1
        omega

theorem upperChar_of_mem_alphabet {c : Char} (h : c ∈ alphabet) :
    c.toUpper = c := by
  rcases mem_alphabet_iff.mp h with rfl | rfl | rfl | rfl | rfl <;> decide

theorem upperStr_of_canonDNA {s : List Char} (h : canonDNA s) :
    upperStr s = s := by
  unfold upperStr
  have h1 : ∀ c ∈ s, c.toUpper = id c :=
    fun c hc => upperChar_of_mem_alphabet (h c hc)
  rw [List.map_congr_left h1, List.map_id]

theorem getD_mem_of_lt {ps : List (List Char)} {i : Nat}
    (hi : i < ps.length) : ps.getD i [] ∈ ps := by
  have hgl : ps.getD i [] = ps[i] := by
    rw [List.getD_eq_getElem?_getD, List.getElem?_eq_getElem hi]
    rfl
  rw [hgl]
  exact List.getElem_mem hi

/-- C2: for canonical non-empty patterns and a canonical text, the
multi-pattern `match` returns exactly the union over `i` of the naive
all-overlaps occurrences of pattern `i`, each record tagged with its
pattern id, with no duplicates; and the nested-suffix example
`["ACG","CG"]` on `"ACG"` yields `"ACG"` at 0 and `"CG"` at 1, both ending
at offset 2. -/
theorem C2_ac_matchAll_eq_naive_union (pats : List (List Char))
    (t : List Char) (h1 : ∀ p ∈ pats, p ≠ [])
    (h2 : ∀ p ∈ pats, canonDNA p) (h3 : canonDNA t) :
    (∀ m, m ∈ (AhoCorasick.build pats).matchAll t ↔
      ∃ i, i < pats.length ∧ ∃ j, j ∈ naivePositions (pats.getD i []) t ∧
        m = { position := (j : Int), pattern := pats.getD i [],
              length := (pats.getD i []).length, pattern_id := i,
              score := 1 }) ∧
    ((AhoCorasick.build pats).matchAll t).Nodup ∧
    (AhoCorasick.build [['A','C','G'], ['C','G']]).matchAll ['A','C','G'] =
      [{ position := 0, pattern := ['A','C','G'], length := 3,
         pattern_id := 0, score := 1 },
       { position := 1, pattern := ['C','G'], length := 2,
         pattern_id := 1, score := 1 }] := by
  have hpeq : pats.map upperStr = pats := by
    have h4 : ∀ p ∈ pats, upperStr p = id p :=
      fun p hp => upperStr_of_canonDNA (h2 p hp)
    rw [List.map_congr_left h4, List.map_id]
  have hNE : ∀ p ∈ pats.map upperStr, p ≠ [] := by
    rw [hpeq]; exact h1
  obtain ⟨hce, hall0⟩ := acBuild_spec pats hNE
  have hacp : (AhoCorasick.build pats).patterns = pats := hpeq
  have inv0 := buildTrie_inv (pats.map upperStr)
  have hwf : TrieWF (AhoCorasick.build pats).nodes := wf_congr hce inv0.1
  have hall : ∀ v s, tfind (AhoCorasick.build pats).nodes 0 s = some v →
      nodeSet (AhoCorasick.build pats).patterns
        (AhoCorasick.build pats).nodes v s := by
    intro v s hts
    have := hall0 v s hts
    rw [show (AhoCorasick.build pats).patterns = pats.map upperStr from rfl]
    exact this
  have hlang : ∀ s, (∃ w, tfind (AhoCorasick.build pats).nodes 0 s =
        some w) ↔
      (s = [] ∨ ∃ j, j < (AhoCorasick.build pats).patterns.length ∧
        s <+: (AhoCorasick.build pats).patterns.getD j []) := by
    intro s
    rw [show (AhoCorasick.build pats).patterns = pats.map upperStr from rfl]
    constructor
    · rintro ⟨w, hw⟩
      rw [tfind_congr hce] at hw
      exact (inv0.2.1 s).mp ⟨w, hw⟩
    · intro h
      obtain ⟨w, hw⟩ := (inv0.2.1 s).mpr h
      exact ⟨w, by rw [tfind_congr hce]; exact hw⟩
  have hv0 : tfind (AhoCorasick.build pats).nodes 0
      (sufAt ([] : List Char)
        (mtsLen (AhoCorasick.build pats).nodes [] ([] : List Char).length)) =
      some 0 := by
    have hm0 : mtsLen (AhoCorasick.build pats).nodes [] 0 = 0 :=
      Nat.le_zero.mp (mtsLen_le _ [] 0)
    show tfind _ 0 (sufAt [] (mtsLen _ [] 0)) = some 0
    rw [hm0, sufAt_zero]
    rfl
  have h0 : (AhoCorasick.build pats).matchAll t =
      acScanAux (AhoCorasick.build pats) ([] : List Char).length 0 t := by
    show acScanAux _ 0 0 (upperStr t) = _
    rw [upperStr_of_canonDNA h3]
    rfl
  refine ⟨?_, ?_, ?_⟩
  · intro m
    rw [h0, acScanAux_mem_iff (AhoCorasick.build pats) hwf hlang hall t []
      0 hv0 m]
    simp only [List.length_nil, List.nil_append, Nat.zero_add, hacp]
    constructor
    · rintro ⟨i, hi, e, he1, he2, hsuf, hm⟩
      have hpne : pats.getD i [] ≠ [] := h1 _ (getD_mem_of_lt hi)
      have hplen : 1 ≤ (pats.getD i []).length := List.length_pos.mpr hpne
      have hple : (pats.getD i []).length ≤ e := by
        have := hsuf.length_le
        rw [List.length_take] at this
        omega
      refine ⟨i, hi, e - (pats.getD i []).length, ?_, ?_⟩
      · rw [naivePositions_mem]
        have hocc := (occAt_iff (pats.getD i []) t hpne
          (e - (pats.getD i []).length)).mpr
          ⟨by omega, by
            have he : e - (pats.getD i []).length +
                (pats.getD i []).length = e := by omega
            rw [he]
            exact hsuf⟩
        exact ⟨by omega, hocc⟩
      · rw [hm]
        unfold acRec
        simp only [ACMatch.mk.injEq, and_true]
        have he : (e : Int) = ((e - (pats.getD i []).length : Nat) : Int) +
            ((pats.getD i []).length : Int) := by
          omega
        rw [he]
        ring
    · rintro ⟨i, hi, j, hj, hm⟩
      have hpne : pats.getD i [] ≠ [] := h1 _ (getD_mem_of_lt hi)
      have hplen : 1 ≤ (pats.getD i []).length := List.length_pos.mpr hpne
      rw [naivePositions_mem] at hj
      obtain ⟨hjlt, hocc⟩ := hj
      obtain ⟨hle, hsuf⟩ := (occAt_iff (pats.getD i []) t hpne j).mp hocc
      refine ⟨i, hi, j + (pats.getD i []).length, by omega, by omega,
        hsuf, ?_⟩
      rw [hm]
      unfold acRec
      simp only [ACMatch.mk.injEq, and_true]
      push_cast
      ring
  · rw [h0]
    exact acScanAux_nodup (AhoCorasick.build pats) hwf hlang hall t [] 0 hv0
  · decide

theorem C2_witness :
    ((AhoCorasick.build [['A', 'C'], ['C']]).matchAll ['A', 'C']).Nodup :=
  (C2_ac_matchAll_eq_naive_union [['A', 'C'], ['C']] ['A', 'C']
    (by decide) (by decide) (by decide)).2.1

/-- C8: an out-of-alphabet text symbol is not an error in either engine.
The single-pattern scanner resets the state to 0, emits nothing for that
symbol and continues with the rest of the text; the multi-pattern scanner
(for canonical non-empty patterns, so that the trie carries only alphabet
labels and the root carries no pattern ids) resets the node to the root,
emits nothing and continues. -/
theorem C8_out_of_alphabet_resets :
    (∀ (δ : Nat → Char → Nat) (fail : List Nat) (m : Nat)
      (tu : List Char) (i state : Nat) (c : Char) (rest : List Char),
      c ∉ alphabet →
      matchAux δ fail m tu i state (c :: rest) =
        matchAux δ fail m tu (i + 1) 0 rest) ∧
    (∀ (pats : List (List Char)), (∀ p ∈ pats, p ≠ []) →
      (∀ p ∈ pats, canonDNA p) →
      ∀ (c : Char), c ∉ alphabet → ∀ (i v : Nat) (rest : List Char),
      acScanAux (AhoCorasick.build pats) i v (c :: rest) =
        acScanAux (AhoCorasick.build pats) (i + 1) 0 rest) := by
  constructor
  · intro δ fail m tu i state c rest hc
    simp only [matchAux, if_neg hc]
  · intro pats h1 h2 c hc i v rest
    have hpeq : pats.map upperStr = pats := by
      have h4 : ∀ p ∈ pats, upperStr p = id p :=
        fun p hp => upperStr_of_canonDNA (h2 p hp)
      rw [List.map_congr_left h4, List.map_id]
    have hNE : ∀ p ∈ pats.map upperStr, p ≠ [] := by
      rw [hpeq]; exact h1
    obtain ⟨hce, hall0⟩ := acBuild_spec pats hNE
    have inv0 := buildTrie_inv (pats.map upperStr)
    -- no node anywhere has a `c`-labelled edge
    have hnochild : ∀ r, childOf (AhoCorasick.build pats).nodes r c =
        none := by
      intro r
      rw [childOf_congr hce r c]
      rcases Nat.lt_or_ge r (buildTrie (pats.map upperStr)).length with
        hr | hr
      · match hcw : childOf (buildTrie (pats.map upperStr)) r c with
        | none => rfl
        | some w =>
            exfalso
            have he : Edge (buildTrie (pats.map upperStr)) r c w :=
              ⟨hr, childOf_mem hcw⟩
            obtain ⟨q, hq, hcq⟩ := inv0.2.2.2.2 he
            obtain ⟨p, hp, rfl⟩ := List.mem_map.mp hq
            rw [upperStr_of_canonDNA (h2 p hp)] at hcq
            exact hc (h2 p hp c hcq)
      · exact childOf_oob hr c
    have hgoto0 : gotoChild (AhoCorasick.build pats).nodes c v = 0 := by
      simp only [gotoChild, hnochild]
    have hrootpat :
        ((AhoCorasick.build pats).nodes.getD 0 default).patterns = [] := by
      have hn := hall0 0 [] rfl
      apply List.eq_nil_iff_forall_not_mem.mpr
      intro i0 hi0
      obtain ⟨hlt, hsuf⟩ := (hn.2.1 i0).mp hi0
      have := List.suffix_nil.mp hsuf
      exact hNE _ (getD_mem_of_lt hlt) this
    have hstep : acScanAux (AhoCorasick.build pats) i v (c :: rest) =
        acEmit (AhoCorasick.build pats).patterns i
          ((AhoCorasick.build pats).nodes.getD
            (gotoChild (AhoCorasick.build pats).nodes c v)
              default).patterns ++
        acScanAux (AhoCorasick.build pats) (i + 1)
          (gotoChild (AhoCorasick.build pats).nodes c v) rest := rfl
    rw [hstep, hgoto0, hrootpat]
    simp only [acEmit, List.map_nil, List.nil_append]

theorem C8_witness :
    matchAux (fun s _ => s) [] 1 ['A'] 0 0 ['x'] =
      matchAux (fun s _ => s) [] 1 ['A'] 1 0 [] ∧
    acScanAux (AhoCorasick.build [['A']]) 0 0 ['x', 'A'] =
      acScanAux (AhoCorasick.build [['A']]) 1 0 ['A'] :=
  ⟨C8_out_of_alphabet_resets.1 (fun s _ => s) [] 1 ['A'] 0 0 'x' []
    (by decide),
   C8_out_of_alphabet_resets.2 [['A']] (by decide) (by decide) 'x'
    (by decide) 0 0 ['A']⟩

end DnaDfa
